import Mathlib

/-!
The drawable navigation graph of rmf_planner_viz.

A shallow embedding of `src/rmf_planner_viz/draw/Graph.cpp`: the constructor of
`Graph::Implementation` (the projection of a source navigation graph into per-floor
buckets of primitives), `choose_map`, `current_map`, `bounds`, `pick`, `select`,
`deselect` and `selected`.

Conventions of the embedding.
* `float` values are exact rationals; the two infinities of the empty bounding box are
  the extra values of `EFloat`.
* `std::unordered_map` is an association list with unique keys, iterated in insertion
  order; `std::unordered_set` is a list used as a set.
* `sqrt` (libm) and `Capsule::pick` (Capsule.hpp) are external and are parameters.
* Text layout that depends on font metrics (origin, position, scale) is not part of
  the model; a text keeps its string, character size and fill colour.
-/

namespace rmf_planner_viz
namespace draw

/-! ## Values of the rendering library -/

/-- An `sf::Color`: red, green, blue, alpha. -/
structure Color where
  r : Nat
  g : Nat
  b : Nat
  a : Nat
deriving DecidableEq, Repr

namespace Color
def White : Color := ⟨255, 255, 255, 255⟩
def Red : Color := ⟨255, 0, 0, 255⟩
def Blue : Color := ⟨0, 0, 255, 255⟩
def Yellow : Color := ⟨255, 255, 0, 255⟩
def Magenta : Color := ⟨255, 0, 255, 255⟩
def Cyan : Color := ⟨0, 255, 255, 255⟩
end Color

/-- A vector of two floats (`sf::Vector2f`, `Eigen::Vector2f`). -/
structure Vec2 where
  x : ℚ
  y : ℚ
deriving DecidableEq, Repr

namespace Vec2
def add (a b : Vec2) : Vec2 := ⟨a.x + b.x, a.y + b.y⟩
def sub (a b : Vec2) : Vec2 := ⟨a.x - b.x, a.y - b.y⟩
def smul (a : Vec2) (k : ℚ) : Vec2 := ⟨a.x * k, a.y * k⟩
def sdiv (a : Vec2) (k : ℚ) : Vec2 := ⟨a.x / k, a.y / k⟩
/-- The test `v.norm() <= r` in exact arithmetic: a Euclidean norm is at most `r`
exactly when `r` is not negative and the squared norm is at most `r * r`. -/
def norm_le (v : Vec2) (r : ℚ) : Bool := decide (0 ≤ r) && decide (v.x * v.x + v.y * v.y ≤ r * r)
end Vec2

/-- A float that may be one of the two infinities. -/
inductive EFloat where
  | negInf : EFloat
  | fin : ℚ → EFloat
  | posInf : EFloat
deriving DecidableEq, Repr

namespace EFloat
/-- The comparison `a < b`. -/
def lt : EFloat → EFloat → Bool
  | negInf, negInf => false
  | negInf, _ => true
  | fin _, negInf => false
  | fin a, fin b => decide (a < b)
  | fin _, posInf => true
  | posInf, _ => false
/-- The sum `a + q` with a finite `q`. -/
def add : EFloat → ℚ → EFloat
  | fin a, q => fin (a + q)
  | negInf, _ => negInf
  | posInf, _ => posInf
/-- The difference `a - q` with a finite `q`. -/
def sub : EFloat → ℚ → EFloat
  | fin a, q => fin (a - q)
  | negInf, _ => negInf
  | posInf, _ => posInf
end EFloat

/-- A vector of two possibly infinite floats: a corner of `Fit::Bounds`. -/
structure EVec2 where
  x : EFloat
  y : EFloat
deriving DecidableEq, Repr

/-- An `sf::Vertex`: a position and a colour. -/
structure Vertex where
  position : Vec2
  color : Color
deriving DecidableEq, Repr

/-- The capsule primitive of Capsule.hpp as this file uses it: built from two coloured
end points and a half width, with settable start and end colours. -/
structure Capsule where
  v0 : Vertex
  v1 : Vertex
  radius : ℚ
deriving DecidableEq, Repr

namespace Capsule
def set_start_color (c : Capsule) (col : Color) : Capsule :=
  { c with v0 := { c.v0 with color := col } }
def set_end_color (c : Capsule) (col : Color) : Capsule :=
  { c with v1 := { c.v1 with color := col } }
end Capsule

/-- An `sf::CircleShape`. -/
structure CircleShape where
  radius : ℚ
  origin : Vec2
  position : Vec2
  fillColor : Color
deriving DecidableEq, Repr

/-- An `sf::Text`: the string, the character size and the fill colour. -/
structure Text where
  string : String
  characterSize : Nat
  fillColor : Color
deriving DecidableEq, Repr

instance : Inhabited Text := ⟨⟨"", 30, Color.White⟩⟩

/-! ## Unordered maps as association lists -/

namespace UMap

variable {κ : Type} {α : Type} [DecidableEq κ]

/-- The lookup `m.find(k)`. -/
def find? (k : κ) : List (κ × α) → Option α
  | [] => none
  | (k1, v) :: rest => if k1 = k then some v else find? k rest

/-- The update `auto& x = m[k]; x = f(x)`: `m[k]` creates a default value under a
missing key. -/
def modify [Inhabited α] (f : α → α) (k : κ) : List (κ × α) → List (κ × α)
  | [] => [(k, f default)]
  | (k1, v) :: rest => if k1 = k then (k1, f v) :: rest else (k1, v) :: modify f k rest

/-- The value of `m[k]` after `modify`: the stored value, or the default. -/
def get [Inhabited α] (k : κ) (m : List (κ × α)) : α := (find? k m).getD default

/-- The insertion `m.emplace(k, v)`: nothing happens when the key is present. -/
def emplace (k : κ) (v : α) : List (κ × α) → List (κ × α)
  | [] => [(k, v)]
  | (k1, v1) :: rest => if k1 = k then (k1, v1) :: rest else (k1, v1) :: emplace k v rest

end UMap

end draw
end rmf_planner_viz

/-! ## The source graph (rmf_traffic, read only) -/

namespace rmf_traffic
namespace agv

open rmf_planner_viz.draw in
/-- A waypoint of the source graph; its index is its position in the graph. -/
structure Waypoint where
  name : Option String
  location : Vec2
  map_name : String
deriving DecidableEq, Repr

/-- A lane of a graph with `n` waypoints: entry and exit waypoint indices. -/
structure Lane (n : Nat) where
  entry : Fin n
  exit : Fin n
deriving DecidableEq, Repr

/-- The source graph: waypoints and lanes, each lane between two of the waypoints. -/
structure Graph where
  waypoints : List Waypoint
  lanes : List (Lane waypoints.length)

namespace Graph
def num_waypoints (g : Graph) : Nat := g.waypoints.length
def num_lanes (g : Graph) : Nat := g.lanes.length
def get_waypoint (g : Graph) (j : Fin g.waypoints.length) : Waypoint := g.waypoints.get j
/-- The first lane from waypoint `a` to waypoint `b`, when there is one. -/
def lane_from (g : Graph) (a b : Nat) : Option (Lane g.waypoints.length) :=
  g.lanes.find? (fun l => decide (l.entry.val = a) && decide (l.exit.val = b))
end Graph

end agv
end rmf_traffic

namespace rmf_planner_viz
namespace draw

open rmf_traffic.agv (Waypoint Lane)

/-- The unordered set insertion `s.insert(x)`: the new set and whether `x` was new. -/
def USet.insert {α : Type} [DecidableEq α] (x : α) (s : List α) : List α × Bool :=
  if x ∈ s then (s, false) else (x :: s, true)

namespace Fit

/-- An axis-aligned box. -/
structure Bounds where
  min : EVec2
  max : EVec2
deriving DecidableEq, Repr

/-- Modelled from the spec: Fit.hpp, which declares `Fit::Bounds`, is not among the
sources; a default-constructed box is the empty box, `min = +inf` and `max = -inf`. -/
def Bounds.empty : Bounds := ⟨⟨EFloat.posInf, EFloat.posInf⟩, ⟨EFloat.negInf, EFloat.negInf⟩⟩

end Fit

/-- The tag of a picked element. -/
inductive ElementType where
  | Waypoint : ElementType
  | Lane : ElementType
deriving DecidableEq, Repr

namespace Graph

/-- A picked element: its tag and its index in the source graph. -/
structure Pick where
  type : ElementType
  index : Nat
deriving DecidableEq, Repr

/-- The primitives of one floor. -/
structure MapData where
  bi_lanes : List Capsule
  bi_indices : List Nat
  bi_lane_arrows : List (List Vertex)
  mono_lanes : List Capsule
  mono_indices : List Nat
  mono_lane_arrows : List (List Vertex)
  waypoints : List CircleShape
  waypoints_text : List (Nat × Text)
  connector_waypoints_text : List (Nat × Text)
  waypoint_p : List Vec2
  waypoint_indices : List Nat
deriving DecidableEq, Repr

instance : Inhabited MapData := ⟨⟨[], [], [], [], [], [], [], [], [], [], []⟩⟩

def LaneEntryColor : Color := Color.White
def LaneExitColor : Color := ⟨255 / 3, 255 / 3, 255 / 3, 255⟩
def WaypointColor : Color := Color.Blue

/-- The state of `Graph::Implementation` (the unused viewport fields are left out). -/
structure Implementation where
  lane_width : ℚ
  data : List (String × MapData)
  current_map : Option String
  bounds : Fit.Bounds
  selected : Option Pick
deriving DecidableEq, Repr

namespace Implementation

def waypoint_radius (s : Implementation) : ℚ := 0.30 * s.lane_width

/-- The arrow glyph of a one-way lane: a triangle of three red vertices. -/
def add_lane_arrow (sqrtf : ℚ → ℚ) (v0 v1 : Vertex) : List Vertex :=
  let center := (v0.position.add v1.position).smul 0.5
  let diff := v1.position.sub v0.position
  let lengthsq := diff.x * diff.x + diff.y * diff.y
  let length := sqrtf lengthsq
  let diff_norm := diff.sdiv length
  let center_spacing : ℚ := 0.0625
  let forward_vec := diff_norm.smul (0.5 + center_spacing)
  let diff_perp : Vec2 := ⟨-diff_norm.y, diff_norm.x⟩
  let side : ℚ := 0.25
  [ ⟨(center.add (diff_perp.smul (-side))).add (diff_norm.smul center_spacing), Color.Red⟩,
    ⟨(center.add (diff_perp.smul side)).add (diff_norm.smul center_spacing), Color.Red⟩,
    ⟨center.add forward_vec, Color.Red⟩ ]

/-- The label of waypoint `i`: `name (i)` when it has a name, else `i`. -/
def waypoint_label (i : Nat) (wp : Waypoint) : String :=
  match wp.name with
  | some name => name ++ " (" ++ toString i ++ ")"
  | none => toString i

/-- The text created for waypoint `i` by the first loop of the constructor. -/
def waypoint_text (i : Nat) (wp : Waypoint) : Text :=
  { string := waypoint_label i wp, characterSize := 24, fillColor := ⟨192, 192, 192, 255⟩ }

/-- The body of the waypoint loop: file the label in the bucket of the waypoint's floor. -/
def waypoint_body (data : List (String × MapData)) (i : Nat) (wp : Waypoint) :
    List (String × MapData) :=
  UMap.modify
    (fun md => { md with waypoints_text := UMap.emplace i (waypoint_text i wp) md.waypoints_text })
    wp.map_name data

/-- The waypoint loop, `for (i = 0; i < k; ++i)`, from the empty map. -/
def waypoint_loop (g : rmf_traffic.agv.Graph) (k : Nat) : List (String × MapData) :=
  (List.range k).foldl
    (fun data i =>
      match g.waypoints[i]? with
      | some wp => waypoint_body data i wp
      | none => data)
    []

/-- The locals of the constructor together with the object under construction. -/
structure BuildState where
  impl : Implementation
  used_lanes : List (Nat × Nat)
  used_vertices : List Nat
deriving DecidableEq

def extend_min (b : EFloat) (p : ℚ) : EFloat := if EFloat.lt (EFloat.fin p) b then EFloat.fin p else b
def extend_max (b : EFloat) (p : ℚ) : EFloat := if EFloat.lt b (EFloat.fin p) then EFloat.fin p else b

/-- One round of the bounds loop: extend the box by the point `p` on both axes. -/
def extend_bounds (b : Fit.Bounds) (p : Vec2) : Fit.Bounds :=
  { min := ⟨extend_min b.min.x p.x, extend_min b.min.y p.y⟩,
    max := ⟨extend_max b.max.x p.x, extend_max b.max.y p.y⟩ }

/-- The circle of a waypoint at `p`, appended to the three waypoint sequences. -/
def push_waypoint (md : MapData) (r_wp : ℚ) (p : Vec2) (j : Nat) : MapData :=
  { md with
    waypoints := md.waypoints ++ [⟨r_wp, ⟨r_wp, r_wp⟩, ⟨p.x, p.y⟩, WaypointColor⟩],
    waypoint_p := md.waypoint_p ++ [⟨p.x, p.y⟩],
    waypoint_indices := md.waypoint_indices ++ [j] }

/-- The filing of a capsule: bidirectional, or one-way with its arrow. The arrow goes to
the sequence named `bi_lane_arrows`, as in the source. -/
def push_lane (sqrtf : ℚ → ℚ) (md : MapData) (bidirectional : Bool) (v0 v1 : Vertex)
    (half_width : ℚ) (i : Nat) : MapData :=
  if bidirectional then
    { md with bi_lanes := md.bi_lanes ++ [⟨v0, v1, half_width⟩], bi_indices := md.bi_indices ++ [i] }
  else
    { md with
      mono_lanes := md.mono_lanes ++ [⟨v0, v1, half_width⟩],
      mono_indices := md.mono_indices ++ [i],
      bi_lane_arrows := md.bi_lane_arrows ++ [add_lane_arrow sqrtf v0 v1] }

/-- The cross-floor branch of the lane loop on the bucket map: the connector text of the
lane from `j0` (on floor `m0`) to `j1` (on floor `m1`). -/
def connector_data (data : List (String × MapData)) (j0 j1 : Nat) (m0 m1 : String) :
    List (String × MapData) :=
  let data1 := UMap.modify
    (fun md => { md with waypoints_text := UMap.modify id j0 md.waypoints_text }) m0 data
  let w0_text := UMap.get j0 (UMap.get m0 data1).waypoints_text
  let data2 := UMap.modify
    (fun md => { md with waypoints_text := UMap.modify id j1 md.waypoints_text }) m1 data1
  let w1_text := UMap.get j1 (UMap.get m1 data2).waypoints_text
  let w1_str := w1_text.string
  let text : Text :=
    { string := "[" ++ m1 ++ "::" ++ w1_str ++ "]",
      characterSize := w0_text.characterSize,
      fillColor := ⟨144, 238, 144, 255⟩ }
  UMap.modify
    (fun md => { md with
      connector_waypoints_text := UMap.emplace j0 text md.connector_waypoints_text })
    m0 data2

/-- The same-floor branch of the lane loop on the bucket of the floor, for a lane that
was not skipped. `fresh0` and `fresh1` tell whether the end points got a circle. -/
def file_lane (sqrtf : ℚ → ℚ) (lane_width : ℚ) (bidirectional : Bool) (i j0 j1 : Nat)
    (p0 p1 : Vec2) (fresh0 fresh1 : Bool) (md : MapData) : MapData :=
  let v0 : Vertex := ⟨⟨p0.x, p0.y⟩, LaneEntryColor⟩
  let v1 : Vertex := ⟨⟨p1.x, p1.y⟩, if bidirectional then LaneEntryColor else LaneExitColor⟩
  let md1 := push_lane sqrtf md bidirectional v0 v1 (lane_width / 2.0) i
  let r_wp : ℚ := 0.30 * lane_width
  let md2 := if fresh0 then push_waypoint md1 r_wp p0 j0 else md1
  if fresh1 then push_waypoint md2 r_wp p1 j1 else md2

/-- The body of the lane loop for lane `i`. -/
def lane_body (sqrtf : ℚ → ℚ) (g : rmf_traffic.agv.Graph) (s : BuildState) (i : Nat)
    (lane : Lane g.waypoints.length) : BuildState :=
  let j0 := lane.entry.val
  let j1 := lane.exit.val
  let w0 := g.get_waypoint lane.entry
  let w1 := g.get_waypoint lane.exit
  if w0.map_name ≠ w1.map_name then
    { s with impl := { s.impl with
        data := connector_data s.impl.data j0 j1 w0.map_name w1.map_name } }
  else
    let ins := USet.insert (j0, j1) s.used_lanes
    if !ins.2 then
      s
    else
      let current_map := if s.impl.current_map.isSome then s.impl.current_map else some w0.map_name
      let bidirectional := (g.lane_from j1 j0).isSome
      let used_lanes := if bidirectional then (USet.insert (j1, j0) ins.1).1 else ins.1
      let p0 := w0.location
      let p1 := w1.location
      let bounds := extend_bounds (extend_bounds s.impl.bounds p0) p1
      let v0 := USet.insert j0 s.used_vertices
      let v1 := USet.insert j1 v0.1
      { impl := { s.impl with
          data := UMap.modify
            (file_lane sqrtf s.impl.lane_width bidirectional i j0 j1 p0 p1 v0.2 v1.2)
            w0.map_name s.impl.data,
          current_map := current_map,
          bounds := bounds },
        used_lanes := used_lanes,
        used_vertices := v1.1 }

/-- The lane loop, `for (i = 0; i < k; ++i)`, from the state `s`. -/
def lane_loop (sqrtf : ℚ → ℚ) (g : rmf_traffic.agv.Graph) (k : Nat) (s : BuildState) :
    BuildState :=
  (List.range k).foldl
    (fun s i =>
      match g.lanes[i]? with
      | some lane => lane_body sqrtf g s i lane
      | none => s)
    s

/-- The state at the start of the lane loop. -/
def lane_loop_init (g : rmf_traffic.agv.Graph) (lane_width : ℚ) : BuildState :=
  { impl :=
      { lane_width := lane_width,
        data := waypoint_loop g g.num_waypoints,
        current_map := none,
        bounds := Fit.Bounds.empty,
        selected := none },
    used_lanes := [],
    used_vertices := [] }

/-- The padding of the box after the lane loop. -/
def pad_bounds (b : Fit.Bounds) (d : ℚ) : Fit.Bounds :=
  { min := ⟨b.min.x.sub d, b.min.y.sub d⟩, max := ⟨b.max.x.add d, b.max.y.add d⟩ }

/-- The constructor `Graph::Implementation::Implementation(graph, lane_width, font)`. -/
def build (sqrtf : ℚ → ℚ) (g : rmf_traffic.agv.Graph) (lane_width : ℚ) : Implementation :=
  let s := (lane_loop sqrtf g g.num_lanes (lane_loop_init g lane_width)).impl
  { s with bounds := pad_bounds s.bounds (lane_width / 2.0) }

end Implementation
end Graph
end draw
end rmf_planner_viz

namespace rmf_planner_viz
namespace draw
namespace Graph

/-- A failure of `pick`: a checked access out of range (`at`), or a failed assertion. -/
inductive PickError where
  | out_of_range : PickError
  | assertion : PickError
deriving DecidableEq, Repr

deriving instance DecidableEq for Except

namespace Implementation

/-- The waypoint loop of `change_color` in one bucket: the recoloured bucket when a
position carries the index (the function returns there), nothing when none does. -/
def recolor_waypoint (md : MapData) (index : Nat) (waypoint_color : Color) : Option MapData :=
  (List.range md.waypoints.length).findSome? fun i =>
    if md.waypoint_indices[i]? = some index then
      some { md with
        waypoints := md.waypoints.modify (fun c => { c with fillColor := waypoint_color }) i }
    else none

/-- The bidirectional loop of `change_color` in one bucket. -/
def recolor_bi (md : MapData) (index : Nat) (lane_entry_color : Color) : Option MapData :=
  (List.range md.bi_lanes.length).findSome? fun i =>
    if md.bi_indices[i]? = some index then
      some { md with
        bi_lanes := md.bi_lanes.modify
          (fun c => (c.set_start_color lane_entry_color).set_end_color lane_entry_color) i }
    else none

/-- The one-way loop of `change_color` in one bucket. -/
def recolor_mono (md : MapData) (index : Nat) (lane_entry_color lane_exit_color : Color) :
    Option MapData :=
  (List.range md.mono_lanes.length).findSome? fun i =>
    if md.mono_indices[i]? = some index then
      some { md with
        mono_lanes := md.mono_lanes.modify
          (fun c => (c.set_start_color lane_entry_color).set_end_color lane_exit_color) i }
    else none

/-- The loop over the buckets of `change_color`: the first bucket in which `hit` finds
the element is recoloured and the function returns. -/
def change_color_data (hit : MapData → Option MapData) :
    List (String × MapData) → List (String × MapData)
  | [] => []
  | (name, md) :: rest =>
    match hit md with
    | some md1 => (name, md1) :: rest
    | none => (name, md) :: change_color_data hit rest

def change_color (s : Implementation) (chosen : Pick)
    (lane_entry_color lane_exit_color waypoint_color : Color) : Implementation :=
  if chosen.type = ElementType.Waypoint then
    let hit := fun md => recolor_waypoint md chosen.index waypoint_color
    { s with data := change_color_data hit s.data }
  else
    let hit := fun md =>
      match recolor_bi md chosen.index lane_entry_color with
      | some md1 => some md1
      | none => recolor_mono md chosen.index lane_entry_color lane_exit_color
    { s with data := change_color_data hit s.data }

def highlight (s : Implementation) (chosen : Pick) : Implementation :=
  change_color s chosen Color.Cyan Color.Yellow Color.Magenta

def unhighlight (s : Implementation) (chosen : Pick) : Implementation :=
  change_color s chosen LaneEntryColor LaneExitColor WaypointColor

end Implementation

open Implementation

/-- The call `Graph::choose_map(name)`: the new state and the returned flag. -/
def choose_map (s : Implementation) (name : String) : Implementation × Bool :=
  match UMap.find? name s.data with
  | none => ({ s with current_map := none }, false)
  | some _ => ({ s with current_map := some name }, true)

/-- The call `Graph::current_map()`: the active floor, or nothing for the null pointer. -/
def current_map (s : Implementation) : Option String := s.current_map

def bounds (s : Implementation) : Fit.Bounds := s.bounds

/-- The waypoint loop of `pick` over the positions `is`. -/
def pick_waypoints (md : MapData) (p_l : Vec2) (r_wp : ℚ) :
    List Nat → Except PickError (Option Pick)
  | [] => .ok none
  | i :: rest =>
    match md.waypoint_p[i]? with
    | none => .error .out_of_range
    | some wp_p =>
      if (wp_p.sub p_l).norm_le r_wp then
        match md.waypoint_indices[i]? with
        | none => .error .out_of_range
        | some j => .ok (some ⟨ElementType.Waypoint, j⟩)
      else pick_waypoints md p_l r_wp rest

/-- A lane loop of `pick` over the positions `is` of a capsule sequence and its index
sequence; `capsule_pick` is `Capsule::pick`. -/
def pick_lanes (capsule_pick : Capsule → ℚ → ℚ → Bool) (lanes : List Capsule)
    (indices : List Nat) (p_l : Vec2) : List Nat → Except PickError (Option Pick)
  | [] => .ok none
  | i :: rest =>
    match lanes[i]? with
    | none => .error .out_of_range
    | some c =>
      if capsule_pick c p_l.x p_l.y then
        match indices[i]? with
        | none => .error .out_of_range
        | some j => .ok (some ⟨ElementType.Lane, j⟩)
      else pick_lanes capsule_pick lanes indices p_l rest

/-- The call `Graph::pick(x, y)`. -/
def pick (capsule_pick : Capsule → ℚ → ℚ → Bool) (s : Implementation) (x y : ℚ) :
    Except PickError (Option Pick) :=
  match s.current_map with
  | none => .ok none
  | some name =>
    let p_l : Vec2 := ⟨x, y⟩
    let r_wp := s.waypoint_radius
    if EFloat.lt (EFloat.fin p_l.x) (s.bounds.min.x.sub r_wp) then .ok none
    else if EFloat.lt (EFloat.fin p_l.y) (s.bounds.min.y.sub r_wp) then .ok none
    else if EFloat.lt (s.bounds.max.x.add r_wp) (EFloat.fin p_l.x) then .ok none
    else if EFloat.lt (s.bounds.max.y.add r_wp) (EFloat.fin p_l.y) then .ok none
    else
      match UMap.find? name s.data with
      | none => .error .out_of_range
      | some md =>
        if md.waypoints.length ≠ md.waypoint_indices.length then .error .assertion
        else if md.waypoints.length ≠ md.waypoint_p.length then .error .assertion
        else
          match pick_waypoints md p_l r_wp (List.range md.waypoints.length) with
          | .error e => .error e
          | .ok (some p) => .ok (some p)
          | .ok none =>
            match pick_lanes capsule_pick md.bi_lanes md.bi_indices p_l
                (List.range md.bi_lanes.length) with
            | .error e => .error e
            | .ok (some p) => .ok (some p)
            | .ok none =>
              pick_lanes capsule_pick md.mono_lanes md.mono_indices p_l
                (List.range md.mono_lanes.length)

/-- The call `Graph::select(chosen)`. -/
def select (s : Implementation) (chosen : Pick) : Implementation :=
  let s1 := match s.selected with
    | some previous => s.unhighlight previous
    | none => s
  let s2 := { s1 with selected := some chosen }
  match s2.selected with
  | some now => s2.highlight now
  | none => s2

/-- The call `Graph::deselect()`. -/
def deselect (s : Implementation) : Implementation := { s with selected := none }

/-- The call `Graph::selected()`. -/
def selected (s : Implementation) : Option Pick := s.selected

/-- The body of `set_text_size` on one bucket: every label gets the character size; then
every connector text gets it, and its label `waypoints_text[s.first]` is looked up with
`operator[]`, which files a default text when the key is missing. Origins and positions
of texts are not part of the state. -/
def set_text_size_bucket (map_data : MapData) (sz : Nat) : MapData :=
  let waypoints_text1 :=
    map_data.waypoints_text.map fun s => (s.1, { s.2 with characterSize := sz })
  let waypoints_text2 :=
    map_data.connector_waypoints_text.foldl (fun wt s => UMap.modify id s.1 wt) waypoints_text1
  let connector1 :=
    map_data.connector_waypoints_text.map fun s => (s.1, { s.2 with characterSize := sz })
  { map_data with waypoints_text := waypoints_text2, connector_waypoints_text := connector1 }

/-- The call `Graph::set_text_size(sz)`. -/
def set_text_size (s : Implementation) (sz : Nat) : Implementation :=
  { s with data := s.data.map fun iter => (iter.1, set_text_size_bucket iter.2 sz) }

/-- The call `Graph::get_map_names()`: the key of every bucket, in iteration order. -/
def get_map_names (s : Implementation) : List String :=
  s.data.foldl (fun names s => names ++ [s.1]) []

end Graph
end draw
end rmf_planner_viz

/-! ## Observations used to state the properties -/

namespace rmf_planner_viz
namespace draw

/-- The keys of an unordered map. -/
def UMap.keys {κ : Type} {α : Type} (m : List (κ × α)) : List κ := m.map Prod.fst

end draw
end rmf_planner_viz

namespace rmf_planner_viz
namespace draw
namespace Graph
namespace Implementation

/-- The state of the constructor after `k` rounds of the lane loop. -/
def lane_state (sqrtf : ℚ → ℚ) (g : rmf_traffic.agv.Graph) (lane_width : ℚ) (k : Nat) :
    BuildState :=
  lane_loop sqrtf g k (lane_loop_init g lane_width)

/-- The connector text the cross-floor branch builds for a lane that leaves to waypoint
`j1`, whose label text is `t1` and floor `m1`; `t0` is the label text of the entry. -/
def connector_text (m1 : String) (t0 t1 : Text) : Text :=
  { string := "[" ++ m1 ++ "::" ++ t1.string ++ "]",
    characterSize := t0.characterSize,
    fillColor := ⟨144, 238, 144, 255⟩ }

/-- The position of waypoint `j`, when the graph has such a waypoint. -/
def location_of (g : rmf_traffic.agv.Graph) (j : Nat) : Option Vec2 :=
  (g.waypoints[j]?).map (fun wp => wp.location)

/-- Whether lane `l` stays on one floor. -/
def same_floor (g : rmf_traffic.agv.Graph) (l : rmf_traffic.agv.Lane g.waypoints.length) : Bool :=
  decide ((g.get_waypoint l.entry).map_name = (g.get_waypoint l.exit).map_name)

end Implementation
end Graph
end draw
end rmf_planner_viz

namespace rmf_planner_viz
namespace draw
namespace Graph
namespace Implementation

/-- The capsule the builder makes for lane `l`, filed as bidirectional or as one-way. -/
def capsule_of (g : rmf_traffic.agv.Graph) (lane_width : ℚ) (bidirectional : Bool)
    (l : rmf_traffic.agv.Lane g.waypoints.length) : Capsule :=
  { v0 := ⟨(g.get_waypoint l.entry).location, LaneEntryColor⟩,
    v1 := ⟨(g.get_waypoint l.exit).location,
      if bidirectional then LaneEntryColor else LaneExitColor⟩,
    radius := lane_width / 2.0 }

/-- The capsule the builder makes for the lane of index `i`. -/
def capsule_at (g : rmf_traffic.agv.Graph) (lane_width : ℚ) (bidirectional : Bool) (i : Nat) :
    Option Capsule :=
  (g.lanes[i]?).map (capsule_of g lane_width bidirectional)

/-- The arrow glyph the builder makes for the one-way lane of index `i`. -/
def arrow_at (sqrtf : ℚ → ℚ) (g : rmf_traffic.agv.Graph) (i : Nat) : Option (List Vertex) :=
  (g.lanes[i]?).map fun l =>
    add_lane_arrow sqrtf ⟨(g.get_waypoint l.entry).location, LaneEntryColor⟩
      ⟨(g.get_waypoint l.exit).location, LaneExitColor⟩

/-- The circle the builder makes for the waypoint of index `j`. -/
def circle_at (g : rmf_traffic.agv.Graph) (lane_width : ℚ) (j : Nat) : Option CircleShape :=
  (g.waypoints[j]?).map fun wp =>
    { radius := 0.30 * lane_width,
      origin := ⟨0.30 * lane_width, 0.30 * lane_width⟩,
      position := wp.location,
      fillColor := WaypointColor }

end Implementation
end Graph
end draw
end rmf_planner_viz

namespace rmf_planner_viz
namespace draw
namespace Graph
namespace Implementation

/-- The index `i` is recorded in the index sequence `proj` of some bucket. -/
def Recorded (proj : MapData → List Nat) (data : List (String × MapData)) (i : Nat) : Prop :=
  ∃ n md, UMap.find? n data = some md ∧ i ∈ proj md

end Implementation
end Graph
end draw
end rmf_planner_viz

namespace rmf_planner_viz
namespace draw
namespace Graph
namespace Implementation

/-- Every filed capsule with the lane index recorded for it, over all buckets and over
both the bidirectional and the one-way sequences. -/
def lane_entries (data : List (String × MapData)) : List (Nat × Capsule) :=
  data.flatMap fun e =>
    e.2.bi_indices.zip e.2.bi_lanes ++ e.2.mono_indices.zip e.2.mono_lanes

/-- Every filed one-way capsule with the lane index recorded for it, over all buckets. -/
def mono_entries (data : List (String × MapData)) : List (Nat × Capsule) :=
  data.flatMap fun e => e.2.mono_indices.zip e.2.mono_lanes

/-- The lane of index `i` joins the waypoints `a` and `b`, in either direction. -/
def joins (g : rmf_traffic.agv.Graph) (a b i : Nat) : Bool :=
  match g.lanes[i]? with
  | some l =>
    (decide (l.entry.val = a) && decide (l.exit.val = b)) ||
      (decide (l.entry.val = b) && decide (l.exit.val = a))
  | none => false

/-- The lane of index `i` runs from waypoint `a` to waypoint `b`. -/
def runs (g : rmf_traffic.agv.Graph) (a b i : Nat) : Bool :=
  match g.lanes[i]? with
  | some l => decide (l.entry.val = a) && decide (l.exit.val = b)
  | none => false

end Implementation
end Graph
end draw
end rmf_planner_viz

/-! ## Sample graphs -/

namespace rmf_planner_viz
namespace draw
namespace Samples

open rmf_traffic.agv (Waypoint Lane)

/-- A square root that is right on the squared lengths of the sample lanes. -/
def sample_sqrt (q : ℚ) : ℚ := if q = 100 then 10 else if q = 25 then 5 else 1

/-- The two waypoints of the sample graphs on one floor, ten units apart. -/
def two_waypoints : List Waypoint :=
  [⟨none, ⟨0, 0⟩, "L1"⟩, ⟨some "b", ⟨10, 0⟩, "L1"⟩]

/-- One lane from (0,0) to (10,0). -/
def one_way_graph : rmf_traffic.agv.Graph :=
  ⟨two_waypoints, ([⟨0, 1⟩] : List (Lane 2))⟩

/-- Lanes in both directions between the two waypoints, one of them twice. -/
def two_way_graph : rmf_traffic.agv.Graph :=
  ⟨two_waypoints, ([⟨0, 1⟩, ⟨1, 0⟩, ⟨0, 1⟩] : List (Lane 2))⟩

/-- A waypoint on floor L1 with lanes to a waypoint on L2 and to a waypoint on L3. -/
def lift_graph : rmf_traffic.agv.Graph :=
  ⟨[⟨none, ⟨0, 0⟩, "L1"⟩, ⟨some "up", ⟨0, 0⟩, "L2"⟩, ⟨none, ⟨0, 0⟩, "L3"⟩],
    ([⟨0, 1⟩, ⟨0, 2⟩] : List (Lane 3))⟩

end Samples
end draw
end rmf_planner_viz

namespace rmf_planner_viz
namespace draw
namespace Graph
namespace Implementation

/-- The centroid of a triangle of three vertices. -/
def centroid : List Vertex → Option Vec2
  | [a, b, c] => some (((a.position.add b.position).add c.position).sdiv 3)
  | _ => none

/-- The midpoint of the segment from `p0` to `p1`. -/
def midpoint (p0 p1 : Vec2) : Vec2 := ⟨(p0.x + p1.x) / 2, (p0.y + p1.y) / 2⟩

end Implementation
end Graph
end draw
end rmf_planner_viz

namespace rmf_planner_viz
namespace draw
namespace Graph
namespace Implementation

/-- Two buckets hold the same capsules, arrows and circles, with the same indices. -/
def same_primitives (a b : MapData) : Prop :=
  a.bi_lanes = b.bi_lanes ∧ a.bi_indices = b.bi_indices ∧
  a.bi_lane_arrows = b.bi_lane_arrows ∧ a.mono_lanes = b.mono_lanes ∧
  a.mono_indices = b.mono_indices ∧ a.mono_lane_arrows = b.mono_lane_arrows ∧
  a.waypoints = b.waypoints ∧ a.waypoint_p = b.waypoint_p ∧
  a.waypoint_indices = b.waypoint_indices

end Implementation
end Graph
end draw
end rmf_planner_viz

namespace rmf_planner_viz
namespace draw
namespace Graph
namespace Implementation

/-- The string of the connector text filed under waypoint `j` in the bucket of `floor`. -/
def connector_string (s : Implementation) (floor : String) (j : Nat) : Option String :=
  (UMap.find? floor s.data).bind fun md =>
    (UMap.find? j md.connector_waypoints_text).map Text.string

end Implementation
end Graph
end draw
end rmf_planner_viz

namespace rmf_planner_viz
namespace draw
namespace Graph
namespace Implementation

/-- The end positions, entry then exit, of the same-floor lanes among the first `k` lanes
of the graph, in source order. -/
def same_floor_endpoints (g : rmf_traffic.agv.Graph) (k : Nat) : List Vec2 :=
  ((g.lanes.take k).filter (same_floor g)).flatMap fun l =>
    [(g.get_waypoint l.entry).location, (g.get_waypoint l.exit).location]

/-- The end positions of all same-floor lanes of the graph. -/
def endpoint_positions (g : rmf_traffic.agv.Graph) : List Vec2 :=
  (g.lanes.filter (same_floor g)).flatMap fun l =>
    [(g.get_waypoint l.entry).location, (g.get_waypoint l.exit).location]

/-- The number `m` is the least element of the list. -/
def is_min (m : ℚ) (l : List ℚ) : Prop := m ∈ l ∧ ∀ x ∈ l, m ≤ x

/-- The number `m` is the greatest element of the list. -/
def is_max (m : ℚ) (l : List ℚ) : Prop := m ∈ l ∧ ∀ x ∈ l, x ≤ m

end Implementation
end Graph
end draw
end rmf_planner_viz

namespace rmf_planner_viz
namespace draw
namespace Samples

open rmf_traffic.agv (Waypoint Lane)

/-- Three waypoints on one floor, the first two a tenth of a unit apart, and the lanes
0 → 1 and 1 → 2: waypoint 1 is shared by the two lanes. -/
def close_graph : rmf_traffic.agv.Graph :=
  ⟨[⟨none, ⟨0, 0⟩, "L1"⟩, ⟨none, ⟨1 / 10, 0⟩, "L1"⟩, ⟨none, ⟨10, 0⟩, "L1"⟩],
    ([⟨0, 1⟩, ⟨1, 2⟩] : List (Lane 3))⟩

/-- A capsule test that accepts every point. -/
def every_capsule (_ : Capsule) (_ _ : ℚ) : Bool := true

end Samples
end draw
end rmf_planner_viz

namespace rmf_planner_viz
namespace draw
namespace Graph

/-- The point (x, y) is at Euclidean distance at most `r` from `c`: `r` is not negative
and the squared distance is at most the square of `r`. -/
def within_radius (c : Vec2) (x y r : ℚ) : Prop :=
  0 ≤ r ∧ (c.x - x) * (c.x - x) + (c.y - y) * (c.y - y) ≤ r * r

end Graph
end draw
end rmf_planner_viz

namespace rmf_planner_viz
namespace draw
namespace Graph

/-- A pickable primitive of a bucket. -/
inductive Primitive where
  | circle : CircleShape → Primitive
  | bi : Capsule → Primitive
  | mono : Capsule → Primitive
deriving DecidableEq, Repr

namespace Primitive

/-- The primitive has the colours the builder gives its class. -/
def is_default : Primitive → Bool
  | circle c => decide (c.fillColor = WaypointColor)
  | bi c => decide (c.v0.color = LaneEntryColor) && decide (c.v1.color = LaneEntryColor)
  | mono c => decide (c.v0.color = LaneEntryColor) && decide (c.v1.color = LaneExitColor)

/-- The primitive has the highlight colours of its class. -/
def is_highlight : Primitive → Bool
  | circle c => decide (c.fillColor = Color.Magenta)
  | bi c => decide (c.v0.color = Color.Cyan) && decide (c.v1.color = Color.Cyan)
  | mono c => decide (c.v0.color = Color.Cyan) && decide (c.v1.color = Color.Yellow)

end Primitive

/-- The primitive of the bucket that carries the index of the pick, when there is one:
the circle, else the bidirectional capsule, else the one-way capsule, at the first position
of the index sequence that holds the index. -/
def primitive_in (md : MapData) (p : Pick) : Option Primitive :=
  if p.type = ElementType.Waypoint then
    if p.index ∈ md.waypoint_indices then
      (md.waypoints[md.waypoint_indices.indexOf p.index]?).map Primitive.circle
    else none
  else if p.index ∈ md.bi_indices then
    (md.bi_lanes[md.bi_indices.indexOf p.index]?).map Primitive.bi
  else if p.index ∈ md.mono_indices then
    (md.mono_lanes[md.mono_indices.indexOf p.index]?).map Primitive.mono
  else none

/-- The primitive that the pick names, searched over all buckets. -/
def primitive_of (data : List (String × MapData)) (p : Pick) : Option Primitive :=
  data.findSome? fun e => primitive_in e.2 p

/-- The number of primitives of a bucket whose colours are not the default of their class. -/
def highlighted_in (md : MapData) : Nat :=
  md.waypoints.countP (fun c => !(Primitive.circle c).is_default) +
  md.bi_lanes.countP (fun c => !(Primitive.bi c).is_default) +
  md.mono_lanes.countP (fun c => !(Primitive.mono c).is_default)

/-- The number of highlighted primitives over all buckets. -/
def highlighted_count (data : List (String × MapData)) : Nat :=
  (data.map fun e => highlighted_in e.2).sum

end Graph
end draw
end rmf_planner_viz

namespace rmf_planner_viz
namespace draw
namespace Graph

/-- What `change_color` tries on one bucket for the pick `p`: the recoloured bucket when
the bucket holds the element, nothing when it does not. -/
def hit_of (p : Pick) (lane_entry_color lane_exit_color waypoint_color : Color)
    (md : MapData) : Option MapData :=
  if p.type = ElementType.Waypoint then
    Implementation.recolor_waypoint md p.index waypoint_color
  else
    match Implementation.recolor_bi md p.index lane_entry_color with
    | some md1 => some md1
    | none => Implementation.recolor_mono md p.index lane_entry_color lane_exit_color

/-- The bucket after `change_color` looked at it. -/
def paint (p : Pick) (lane_entry_color lane_exit_color waypoint_color : Color)
    (md : MapData) : MapData :=
  (hit_of p lane_entry_color lane_exit_color waypoint_color md).getD md

/-- The bucket holds a primitive with the index of the pick, of the class of the pick. -/
def names_in (md : MapData) (p : Pick) : Bool :=
  if p.type = ElementType.Waypoint then decide (p.index ∈ md.waypoint_indices)
  else decide (p.index ∈ md.bi_indices) || decide (p.index ∈ md.mono_indices)

/-- The pick names a built primitive: a waypoint with a circle, or a lane index recorded
in the `bi_indices` or the `mono_indices` of some bucket. -/
def names_primitive (data : List (String × MapData)) (p : Pick) : Prop :=
  ∃ e ∈ data, names_in e.2 p = true

/-- The recolouring of a primitive by `change_color`. -/
def Primitive.recolor (lane_entry_color lane_exit_color waypoint_color : Color) :
    Primitive → Primitive
  | Primitive.circle c => Primitive.circle { c with fillColor := waypoint_color }
  | Primitive.bi c =>
    Primitive.bi ((c.set_start_color lane_entry_color).set_end_color lane_entry_color)
  | Primitive.mono c =>
    Primitive.mono ((c.set_start_color lane_entry_color).set_end_color lane_exit_color)

end Graph
end draw
end rmf_planner_viz

/-! ## Invariants of the constructor and of selection -/

namespace rmf_planner_viz
namespace draw
namespace Graph
namespace Implementation

/-- What the waypoint loop has built after `k` rounds. -/
structure WaypointLoopInv (g : rmf_traffic.agv.Graph) (k : Nat) (data : List (String × MapData)) :
    Prop where
  keys_nodup : (UMap.keys data).Nodup
  keys_floor : ∀ n ∈ UMap.keys data, ∃ j wp, j < k ∧ g.waypoints[j]? = some wp ∧ wp.map_name = n
  text : ∀ j wp, j < k → g.waypoints[j]? = some wp →
    ∃ md, UMap.find? wp.map_name data = some md ∧
      UMap.find? j md.waypoints_text = some (waypoint_text j wp)
  text_keys : ∀ n md, UMap.find? n data = some md → ∀ j ∈ UMap.keys md.waypoints_text, j < k
  text_nodup : ∀ n md, UMap.find? n data = some md → (UMap.keys md.waypoints_text).Nodup
  bare : ∀ n md, UMap.find? n data = some md →
    md = { (default : MapData) with waypoints_text := md.waypoints_text }

/-- The labels and the buckets that the lane loop relies on and never changes. -/
structure TextInv (g : rmf_traffic.agv.Graph) (data : List (String × MapData)) : Prop where
  keys_nodup : (UMap.keys data).Nodup
  keys_eq : UMap.keys data = UMap.keys (waypoint_loop g g.num_waypoints)
  text : ∀ j wp, g.waypoints[j]? = some wp →
    ∃ md, UMap.find? wp.map_name data = some md ∧
      UMap.find? j md.waypoints_text = some (waypoint_text j wp)

/-- What the lane loop keeps true of the primitives of the bucket `md` of floor `n`,
after `k` rounds, `uv` being the waypoints that have a circle. -/
structure BucketGeo (sqrtf : ℚ → ℚ) (g : rmf_traffic.agv.Graph) (w : ℚ) (k : Nat)
    (uv : List Nat) (n : String) (md : MapData) : Prop where
  bi_lanes_eq : md.bi_lanes.map some = md.bi_indices.map (capsule_at g w true)
  mono_lanes_eq : md.mono_lanes.map some = md.mono_indices.map (capsule_at g w false)
  arrows_eq : md.bi_lane_arrows.map some = md.mono_indices.map (arrow_at sqrtf g)
  mono_arrows : md.mono_lane_arrows = []
  waypoints_eq : md.waypoints.map some = md.waypoint_indices.map (circle_at g w)
  waypoint_p_eq : md.waypoint_p.map some = md.waypoint_indices.map (location_of g)
  bi_rec : ∀ i ∈ md.bi_indices, i < k ∧ ∃ l, g.lanes[i]? = some l ∧
    (g.get_waypoint l.entry).map_name = n ∧ (g.get_waypoint l.exit).map_name = n ∧
    (g.lane_from l.exit.val l.entry.val).isSome = true
  mono_rec : ∀ i ∈ md.mono_indices, i < k ∧ ∃ l, g.lanes[i]? = some l ∧
    (g.get_waypoint l.entry).map_name = n ∧ (g.get_waypoint l.exit).map_name = n ∧
    (g.lane_from l.exit.val l.entry.val).isSome = false
  lanes_nodup : (md.bi_indices ++ md.mono_indices).Nodup
  wp_rec : ∀ j ∈ md.waypoint_indices, j ∈ uv ∧ ∃ wp, g.waypoints[j]? = some wp ∧ wp.map_name = n
  wp_nodup : md.waypoint_indices.Nodup

end Implementation

/-- The part of the bucket invariant that selection relies on and keeps. -/
structure Shape (md : MapData) : Prop where
  len_wp : md.waypoints.length = md.waypoint_indices.length
  len_bi : md.bi_lanes.length = md.bi_indices.length
  len_mono : md.mono_lanes.length = md.mono_indices.length
  nd_wp : md.waypoint_indices.Nodup
  nd_lanes : (md.bi_indices ++ md.mono_indices).Nodup

/-- Every primitive of the bucket has the colours the builder gives its class. -/
structure AllDefault (md : MapData) : Prop where
  wp : ∀ c ∈ md.waypoints, c.fillColor = WaypointColor
  bi : ∀ c ∈ md.bi_lanes, c.v0.color = LaneEntryColor ∧ c.v1.color = LaneEntryColor
  mono : ∀ c ∈ md.mono_lanes, c.v0.color = LaneEntryColor ∧ c.v1.color = LaneExitColor

/-- The part of the invariant of the built buckets that selection relies on and keeps:
every bucket is well shaped and no pick names primitives of two buckets. -/
structure DataShape (data : List (String × MapData)) : Prop where
  shape : ∀ e ∈ data, Shape e.2
  exclusive : ∀ p : Pick, data.Pairwise
    (fun e1 e2 => ¬ (names_in e1.2 p = true ∧ names_in e2.2 p = true))

end Graph
end draw
end rmf_planner_viz

namespace rmf_planner_viz
namespace draw
namespace Graph

open Implementation

/-- The point (x, y) fails one of the four bounds tests of `pick`: it lies outside the
box `b` enlarged by `r` on each side. -/
def outside_enlarged (b : Fit.Bounds) (r x y : ℚ) : Bool :=
  EFloat.lt (EFloat.fin x) (b.min.x.sub r) || EFloat.lt (EFloat.fin y) (b.min.y.sub r) ||
    EFloat.lt (b.max.x.add r) (EFloat.fin x) || EFloat.lt (b.max.y.add r) (EFloat.fin y)

/-- The states that calls of `choose_map`, `select`, `deselect` and `set_text_size` reach
from the construction on the graph `g` with the lane width `w`. -/
inductive Reachable (sqrtf : ℚ → ℚ) (g : rmf_traffic.agv.Graph) (w : ℚ) : Implementation → Prop
  | construct : Reachable sqrtf g w (build sqrtf g w)
  | choose_map (s : Implementation) (name : String) :
      Reachable sqrtf g w s → Reachable sqrtf g w (Graph.choose_map s name).1
  | select (s : Implementation) (chosen : Pick) :
      Reachable sqrtf g w s → Reachable sqrtf g w (Graph.select s chosen)
  | deselect (s : Implementation) :
      Reachable sqrtf g w s → Reachable sqrtf g w (Graph.deselect s)
  | set_text_size (s : Implementation) (sz : Nat) :
      Reachable sqrtf g w s → Reachable sqrtf g w (Graph.set_text_size s sz)

/-- What `pick` reads of a bucket, colours and texts left out. -/
structure Geometry where
  waypoint_p : List Vec2
  waypoint_indices : List Nat
  bi_indices : List Nat
  mono_indices : List Nat
  circles : List (Vec2 × ℚ)
  bi_segments : List (Vec2 × Vec2 × ℚ)
  mono_segments : List (Vec2 × Vec2 × ℚ)
deriving DecidableEq

/-- The hit-test positions, the index sequences, the centre and radius of every circle
and the end positions and radius of every capsule of a bucket. -/
def geometry (md : MapData) : Geometry :=
  { waypoint_p := md.waypoint_p,
    waypoint_indices := md.waypoint_indices,
    bi_indices := md.bi_indices,
    mono_indices := md.mono_indices,
    circles := md.waypoints.map fun c => (c.position, c.radius),
    bi_segments := md.bi_lanes.map fun c => (c.v0.position, c.v1.position, c.radius),
    mono_segments := md.mono_lanes.map fun c => (c.v0.position, c.v1.position, c.radius) }

/-- What every reachable state keeps of the construction on `g` with lane width `w`: the
buckets are well shaped, their floors and geometry are those of the construction, the
active floor has a bucket, and the bounds and the lane width are unchanged. -/
structure Sound (sqrtf : ℚ → ℚ) (g : rmf_traffic.agv.Graph) (w : ℚ) (s : Implementation) :
    Prop where
  shape : DataShape s.data
  geometry : s.data.map (fun e => (e.1, geometry e.2)) =
    (build sqrtf g w).data.map (fun e => (e.1, geometry e.2))
  active : ∀ name, s.current_map = some name → name ∈ UMap.keys s.data
  bounds : s.bounds = (build sqrtf g w).bounds
  lane_width : s.lane_width = w

/-- Waypoint `j` is an end point of a lane of the graph that stays on one floor. -/
def is_endpoint (g : rmf_traffic.agv.Graph) (j : Nat) : Prop :=
  ∃ l ∈ g.lanes, (g.get_waypoint l.entry).map_name = (g.get_waypoint l.exit).map_name ∧
    (l.entry.val = j ∨ l.exit.val = j)

/-- The graph has a lane from the exit of `l` back to its entry. -/
def has_reverse (g : rmf_traffic.agv.Graph) (l : rmf_traffic.agv.Lane g.waypoints.length) :
    Prop :=
  ∃ r ∈ g.lanes, r.entry = l.exit ∧ r.exit = l.entry

/-- The point of the segment from `p0` to `p1` at the parameter `t`. -/
def segment_point (p0 p1 : Vec2) (t : ℚ) : Vec2 := p0.add ((p1.sub p0).smul t)

end Graph
end draw
end rmf_planner_viz

namespace rmf_planner_viz
namespace draw
namespace Samples

open rmf_traffic.agv (Waypoint Lane)

/-- Two floors with one lane each, 0 → 1 on L1 and 2 → 3 on L2, and a waypoint 4 on L2
that no lane touches. -/
def two_floor_graph : rmf_traffic.agv.Graph :=
  ⟨[⟨none, ⟨0, 0⟩, "L1"⟩, ⟨none, ⟨10, 0⟩, "L1"⟩, ⟨none, ⟨0, 0⟩, "L2"⟩, ⟨none, ⟨0, 5⟩, "L2"⟩,
      ⟨none, ⟨7, 7⟩, "L2"⟩],
    ([⟨0, 1⟩, ⟨2, 3⟩] : List (Lane 5))⟩

end Samples
end draw
end rmf_planner_viz

namespace rmf_planner_viz
namespace draw
namespace Graph
namespace Implementation

end Implementation
end Graph
end draw
end rmf_planner_viz

namespace rmf_planner_viz
namespace draw
namespace Samples

open rmf_traffic.agv (Waypoint Lane)

end Samples
end draw
end rmf_planner_viz

/-! ## Properties -/

namespace rmf_planner_viz
namespace draw

namespace UMap

variable {κ : Type} {α : Type} [DecidableEq κ]

theorem find?_eq_none_iff (k : κ) (m : List (κ × α)) : find? k m = none ↔ k ∉ keys m := by
  induction m with
  | nil => simp [find?, keys]
  | cons e rest ih =>
    obtain ⟨k1, v⟩ := e
    by_cases h : k1 = k
    · simp [find?, keys, h]
    · have h2 : ¬ k = k1 := fun hh => h hh.symm
      simpa [find?, keys, h, h2] using ih

theorem find?_isSome_iff (k : κ) (m : List (κ × α)) : (∃ v, find? k m = some v) ↔ k ∈ keys m := by
  rw [← not_iff_not, ← find?_eq_none_iff]
  cases find? k m <;> simp

theorem mem_of_find? {k : κ} {v : α} {m : List (κ × α)} (h : find? k m = some v) : (k, v) ∈ m := by
  induction m with
  | nil => simp [find?] at h
  | cons e rest ih =>
    obtain ⟨k1, v1⟩ := e
    by_cases hk : k1 = k
    · simp [find?, hk] at h
      simp [hk, h]
    · simp [find?, hk] at h
      exact List.mem_cons_of_mem _ (ih h)

theorem find?_of_mem {k : κ} {v : α} {m : List (κ × α)} (hn : (keys m).Nodup) (h : (k, v) ∈ m) :
    find? k m = some v := by
  induction m with
  | nil => simp at h
  | cons e rest ih =>
    obtain ⟨k1, v1⟩ := e
    simp only [keys, List.map_cons, List.nodup_cons] at hn
    rcases List.mem_cons.1 h with h1 | h1
    · cases h1
      simp [find?]
    · have hk : k1 ≠ k := by
        rintro rfl
        exact hn.1 (List.mem_map_of_mem Prod.fst h1)
      simp only [find?, hk, if_false]
      exact ih hn.2 h1

/-- On a present key of a map with unique keys, `modify` rewrites that one entry. -/
theorem modify_eq_map [Inhabited α] (f : α → α) (k : κ) (m : List (κ × α))
    (hk : k ∈ keys m) (hn : (keys m).Nodup) :
    modify f k m = m.map (fun e => if e.1 = k then (e.1, f e.2) else e) := by
  induction m with
  | nil => simp [keys] at hk
  | cons e rest ih =>
    obtain ⟨k1, v1⟩ := e
    simp only [keys, List.map_cons, List.nodup_cons] at hn
    by_cases h : k1 = k
    · subst h
      simp only [modify, if_true, List.map_cons, List.cons.injEq, true_and]
      symm
      rw [List.map_congr_left, List.map_id]
      intro e he
      have : e.1 ≠ k1 := by
        rintro rfl
        exact hn.1 (List.mem_map_of_mem Prod.fst he)
      simp [this]
    · have hk2 : k ∈ keys rest := by
        simp only [keys, List.map_cons, List.mem_cons] at hk
        rcases hk with hk | hk
        · exact absurd hk.symm h
        · exact hk
      simp only [modify, h, if_false, List.map_cons, List.cons.injEq, true_and]
      exact ih hk2 hn.2

theorem keys_modify [Inhabited α] (f : α → α) (k : κ) (m : List (κ × α)) :
    keys (modify f k m) = if k ∈ keys m then keys m else keys m ++ [k] := by
  induction m with
  | nil => simp [modify, keys]
  | cons e rest ih =>
    obtain ⟨k1, v1⟩ := e
    by_cases h : k1 = k
    · simp [modify, keys, h]
    · have h2 : ¬ k = k1 := fun hh => h hh.symm
      simp only [keys] at ih
      simp only [modify, h, if_false, keys, List.map_cons, List.mem_cons, h2, false_or, ih]
      split <;> simp

theorem keys_nodup_modify [Inhabited α] (f : α → α) (k : κ) (m : List (κ × α))
    (hn : (keys m).Nodup) : (keys (modify f k m)).Nodup := by
  rw [keys_modify]
  split
  · exact hn
  · rename_i h
    rw [List.nodup_append]
    refine ⟨hn, by simp, ?_⟩
    intro a ha hb
    simp at hb
    subst hb
    exact h ha

theorem find?_modify_self [Inhabited α] (f : α → α) (k : κ) (m : List (κ × α)) :
    find? k (modify f k m) = some (f (get k m)) := by
  induction m with
  | nil => simp [modify, find?, get]
  | cons e rest ih =>
    obtain ⟨k1, v1⟩ := e
    by_cases h : k1 = k
    · simp [modify, find?, get, h]
    · simpa [modify, find?, get, h] using ih

theorem find?_modify_ne [Inhabited α] (f : α → α) {k k2 : κ} (h : k2 ≠ k) (m : List (κ × α)) :
    find? k2 (modify f k m) = find? k2 m := by
  induction m with
  | nil => simp [modify, find?, h.symm]
  | cons e rest ih =>
    obtain ⟨k1, v1⟩ := e
    by_cases h1 : k1 = k
    · subst h1
      simp [modify, find?, h.symm]
    · by_cases h2 : k1 = k2
      · subst h2
        simp [modify, find?, h1]
      · simp [modify, find?, h1, h2, ih]

theorem keys_emplace (k : κ) (v : α) (m : List (κ × α)) :
    keys (emplace k v m) = if k ∈ keys m then keys m else keys m ++ [k] := by
  induction m with
  | nil => simp [emplace, keys]
  | cons e rest ih =>
    obtain ⟨k1, v1⟩ := e
    by_cases h : k1 = k
    · simp [emplace, keys, h]
    · have h2 : ¬ k = k1 := fun hh => h hh.symm
      simp only [keys] at ih
      simp only [emplace, h, if_false, keys, List.map_cons, List.mem_cons, h2, false_or, ih]
      split <;> simp

theorem keys_nodup_emplace (k : κ) (v : α) (m : List (κ × α))
    (hn : (keys m).Nodup) : (keys (emplace k v m)).Nodup := by
  rw [keys_emplace]
  split
  · exact hn
  · rename_i h
    rw [List.nodup_append]
    refine ⟨hn, by simp, ?_⟩
    intro a ha hb
    simp at hb
    subst hb
    exact h ha

theorem find?_emplace_self (k : κ) (v : α) (m : List (κ × α)) :
    find? k (emplace k v m) = some ((find? k m).getD v) := by
  induction m with
  | nil => simp [emplace, find?]
  | cons e rest ih =>
    obtain ⟨k1, v1⟩ := e
    by_cases h : k1 = k
    · simp [emplace, find?, h]
    · simpa [emplace, find?, h] using ih

theorem find?_emplace_ne (v : α) {k k2 : κ} (h : k2 ≠ k) (m : List (κ × α)) :
    find? k2 (emplace k v m) = find? k2 m := by
  induction m with
  | nil => simp [emplace, find?, h.symm]
  | cons e rest ih =>
    obtain ⟨k1, v1⟩ := e
    by_cases h1 : k1 = k
    · subst h1
      simp [emplace, find?, h.symm]
    · by_cases h2 : k1 = k2
      · subst h2
        simp [emplace, find?, h1]
      · simp [emplace, find?, h1, h2, ih]

/-- Touching a present key, `m[k]` with nothing assigned, changes nothing. -/
theorem modify_id_of_mem [Inhabited α] (k : κ) (m : List (κ × α)) (hk : k ∈ keys m) :
    modify id k m = m := by
  induction m with
  | nil => simp [keys] at hk
  | cons e rest ih =>
    obtain ⟨k1, v1⟩ := e
    by_cases h : k1 = k
    · simp [modify, h]
    · have hk2 : k ∈ keys rest := by
        simp only [keys, List.map_cons, List.mem_cons] at hk
        rcases hk with hk | hk
        · exact absurd hk.symm h
        · exact hk
      simp [modify, h, ih hk2]

end UMap

end draw
end rmf_planner_viz

namespace rmf_planner_viz
namespace draw

namespace UMap

variable {κ : Type} {α : Type} [DecidableEq κ]

theorem find?_modify [Inhabited α] (f : α → α) (k n : κ) (m : List (κ × α)) :
    find? n (modify f k m) = if n = k then some (f (get k m)) else find? n m := by
  by_cases h : n = k
  · subst h
    simp [find?_modify_self]
  · simp [h, find?_modify_ne f h]

theorem get_of_find? [Inhabited α] {k : κ} {v : α} {m : List (κ × α)} (h : find? k m = some v) :
    get k m = v := by
  simp [get, h]

theorem modify_eq_self [Inhabited α] (f : α → α) {k : κ} {v : α} {m : List (κ × α)}
    (h : find? k m = some v) (hf : f v = v) : modify f k m = m := by
  induction m with
  | nil => simp [find?] at h
  | cons e rest ih =>
    obtain ⟨k1, v1⟩ := e
    by_cases hk : k1 = k
    · simp only [find?, hk, if_true, Option.some.injEq] at h
      subst h
      simp [modify, hk, hf]
    · simp only [find?, hk, if_false] at h
      simp [modify, hk, ih h]

theorem mem_keys_of_find? {k : κ} {v : α} {m : List (κ × α)} (h : find? k m = some v) :
    k ∈ keys m :=
  (find?_isSome_iff k m).1 ⟨v, h⟩

theorem keys_modify_of_find? [Inhabited α] (f : α → α) {k : κ} {v : α} {m : List (κ × α)}
    (h : find? k m = some v) : keys (modify f k m) = keys m := by
  rw [keys_modify, if_pos (mem_keys_of_find? h)]

end UMap

namespace Graph
namespace Implementation

open rmf_traffic.agv (Waypoint Lane)

/-! ### The loops, one round at a time -/

theorem waypoint_loop_zero (g : rmf_traffic.agv.Graph) : waypoint_loop g 0 = [] := rfl

theorem waypoint_loop_succ (g : rmf_traffic.agv.Graph) (k : Nat) :
    waypoint_loop g (k + 1) =
      match g.waypoints[k]? with
      | some wp => waypoint_body (waypoint_loop g k) k wp
      | none => waypoint_loop g k := by
  simp [waypoint_loop, List.range_succ, List.foldl_append]

theorem lane_loop_zero (sqrtf : ℚ → ℚ) (g : rmf_traffic.agv.Graph) (s : BuildState) :
    lane_loop sqrtf g 0 s = s := rfl

theorem lane_loop_succ (sqrtf : ℚ → ℚ) (g : rmf_traffic.agv.Graph) (k : Nat) (s : BuildState) :
    lane_loop sqrtf g (k + 1) s =
      match g.lanes[k]? with
      | some lane => lane_body sqrtf g (lane_loop sqrtf g k s) k lane
      | none => lane_loop sqrtf g k s := by
  simp [lane_loop, List.range_succ, List.foldl_append]

/-! ### The waypoint loop: keys and labels -/

theorem waypoint_loop_inv (g : rmf_traffic.agv.Graph) (k : Nat) :
    WaypointLoopInv g k (waypoint_loop g k) := by
  induction k with
  | zero =>
    refine ⟨by simp [waypoint_loop_zero, UMap.keys], ?_, ?_, ?_, ?_, ?_⟩ <;>
      simp [waypoint_loop_zero, UMap.keys, UMap.find?]
  | succ k ih =>
    rw [waypoint_loop_succ]
    cases hw : g.waypoints[k]? with
    | none =>
      simp only
      have hlen : g.waypoints.length ≤ k := by
        by_contra hlt
        push_neg at hlt
        rw [List.getElem?_eq_getElem hlt] at hw
        exact Option.noConfusion hw
      refine ⟨ih.keys_nodup, ?_, ?_, ih.text_keys |> fun h n md hf j hj => Nat.lt_succ_of_lt (h n md hf j hj),
        ih.text_nodup, ih.bare⟩
      · intro n hn
        obtain ⟨j, wp, hj, h1, h2⟩ := ih.keys_floor n hn
        exact ⟨j, wp, Nat.lt_succ_of_lt hj, h1, h2⟩
      · intro j wp hj hjw
        have : j < k := by
          have := (List.getElem?_eq_some_iff.1 hjw).1
          omega
        exact ih.text j wp this hjw
    | some wpk =>
      simp only [waypoint_body]
      have hdef : ∀ md : MapData, (UMap.find? wpk.map_name (waypoint_loop g k) = some md ∨
          (UMap.find? wpk.map_name (waypoint_loop g k) = none ∧ md = default)) →
          k ∉ UMap.keys md.waypoints_text := by
        intro md hmd hin
        rcases hmd with h | ⟨_, h⟩
        · exact absurd (ih.text_keys _ md h k hin) (lt_irrefl k)
        · subst h
          simp [UMap.keys, default] at hin
      have hget : UMap.find? wpk.map_name (waypoint_loop g k) =
            some (UMap.get wpk.map_name (waypoint_loop g k)) ∨
          (UMap.find? wpk.map_name (waypoint_loop g k) = none ∧
            UMap.get wpk.map_name (waypoint_loop g k) = default) := by
        cases h : UMap.find? wpk.map_name (waypoint_loop g k) <;> simp [UMap.get, h]
      refine ⟨UMap.keys_nodup_modify _ _ _ ih.keys_nodup, ?_, ?_, ?_, ?_, ?_⟩
      · intro n hn
        rw [UMap.keys_modify] at hn
        split at hn
        · obtain ⟨j, wp, hj, h1, h2⟩ := ih.keys_floor n hn
          exact ⟨j, wp, Nat.lt_succ_of_lt hj, h1, h2⟩
        · rcases List.mem_append.1 hn with h | h
          · obtain ⟨j, wp, hj, h1, h2⟩ := ih.keys_floor n h
            exact ⟨j, wp, Nat.lt_succ_of_lt hj, h1, h2⟩
          · simp at h
            exact ⟨k, wpk, Nat.lt_succ_self k, hw, h.symm⟩
      · intro j wp hj hjw
        rw [UMap.find?_modify]
        by_cases hjk : j = k
        · subst hjk
          rw [hw] at hjw
          cases hjw
          simp only [if_true]
          refine ⟨_, rfl, ?_⟩
          simp only
          rw [UMap.find?_emplace_self]
          have := hdef _ hget
          rw [← UMap.find?_eq_none_iff] at this
          simp [this]
        · have hjlt : j < k := by omega
          obtain ⟨md, h1, h2⟩ := ih.text j wp hjlt hjw
          by_cases hn : wp.map_name = wpk.map_name
          · simp only [hn, if_true]
            refine ⟨_, rfl, ?_⟩
            simp only
            rw [UMap.find?_emplace_ne _ hjk]
            rw [hn] at h1
            rw [UMap.get_of_find? h1]
            exact h2
          · simp only [hn, if_false]
            exact ⟨md, h1, h2⟩
      · intro n md hf j hj
        rw [UMap.find?_modify] at hf
        split at hf
        · cases hf
          simp only [UMap.keys_emplace] at hj
          have hold : ∀ j ∈ UMap.keys (UMap.get wpk.map_name (waypoint_loop g k)).waypoints_text,
              j < k := by
            intro j hj
            rcases hget with h | ⟨_, h⟩
            · exact ih.text_keys _ _ h j hj
            · rw [h] at hj
              simp [UMap.keys, default] at hj
          split at hj
          · exact Nat.lt_succ_of_lt (hold j hj)
          · rcases List.mem_append.1 hj with h | h
            · exact Nat.lt_succ_of_lt (hold j h)
            · simp at h
              omega
        · exact Nat.lt_succ_of_lt (ih.text_keys n md hf j hj)
      · intro n md hf
        rw [UMap.find?_modify] at hf
        split at hf
        · cases hf
          apply UMap.keys_nodup_emplace
          rcases hget with h | ⟨_, h⟩
          · exact ih.text_nodup _ _ h
          · rw [h]
            simp [UMap.keys, default]
        · exact ih.text_nodup n md hf
      · intro n md hf
        rw [UMap.find?_modify] at hf
        split at hf
        · cases hf
          rcases hget with h | ⟨_, h⟩
          · have := ih.bare _ _ h
            generalize UMap.get wpk.map_name (waypoint_loop g k) = md0 at this ⊢
            rw [this]
          · rw [h]
        · exact ih.bare n md hf

end Implementation
end Graph
end draw
end rmf_planner_viz

namespace rmf_planner_viz
namespace draw
namespace Graph
namespace Implementation

open rmf_traffic.agv (Waypoint Lane)

/-! ### The lane loop: the three cases of a round -/

theorem get_waypoint_eq (g : rmf_traffic.agv.Graph) (j : Fin g.waypoints.length) :
    g.waypoints[j.val]? = some (g.get_waypoint j) := by
  simp [rmf_traffic.agv.Graph.get_waypoint]

theorem connector_data_eq (data : List (String × MapData)) (j0 j1 : Nat) (m0 m1 : String)
    (md0 md1 : MapData) (t0 t1 : Text)
    (h0 : UMap.find? m0 data = some md0) (ht0 : UMap.find? j0 md0.waypoints_text = some t0)
    (h1 : UMap.find? m1 data = some md1) (ht1 : UMap.find? j1 md1.waypoints_text = some t1) :
    connector_data data j0 j1 m0 m1 =
      UMap.modify
        (fun md => { md with
          connector_waypoints_text :=
            UMap.emplace j0 (connector_text m1 t0 t1) md.connector_waypoints_text })
        m0 data := by
  have e1 : UMap.modify
      (fun md : MapData => { md with waypoints_text := UMap.modify id j0 md.waypoints_text })
      m0 data = data := by
    apply UMap.modify_eq_self _ h0
    rw [UMap.modify_id_of_mem _ _ (UMap.mem_keys_of_find? ht0)]
  have e2 : UMap.modify
      (fun md : MapData => { md with waypoints_text := UMap.modify id j1 md.waypoints_text })
      m1 data = data := by
    apply UMap.modify_eq_self _ h1
    rw [UMap.modify_id_of_mem _ _ (UMap.mem_keys_of_find? ht1)]
  simp only [connector_data, e1, e2, UMap.get_of_find? h0, UMap.get_of_find? h1,
    UMap.get_of_find? ht0, UMap.get_of_find? ht1, connector_text]

theorem textInv_init (g : rmf_traffic.agv.Graph) : TextInv g (waypoint_loop g g.num_waypoints) := by
  have h := waypoint_loop_inv g g.num_waypoints
  refine ⟨h.keys_nodup, rfl, ?_⟩
  intro j wp hj
  exact h.text j wp (List.getElem?_eq_some_iff.1 hj).1 hj

theorem textInv_modify {g : rmf_traffic.agv.Graph} {data : List (String × MapData)}
    (h : TextInv g data) (f : MapData → MapData) (n : String) (md : MapData)
    (hn : UMap.find? n data = some md)
    (hf : ∀ md, (f md).waypoints_text = md.waypoints_text) :
    TextInv g (UMap.modify f n data) := by
  refine ⟨UMap.keys_nodup_modify _ _ _ h.keys_nodup, ?_, ?_⟩
  · rw [UMap.keys_modify_of_find? f hn, h.keys_eq]
  · intro j wp hj
    obtain ⟨md1, h1, h2⟩ := h.text j wp hj
    rw [UMap.find?_modify]
    split
    · rename_i heq
      refine ⟨_, rfl, ?_⟩
      rw [hf, ← heq, UMap.get_of_find? h1]
      exact h2
    · exact ⟨md1, h1, h2⟩

/-- The cross-floor round, on buckets that hold the labels. -/
theorem lane_body_cross (sqrtf : ℚ → ℚ) (g : rmf_traffic.agv.Graph) (s : BuildState) (i : Nat)
    (lane : Lane g.waypoints.length) (ht : TextInv g s.impl.data)
    (hx : (g.get_waypoint lane.entry).map_name ≠ (g.get_waypoint lane.exit).map_name) :
    lane_body sqrtf g s i lane =
      { s with impl := { s.impl with
          data := UMap.modify
            (fun md => { md with
              connector_waypoints_text :=
                UMap.emplace lane.entry.val
                  (connector_text (g.get_waypoint lane.exit).map_name
                    (waypoint_text lane.entry.val (g.get_waypoint lane.entry))
                    (waypoint_text lane.exit.val (g.get_waypoint lane.exit)))
                  md.connector_waypoints_text })
            (g.get_waypoint lane.entry).map_name s.impl.data } } := by
  obtain ⟨md0, h0, ht0⟩ := ht.text _ _ (get_waypoint_eq g lane.entry)
  obtain ⟨md1, h1, ht1⟩ := ht.text _ _ (get_waypoint_eq g lane.exit)
  simp only [lane_body, hx, ne_eq, not_false_eq_true, if_true]
  rw [connector_data_eq _ _ _ _ _ md0 md1 _ _ h0 ht0 h1 ht1]

/-- The round of a same-floor lane whose directed pair was seen before: nothing changes. -/
theorem lane_body_skip (sqrtf : ℚ → ℚ) (g : rmf_traffic.agv.Graph) (s : BuildState) (i : Nat)
    (lane : Lane g.waypoints.length)
    (hx : (g.get_waypoint lane.entry).map_name = (g.get_waypoint lane.exit).map_name)
    (hu : (lane.entry.val, lane.exit.val) ∈ s.used_lanes) :
    lane_body sqrtf g s i lane = s := by
  simp [lane_body, hx, USet.insert, hu]

/-- The round of a same-floor lane whose directed pair is new. -/
theorem lane_body_file (sqrtf : ℚ → ℚ) (g : rmf_traffic.agv.Graph) (s : BuildState) (i : Nat)
    (lane : Lane g.waypoints.length)
    (hx : (g.get_waypoint lane.entry).map_name = (g.get_waypoint lane.exit).map_name)
    (hu : (lane.entry.val, lane.exit.val) ∉ s.used_lanes) :
    lane_body sqrtf g s i lane =
      { impl := { s.impl with
          data := UMap.modify
            (file_lane sqrtf s.impl.lane_width (g.lane_from lane.exit.val lane.entry.val).isSome i
              lane.entry.val lane.exit.val (g.get_waypoint lane.entry).location
              (g.get_waypoint lane.exit).location
              (decide (lane.entry.val ∉ s.used_vertices))
              (decide (lane.exit.val ∉ s.used_vertices ∧ lane.exit.val ≠ lane.entry.val)))
            (g.get_waypoint lane.entry).map_name s.impl.data,
          current_map :=
            if s.impl.current_map.isSome then s.impl.current_map
            else some (g.get_waypoint lane.entry).map_name,
          bounds := extend_bounds (extend_bounds s.impl.bounds (g.get_waypoint lane.entry).location)
            (g.get_waypoint lane.exit).location },
        used_lanes :=
          if (g.lane_from lane.exit.val lane.entry.val).isSome then
            (USet.insert (lane.exit.val, lane.entry.val)
              ((lane.entry.val, lane.exit.val) :: s.used_lanes)).1
          else (lane.entry.val, lane.exit.val) :: s.used_lanes,
        used_vertices :=
          (USet.insert lane.exit.val (USet.insert lane.entry.val s.used_vertices).1).1 } := by
  have e0 : (USet.insert lane.entry.val s.used_vertices).2 =
      decide (lane.entry.val ∉ s.used_vertices) := by
    by_cases h : lane.entry.val ∈ s.used_vertices <;> simp [USet.insert, h]
  have e1 : (USet.insert lane.exit.val (USet.insert lane.entry.val s.used_vertices).1).2 =
      decide (lane.exit.val ∉ s.used_vertices ∧ lane.exit.val ≠ lane.entry.val) := by
    by_cases h : lane.entry.val ∈ s.used_vertices <;>
      by_cases h2 : lane.exit.val ∈ s.used_vertices <;>
      by_cases h3 : lane.exit.val = lane.entry.val <;>
      simp_all [USet.insert]
  simp only [lane_body, hx, ne_eq, not_true_eq_false, if_false, e0, e1]
  simp [USet.insert, hu]

end Implementation
end Graph
end draw
end rmf_planner_viz

namespace rmf_planner_viz
namespace draw
namespace Graph
namespace Implementation

open rmf_traffic.agv (Waypoint Lane)

theorem lane_state_zero (sqrtf : ℚ → ℚ) (g : rmf_traffic.agv.Graph) (w : ℚ) :
    lane_state sqrtf g w 0 = lane_loop_init g w := rfl

theorem lane_state_succ (sqrtf : ℚ → ℚ) (g : rmf_traffic.agv.Graph) (w : ℚ) (k : Nat)
    (lane : Lane g.waypoints.length) (h : g.lanes[k]? = some lane) :
    lane_state sqrtf g w (k + 1) = lane_body sqrtf g (lane_state sqrtf g w k) k lane := by
  simp [lane_state, lane_loop_succ, h]

theorem lane_state_past (sqrtf : ℚ → ℚ) (g : rmf_traffic.agv.Graph) (w : ℚ) (k : Nat)
    (h : g.lanes[k]? = none) :
    lane_state sqrtf g w (k + 1) = lane_state sqrtf g w k := by
  simp [lane_state, lane_loop_succ, h]

theorem textInv_lane_state (sqrtf : ℚ → ℚ) (g : rmf_traffic.agv.Graph) (w : ℚ) (k : Nat) :
    TextInv g (lane_state sqrtf g w k).impl.data := by
  induction k with
  | zero => exact textInv_init g
  | succ k ih =>
    cases hl : g.lanes[k]? with
    | none => rw [lane_state_past _ _ _ _ hl]; exact ih
    | some lane =>
      rw [lane_state_succ _ _ _ _ lane hl]
      obtain ⟨md0, h0, _⟩ := ih.text _ _ (get_waypoint_eq g lane.entry)
      by_cases hx : (g.get_waypoint lane.entry).map_name = (g.get_waypoint lane.exit).map_name
      · by_cases hu : (lane.entry.val, lane.exit.val) ∈ (lane_state sqrtf g w k).used_lanes
        · rw [lane_body_skip _ _ _ _ _ hx hu]; exact ih
        · rw [lane_body_file _ _ _ _ _ hx hu]
          apply textInv_modify ih _ _ md0 h0
          intro md
          simp only [file_lane, push_lane, push_waypoint]
          split <;> split <;> split <;> rfl
      · rw [lane_body_cross _ _ _ _ _ ih hx]
        exact textInv_modify ih _ _ md0 h0 (fun md => rfl)

/-- The three cases of round `k` of the lane loop, for the lane `lane` of index `k`. -/
theorem lane_state_cases (sqrtf : ℚ → ℚ) (g : rmf_traffic.agv.Graph) (w : ℚ) (k : Nat)
    (lane : Lane g.waypoints.length) (hl : g.lanes[k]? = some lane) :
    ((g.get_waypoint lane.entry).map_name ≠ (g.get_waypoint lane.exit).map_name ∧
      lane_state sqrtf g w (k + 1) =
        { lane_state sqrtf g w k with impl := { (lane_state sqrtf g w k).impl with
          data := UMap.modify
            (fun md => { md with
              connector_waypoints_text :=
                UMap.emplace lane.entry.val
                  (connector_text (g.get_waypoint lane.exit).map_name
                    (waypoint_text lane.entry.val (g.get_waypoint lane.entry))
                    (waypoint_text lane.exit.val (g.get_waypoint lane.exit)))
                  md.connector_waypoints_text })
            (g.get_waypoint lane.entry).map_name (lane_state sqrtf g w k).impl.data } }) ∨
    ((g.get_waypoint lane.entry).map_name = (g.get_waypoint lane.exit).map_name ∧
      (lane.entry.val, lane.exit.val) ∈ (lane_state sqrtf g w k).used_lanes ∧
      lane_state sqrtf g w (k + 1) = lane_state sqrtf g w k) ∨
    ((g.get_waypoint lane.entry).map_name = (g.get_waypoint lane.exit).map_name ∧
      (lane.entry.val, lane.exit.val) ∉ (lane_state sqrtf g w k).used_lanes ∧
      lane_state sqrtf g w (k + 1) =
        { impl := { (lane_state sqrtf g w k).impl with
            data := UMap.modify
              (file_lane sqrtf (lane_state sqrtf g w k).impl.lane_width
                (g.lane_from lane.exit.val lane.entry.val).isSome k
                lane.entry.val lane.exit.val (g.get_waypoint lane.entry).location
                (g.get_waypoint lane.exit).location
                (decide (lane.entry.val ∉ (lane_state sqrtf g w k).used_vertices))
                (decide (lane.exit.val ∉ (lane_state sqrtf g w k).used_vertices ∧
                  lane.exit.val ≠ lane.entry.val)))
              (g.get_waypoint lane.entry).map_name (lane_state sqrtf g w k).impl.data,
            current_map :=
              if (lane_state sqrtf g w k).impl.current_map.isSome then
                (lane_state sqrtf g w k).impl.current_map
              else some (g.get_waypoint lane.entry).map_name,
            bounds := extend_bounds
              (extend_bounds (lane_state sqrtf g w k).impl.bounds
                (g.get_waypoint lane.entry).location)
              (g.get_waypoint lane.exit).location },
          used_lanes :=
            if (g.lane_from lane.exit.val lane.entry.val).isSome then
              (USet.insert (lane.exit.val, lane.entry.val)
                ((lane.entry.val, lane.exit.val) :: (lane_state sqrtf g w k).used_lanes)).1
            else (lane.entry.val, lane.exit.val) :: (lane_state sqrtf g w k).used_lanes,
          used_vertices :=
            (USet.insert lane.exit.val
              (USet.insert lane.entry.val (lane_state sqrtf g w k).used_vertices).1).1 }) := by
  rw [lane_state_succ _ _ _ _ lane hl]
  by_cases hx : (g.get_waypoint lane.entry).map_name = (g.get_waypoint lane.exit).map_name
  · by_cases hu : (lane.entry.val, lane.exit.val) ∈ (lane_state sqrtf g w k).used_lanes
    · exact Or.inr (Or.inl ⟨hx, hu, lane_body_skip _ _ _ _ _ hx hu⟩)
    · exact Or.inr (Or.inr ⟨hx, hu, lane_body_file _ _ _ _ _ hx hu⟩)
  · exact Or.inl ⟨hx, lane_body_cross _ _ _ _ _ (textInv_lane_state sqrtf g w k) hx⟩

theorem lane_state_lane_width (sqrtf : ℚ → ℚ) (g : rmf_traffic.agv.Graph) (w : ℚ) (k : Nat) :
    (lane_state sqrtf g w k).impl.lane_width = w := by
  induction k with
  | zero => rfl
  | succ k ih =>
    cases hl : g.lanes[k]? with
    | none => rw [lane_state_past _ _ _ _ hl]; exact ih
    | some lane =>
      rcases lane_state_cases sqrtf g w k lane hl with ⟨_, h⟩ | ⟨_, _, h⟩ | ⟨_, _, h⟩ <;>
        rw [h] <;> exact ih

theorem lane_state_selected (sqrtf : ℚ → ℚ) (g : rmf_traffic.agv.Graph) (w : ℚ) (k : Nat) :
    (lane_state sqrtf g w k).impl.selected = none := by
  induction k with
  | zero => rfl
  | succ k ih =>
    cases hl : g.lanes[k]? with
    | none => rw [lane_state_past _ _ _ _ hl]; exact ih
    | some lane =>
      rcases lane_state_cases sqrtf g w k lane hl with ⟨_, h⟩ | ⟨_, _, h⟩ | ⟨_, _, h⟩ <;>
        rw [h] <;> exact ih

/-! ### The lane loop: the geometry of a bucket -/

theorem file_lane_bi_indices (sqrtf : ℚ → ℚ) (w : ℚ) (b : Bool) (i j0 j1 : Nat) (p0 p1 : Vec2)
    (f0 f1 : Bool) (md : MapData) :
    (file_lane sqrtf w b i j0 j1 p0 p1 f0 f1 md).bi_indices =
      md.bi_indices ++ (if b then [i] else []) := by
  cases b <;> cases f0 <;> cases f1 <;> simp [file_lane, push_lane, push_waypoint]

theorem file_lane_mono_indices (sqrtf : ℚ → ℚ) (w : ℚ) (b : Bool) (i j0 j1 : Nat) (p0 p1 : Vec2)
    (f0 f1 : Bool) (md : MapData) :
    (file_lane sqrtf w b i j0 j1 p0 p1 f0 f1 md).mono_indices =
      md.mono_indices ++ (if b then [] else [i]) := by
  cases b <;> cases f0 <;> cases f1 <;> simp [file_lane, push_lane, push_waypoint]

theorem file_lane_bi_lanes (sqrtf : ℚ → ℚ) (w : ℚ) (b : Bool) (i j0 j1 : Nat) (p0 p1 : Vec2)
    (f0 f1 : Bool) (md : MapData) :
    (file_lane sqrtf w b i j0 j1 p0 p1 f0 f1 md).bi_lanes =
      md.bi_lanes ++
        (if b then [⟨⟨p0, LaneEntryColor⟩, ⟨p1, LaneEntryColor⟩, w / 2.0⟩] else []) := by
  cases b <;> cases f0 <;> cases f1 <;> simp [file_lane, push_lane, push_waypoint]

theorem file_lane_mono_lanes (sqrtf : ℚ → ℚ) (w : ℚ) (b : Bool) (i j0 j1 : Nat) (p0 p1 : Vec2)
    (f0 f1 : Bool) (md : MapData) :
    (file_lane sqrtf w b i j0 j1 p0 p1 f0 f1 md).mono_lanes =
      md.mono_lanes ++
        (if b then [] else [⟨⟨p0, LaneEntryColor⟩, ⟨p1, LaneExitColor⟩, w / 2.0⟩]) := by
  cases b <;> cases f0 <;> cases f1 <;> simp [file_lane, push_lane, push_waypoint]

theorem file_lane_bi_lane_arrows (sqrtf : ℚ → ℚ) (w : ℚ) (b : Bool) (i j0 j1 : Nat)
    (p0 p1 : Vec2) (f0 f1 : Bool) (md : MapData) :
    (file_lane sqrtf w b i j0 j1 p0 p1 f0 f1 md).bi_lane_arrows =
      md.bi_lane_arrows ++
        (if b then [] else
          [add_lane_arrow sqrtf ⟨p0, LaneEntryColor⟩ ⟨p1, LaneExitColor⟩]) := by
  cases b <;> cases f0 <;> cases f1 <;> simp [file_lane, push_lane, push_waypoint]

theorem file_lane_mono_lane_arrows (sqrtf : ℚ → ℚ) (w : ℚ) (b : Bool) (i j0 j1 : Nat)
    (p0 p1 : Vec2) (f0 f1 : Bool) (md : MapData) :
    (file_lane sqrtf w b i j0 j1 p0 p1 f0 f1 md).mono_lane_arrows = md.mono_lane_arrows := by
  cases b <;> cases f0 <;> cases f1 <;> simp [file_lane, push_lane, push_waypoint]

theorem file_lane_waypoint_indices (sqrtf : ℚ → ℚ) (w : ℚ) (b : Bool) (i j0 j1 : Nat)
    (p0 p1 : Vec2) (f0 f1 : Bool) (md : MapData) :
    (file_lane sqrtf w b i j0 j1 p0 p1 f0 f1 md).waypoint_indices =
      md.waypoint_indices ++ ((if f0 then [j0] else []) ++ (if f1 then [j1] else [])) := by
  cases b <;> cases f0 <;> cases f1 <;> simp [file_lane, push_lane, push_waypoint]

theorem file_lane_waypoints (sqrtf : ℚ → ℚ) (w : ℚ) (b : Bool) (i j0 j1 : Nat)
    (p0 p1 : Vec2) (f0 f1 : Bool) (md : MapData) :
    (file_lane sqrtf w b i j0 j1 p0 p1 f0 f1 md).waypoints =
      md.waypoints ++
        ((if f0 then [⟨0.30 * w, ⟨0.30 * w, 0.30 * w⟩, p0, WaypointColor⟩] else []) ++
          (if f1 then [⟨0.30 * w, ⟨0.30 * w, 0.30 * w⟩, p1, WaypointColor⟩] else [])) := by
  cases b <;> cases f0 <;> cases f1 <;> simp [file_lane, push_lane, push_waypoint]

theorem file_lane_waypoint_p (sqrtf : ℚ → ℚ) (w : ℚ) (b : Bool) (i j0 j1 : Nat)
    (p0 p1 : Vec2) (f0 f1 : Bool) (md : MapData) :
    (file_lane sqrtf w b i j0 j1 p0 p1 f0 f1 md).waypoint_p =
      md.waypoint_p ++ ((if f0 then [p0] else []) ++ (if f1 then [p1] else [])) := by
  cases b <;> cases f0 <;> cases f1 <;> simp [file_lane, push_lane, push_waypoint]

theorem file_lane_waypoints_text (sqrtf : ℚ → ℚ) (w : ℚ) (b : Bool) (i j0 j1 : Nat)
    (p0 p1 : Vec2) (f0 f1 : Bool) (md : MapData) :
    (file_lane sqrtf w b i j0 j1 p0 p1 f0 f1 md).waypoints_text = md.waypoints_text := by
  cases b <;> cases f0 <;> cases f1 <;> simp [file_lane, push_lane, push_waypoint]

theorem file_lane_connector (sqrtf : ℚ → ℚ) (w : ℚ) (b : Bool) (i j0 j1 : Nat)
    (p0 p1 : Vec2) (f0 f1 : Bool) (md : MapData) :
    (file_lane sqrtf w b i j0 j1 p0 p1 f0 f1 md).connector_waypoints_text =
      md.connector_waypoints_text := by
  cases b <;> cases f0 <;> cases f1 <;> simp [file_lane, push_lane, push_waypoint]

end Implementation
end Graph
end draw
end rmf_planner_viz

namespace rmf_planner_viz
namespace draw

theorem USet.mem_insert {α : Type} [DecidableEq α] (x a : α) (s : List α) :
    x ∈ (USet.insert a s).1 ↔ x = a ∨ x ∈ s := by
  by_cases h : a ∈ s
  · simp only [USet.insert, h, if_true]
    constructor
    · exact Or.inr
    · rintro (rfl | h1)
      · exact h
      · exact h1
  · simp [USet.insert, h]

namespace Graph
namespace Implementation

open rmf_traffic.agv (Waypoint Lane)

theorem bucketGeo_bare (sqrtf : ℚ → ℚ) (g : rmf_traffic.agv.Graph) (w : ℚ) (k : Nat)
    (uv : List Nat) (n : String) (md : MapData)
    (h : md = { (default : MapData) with waypoints_text := md.waypoints_text }) :
    BucketGeo sqrtf g w k uv n md := by
  rw [h]
  constructor <;> simp [default]

theorem bucketGeo_mono {sqrtf : ℚ → ℚ} {g : rmf_traffic.agv.Graph} {w : ℚ} {k : Nat}
    {uv : List Nat} {n : String} {md : MapData} (h : BucketGeo sqrtf g w k uv n md)
    (k2 : Nat) (uv2 : List Nat) (hk : k ≤ k2) (hu : ∀ j ∈ uv, j ∈ uv2) :
    BucketGeo sqrtf g w k2 uv2 n md := by
  refine ⟨h.bi_lanes_eq, h.mono_lanes_eq, h.arrows_eq, h.mono_arrows, h.waypoints_eq,
    h.waypoint_p_eq, ?_, ?_, h.lanes_nodup, ?_, h.wp_nodup⟩
  · intro i hi
    obtain ⟨h1, h2⟩ := h.bi_rec i hi
    exact ⟨lt_of_lt_of_le h1 hk, h2⟩
  · intro i hi
    obtain ⟨h1, h2⟩ := h.mono_rec i hi
    exact ⟨lt_of_lt_of_le h1 hk, h2⟩
  · intro j hj
    obtain ⟨h1, h2⟩ := h.wp_rec j hj
    exact ⟨hu j h1, h2⟩

theorem bucketGeo_connector {sqrtf : ℚ → ℚ} {g : rmf_traffic.agv.Graph} {w : ℚ} {k : Nat}
    {uv : List Nat} {n : String} {md : MapData} (h : BucketGeo sqrtf g w k uv n md)
    (c : List (Nat × Text)) :
    BucketGeo sqrtf g w k uv n { md with connector_waypoints_text := c } :=
  ⟨h.bi_lanes_eq, h.mono_lanes_eq, h.arrows_eq, h.mono_arrows, h.waypoints_eq,
    h.waypoint_p_eq, h.bi_rec, h.mono_rec, h.lanes_nodup, h.wp_rec, h.wp_nodup⟩

theorem bucketGeo_file {sqrtf : ℚ → ℚ} {g : rmf_traffic.agv.Graph} {w : ℚ} {k : Nat}
    {uv : List Nat} {md : MapData} (lane : Lane g.waypoints.length)
    (hl : g.lanes[k]? = some lane)
    (hx : (g.get_waypoint lane.entry).map_name = (g.get_waypoint lane.exit).map_name)
    (h : BucketGeo sqrtf g w k uv (g.get_waypoint lane.entry).map_name md) :
    BucketGeo sqrtf g w (k + 1)
      (USet.insert lane.exit.val (USet.insert lane.entry.val uv).1).1
      (g.get_waypoint lane.entry).map_name
      (file_lane sqrtf w (g.lane_from lane.exit.val lane.entry.val).isSome k
        lane.entry.val lane.exit.val (g.get_waypoint lane.entry).location
        (g.get_waypoint lane.exit).location
        (decide (lane.entry.val ∉ uv))
        (decide (lane.exit.val ∉ uv ∧ lane.exit.val ≠ lane.entry.val)) md) := by
  have hk_bi : k ∉ md.bi_indices := fun hh => lt_irrefl k (h.bi_rec k hh).1
  have hk_mono : k ∉ md.mono_indices := fun hh => lt_irrefl k (h.mono_rec k hh).1
  have hnd := h.lanes_nodup
  rw [List.nodup_append] at hnd
  constructor
  · rw [file_lane_bi_lanes, file_lane_bi_indices, List.map_append, List.map_append, h.bi_lanes_eq]
    cases (g.lane_from lane.exit.val lane.entry.val).isSome <;>
      simp [capsule_at, hl, capsule_of]
  · rw [file_lane_mono_lanes, file_lane_mono_indices, List.map_append, List.map_append,
      h.mono_lanes_eq]
    cases (g.lane_from lane.exit.val lane.entry.val).isSome <;>
      simp [capsule_at, hl, capsule_of]
  · rw [file_lane_bi_lane_arrows, file_lane_mono_indices, List.map_append, List.map_append,
      h.arrows_eq]
    cases (g.lane_from lane.exit.val lane.entry.val).isSome <;>
      simp [arrow_at, hl]
  · rw [file_lane_mono_lane_arrows]
    exact h.mono_arrows
  · rw [file_lane_waypoints, file_lane_waypoint_indices, List.map_append, List.map_append,
      h.waypoints_eq]
    by_cases h0 : lane.entry.val ∈ uv <;>
      by_cases h1 : lane.exit.val ∈ uv ∧ True <;>
      by_cases h2 : lane.exit.val = lane.entry.val <;>
      simp_all [circle_at, rmf_traffic.agv.Graph.get_waypoint]
  · rw [file_lane_waypoint_p, file_lane_waypoint_indices, List.map_append, List.map_append,
      h.waypoint_p_eq]
    by_cases h0 : lane.entry.val ∈ uv <;>
      by_cases h1 : lane.exit.val ∈ uv ∧ True <;>
      by_cases h2 : lane.exit.val = lane.entry.val <;>
      simp_all [location_of, rmf_traffic.agv.Graph.get_waypoint]
  · intro i hi
    rw [file_lane_bi_indices] at hi
    rcases List.mem_append.1 hi with hi | hi
    · obtain ⟨h1, h2⟩ := h.bi_rec i hi
      exact ⟨Nat.lt_succ_of_lt h1, h2⟩
    · cases hb : (g.lane_from lane.exit.val lane.entry.val).isSome
      · simp [hb] at hi
      · simp [hb] at hi
        subst hi
        exact ⟨Nat.lt_succ_self _, lane, hl, rfl, hx.symm, hb⟩
  · intro i hi
    rw [file_lane_mono_indices] at hi
    rcases List.mem_append.1 hi with hi | hi
    · obtain ⟨h1, h2⟩ := h.mono_rec i hi
      exact ⟨Nat.lt_succ_of_lt h1, h2⟩
    · cases hb : (g.lane_from lane.exit.val lane.entry.val).isSome
      · simp [hb] at hi
        subst hi
        exact ⟨Nat.lt_succ_self _, lane, hl, rfl, hx.symm, hb⟩
      · simp [hb] at hi
  · rw [file_lane_bi_indices, file_lane_mono_indices]
    cases (g.lane_from lane.exit.val lane.entry.val).isSome
    · simp only [Bool.false_eq_true, if_false, List.append_nil]
      rw [← List.append_assoc, List.nodup_append]
      refine ⟨h.lanes_nodup, by simp, ?_⟩
      intro a ha hb
      simp at hb
      subst hb
      rcases List.mem_append.1 ha with ha | ha
      · exact hk_bi ha
      · exact hk_mono ha
    · simp only [if_true, List.append_nil]
      rw [List.nodup_append]
      refine ⟨?_, hnd.2.1, ?_⟩
      · rw [List.nodup_append]
        refine ⟨hnd.1, by simp, ?_⟩
        intro a ha hb
        simp at hb
        subst hb
        exact hk_bi ha
      · intro a ha hb
        rcases List.mem_append.1 ha with ha | ha
        · exact hnd.2.2 ha hb
        · simp at ha
          subst ha
          exact hk_mono hb
  · intro j hj
    rw [file_lane_waypoint_indices] at hj
    simp only [USet.mem_insert]
    rcases List.mem_append.1 hj with hj | hj
    · obtain ⟨h1, h2⟩ := h.wp_rec j hj
      exact ⟨Or.inr (Or.inr h1), h2⟩
    · rcases List.mem_append.1 hj with hj | hj
      · split at hj
        · simp at hj
          subst hj
          exact ⟨Or.inr (Or.inl rfl), _, get_waypoint_eq g lane.entry, rfl⟩
        · simp at hj
      · split at hj
        · simp at hj
          subst hj
          exact ⟨Or.inl rfl, _, get_waypoint_eq g lane.exit, hx.symm⟩
        · simp at hj
  · rw [file_lane_waypoint_indices]
    have hin : ∀ j ∈ md.waypoint_indices, j ∈ uv := fun j hj => (h.wp_rec j hj).1
    rw [List.nodup_append]
    refine ⟨h.wp_nodup, ?_, ?_⟩
    · by_cases h0 : lane.entry.val ∈ uv <;>
        by_cases h1 : lane.exit.val ∈ uv <;>
        by_cases h2 : lane.exit.val = lane.entry.val <;>
        simp_all
      exact fun hh => h2 hh.symm
    · intro a ha hb
      have hauv := hin a ha
      rcases List.mem_append.1 hb with hb | hb
      · split at hb
        · rename_i hh
          simp at hb hh
          subst hb
          exact hh hauv
        · simp at hb
      · split at hb
        · rename_i hh
          simp at hb hh
          subst hb
          exact hh.1 hauv
        · simp at hb

end Implementation
end Graph
end draw
end rmf_planner_viz

namespace rmf_planner_viz
namespace draw
namespace Graph
namespace Implementation

open rmf_traffic.agv (Waypoint Lane)

/-- Every bucket keeps `BucketGeo` through the lane loop. -/
theorem geo_lane_state (sqrtf : ℚ → ℚ) (g : rmf_traffic.agv.Graph) (w : ℚ) (k : Nat) :
    ∀ n md, UMap.find? n (lane_state sqrtf g w k).impl.data = some md →
      BucketGeo sqrtf g w k (lane_state sqrtf g w k).used_vertices n md := by
  induction k with
  | zero =>
    intro n md h
    exact bucketGeo_bare _ _ _ _ _ _ _ ((waypoint_loop_inv g g.num_waypoints).bare n md h)
  | succ k ih =>
    cases hl : g.lanes[k]? with
    | none =>
      rw [lane_state_past _ _ _ _ hl]
      intro n md h
      exact bucketGeo_mono (ih n md h) _ _ (Nat.le_succ k) (fun _ hj => hj)
    | some lane =>
      have ht := textInv_lane_state sqrtf g w k
      obtain ⟨md0, h0, _⟩ := ht.text _ _ (get_waypoint_eq g lane.entry)
      rcases lane_state_cases sqrtf g w k lane hl with ⟨_, h⟩ | ⟨_, _, h⟩ | ⟨hx, _, h⟩
      · rw [h]
        intro n md hf
        simp only at hf
        rw [UMap.find?_modify] at hf
        split at hf
        · rename_i hn
          cases hf
          rw [UMap.get_of_find? h0, hn]
          exact bucketGeo_connector
            (bucketGeo_mono (ih _ md0 h0) _ _ (Nat.le_succ k) (fun _ hj => hj)) _
        · exact bucketGeo_mono (ih n md hf) _ _ (Nat.le_succ k) (fun _ hj => hj)
      · rw [h]
        intro n md hf
        exact bucketGeo_mono (ih n md hf) _ _ (Nat.le_succ k) (fun _ hj => hj)
      · rw [h]
        intro n md hf
        simp only at hf
        rw [UMap.find?_modify] at hf
        split at hf
        · rename_i hn
          cases hf
          rw [UMap.get_of_find? h0, hn, lane_state_lane_width]
          exact bucketGeo_file lane hl hx (ih _ md0 h0)
        · refine bucketGeo_mono (ih n md hf) _ _ (Nat.le_succ k) ?_
          intro j hj
          simp only [USet.mem_insert]
          exact Or.inr (Or.inr hj)

end Implementation
end Graph
end draw
end rmf_planner_viz

namespace rmf_planner_viz
namespace draw
namespace Graph
namespace Implementation

open rmf_traffic.agv (Waypoint Lane)

/-! ### The lane loop: which lanes are recorded, and the pairs marked as used -/

theorem recorded_modify (proj : MapData → List Nat) (F : MapData → MapData)
    (data : List (String × MapData)) (n0 : String) (md0 : MapData)
    (h0 : UMap.find? n0 data = some md0) (extra : List Nat)
    (hF : proj (F md0) = proj md0 ++ extra) (i : Nat) :
    Recorded proj (UMap.modify F n0 data) i ↔ Recorded proj data i ∨ i ∈ extra := by
  constructor
  · rintro ⟨n, md, hf, hi⟩
    rw [UMap.find?_modify] at hf
    split at hf
    · cases hf
      rw [UMap.get_of_find? h0, hF] at hi
      rcases List.mem_append.1 hi with hi | hi
      · exact Or.inl ⟨n0, md0, h0, hi⟩
      · exact Or.inr hi
    · exact Or.inl ⟨n, md, hf, hi⟩
  · rintro (⟨n, md, hf, hi⟩ | hi)
    · by_cases hn : n = n0
      · subst hn
        refine ⟨n, F md0, ?_, ?_⟩
        · rw [UMap.find?_modify_self, UMap.get_of_find? h0]
        · rw [hf] at h0
          cases h0
          rw [hF]
          exact List.mem_append_left _ hi
      · exact ⟨n, md, by rw [UMap.find?_modify_ne _ hn]; exact hf, hi⟩
    · refine ⟨n0, F md0, ?_, ?_⟩
      · rw [UMap.find?_modify_self, UMap.get_of_find? h0]
      · rw [hF]
        exact List.mem_append_right _ hi

theorem lane_from_isSome (g : rmf_traffic.agv.Graph) (k : Nat) (lane : Lane g.waypoints.length)
    (hl : g.lanes[k]? = some lane) : (g.lane_from lane.entry.val lane.exit.val).isSome = true := by
  simp only [rmf_traffic.agv.Graph.lane_from, List.find?_isSome]
  exact ⟨lane, (List.getElem?_eq_some_iff.1 hl).2 ▸ List.getElem_mem _, by simp⟩

/-- How round `k` changes the recorded lanes and the used pairs; `b` tells whether the
lane of the round was filed as bidirectional, `m` whether it was filed at all. -/
theorem lane_state_recorded (sqrtf : ℚ → ℚ) (g : rmf_traffic.agv.Graph) (w : ℚ) (k : Nat)
    (lane : Lane g.waypoints.length) (hl : g.lanes[k]? = some lane) :
    ∃ filed : Bool,
      (filed = true ↔
        ((g.get_waypoint lane.entry).map_name = (g.get_waypoint lane.exit).map_name ∧
          (lane.entry.val, lane.exit.val) ∉ (lane_state sqrtf g w k).used_lanes)) ∧
      (∀ i, Recorded MapData.bi_indices (lane_state sqrtf g w (k + 1)).impl.data i ↔
        Recorded MapData.bi_indices (lane_state sqrtf g w k).impl.data i ∨
          (filed = true ∧ (g.lane_from lane.exit.val lane.entry.val).isSome = true ∧ i = k)) ∧
      (∀ i, Recorded MapData.mono_indices (lane_state sqrtf g w (k + 1)).impl.data i ↔
        Recorded MapData.mono_indices (lane_state sqrtf g w k).impl.data i ∨
          (filed = true ∧ (g.lane_from lane.exit.val lane.entry.val).isSome = false ∧ i = k)) ∧
      (∀ a b, (a, b) ∈ (lane_state sqrtf g w (k + 1)).used_lanes ↔
        (a, b) ∈ (lane_state sqrtf g w k).used_lanes ∨
          (filed = true ∧ ((a = lane.entry.val ∧ b = lane.exit.val) ∨
            ((g.lane_from lane.exit.val lane.entry.val).isSome = true ∧
              a = lane.exit.val ∧ b = lane.entry.val)))) := by
  have ht := textInv_lane_state sqrtf g w k
  obtain ⟨md0, h0, _⟩ := ht.text _ _ (get_waypoint_eq g lane.entry)
  rcases lane_state_cases sqrtf g w k lane hl with ⟨hx, h⟩ | ⟨hx, hu, h⟩ | ⟨hx, hu, h⟩
  · refine ⟨false, by simp [hx], ?_, ?_, ?_⟩
    · intro i
      rw [h]
      simp only
      rw [recorded_modify MapData.bi_indices _ _ _ md0 h0 [] (by simp)]
      simp
    · intro i
      rw [h]
      simp only
      rw [recorded_modify MapData.mono_indices _ _ _ md0 h0 [] (by simp)]
      simp
    · intro a b
      rw [h]
      simp
  · refine ⟨false, by simp [hu], ?_, ?_, ?_⟩ <;> intros <;> rw [h] <;> simp
  · refine ⟨true, by simp [hx, hu], ?_, ?_, ?_⟩
    · intro i
      rw [h]
      simp only
      rw [recorded_modify MapData.bi_indices _ _ _ md0 h0 _ (file_lane_bi_indices _ _ _ _ _ _ _ _ _ _ _)]
      cases (g.lane_from lane.exit.val lane.entry.val).isSome <;> simp
    · intro i
      rw [h]
      simp only
      rw [recorded_modify MapData.mono_indices _ _ _ md0 h0 _
        (file_lane_mono_indices _ _ _ _ _ _ _ _ _ _ _)]
      cases (g.lane_from lane.exit.val lane.entry.val).isSome <;> simp
    · intro a b
      rw [h]
      simp only
      cases (g.lane_from lane.exit.val lane.entry.val).isSome
      · simp only [Bool.false_eq_true, if_false, List.mem_cons, Prod.mk.injEq, true_and, false_and, or_false]
        tauto
      · simp only [if_true, USet.mem_insert, List.mem_cons, Prod.mk.injEq, true_and]
        tauto

end Implementation
end Graph
end draw
end rmf_planner_viz

namespace rmf_planner_viz
namespace draw
namespace Graph
namespace Implementation

open rmf_traffic.agv (Waypoint Lane)

theorem recorded_bi_lt (sqrtf : ℚ → ℚ) (g : rmf_traffic.agv.Graph) (w : ℚ) (k i : Nat)
    (h : Recorded MapData.bi_indices (lane_state sqrtf g w k).impl.data i) : i < k := by
  obtain ⟨n, md, hf, hi⟩ := h
  exact ((geo_lane_state sqrtf g w k n md hf).bi_rec i hi).1

theorem recorded_mono_lt (sqrtf : ℚ → ℚ) (g : rmf_traffic.agv.Graph) (w : ℚ) (k i : Nat)
    (h : Recorded MapData.mono_indices (lane_state sqrtf g w k).impl.data i) : i < k := by
  obtain ⟨n, md, hf, hi⟩ := h
  exact ((geo_lane_state sqrtf g w k n md hf).mono_rec i hi).1

/-- A recorded lane has its directed pair marked as used, and also the reverse pair when
it is recorded as bidirectional. -/
theorem used_of_recorded (sqrtf : ℚ → ℚ) (g : rmf_traffic.agv.Graph) (w : ℚ) (k : Nat) :
    ∀ i l, g.lanes[i]? = some l →
      (Recorded MapData.bi_indices (lane_state sqrtf g w k).impl.data i →
        (l.entry.val, l.exit.val) ∈ (lane_state sqrtf g w k).used_lanes ∧
        (l.exit.val, l.entry.val) ∈ (lane_state sqrtf g w k).used_lanes) ∧
      (Recorded MapData.mono_indices (lane_state sqrtf g w k).impl.data i →
        (l.entry.val, l.exit.val) ∈ (lane_state sqrtf g w k).used_lanes) := by
  induction k with
  | zero =>
    intro i l _
    exact ⟨fun h => absurd (recorded_bi_lt _ _ _ _ _ h) (Nat.not_lt_zero i),
      fun h => absurd (recorded_mono_lt _ _ _ _ _ h) (Nat.not_lt_zero i)⟩
  | succ k ih =>
    cases hl : g.lanes[k]? with
    | none => rw [lane_state_past _ _ _ _ hl]; exact ih
    | some lane =>
      obtain ⟨filed, _, hbi, hmono, hused⟩ := lane_state_recorded sqrtf g w k lane hl
      intro i l hil
      constructor
      · intro hr
        rw [hbi] at hr
        rcases hr with hr | ⟨hf, hb, hik⟩
        · have := (ih i l hil).1 hr
          exact ⟨(hused _ _).2 (Or.inl this.1), (hused _ _).2 (Or.inl this.2)⟩
        · subst hik
          rw [hl] at hil
          cases hil
          exact ⟨(hused _ _).2 (Or.inr ⟨hf, Or.inl ⟨rfl, rfl⟩⟩),
            (hused _ _).2 (Or.inr ⟨hf, Or.inr ⟨hb, rfl, rfl⟩⟩)⟩
      · intro hr
        rw [hmono] at hr
        rcases hr with hr | ⟨hf, _, hik⟩
        · exact (hused _ _).2 (Or.inl ((ih i l hil).2 hr))
        · subst hik
          rw [hl] at hil
          cases hil
          exact (hused _ _).2 (Or.inr ⟨hf, Or.inl ⟨rfl, rfl⟩⟩)

/-- A pair marked as used is the pair of a recorded lane, or the reverse of the pair of a
lane recorded as bidirectional. -/
theorem recorded_of_used (sqrtf : ℚ → ℚ) (g : rmf_traffic.agv.Graph) (w : ℚ) (k : Nat) :
    ∀ a b, (a, b) ∈ (lane_state sqrtf g w k).used_lanes →
      ∃ i l, g.lanes[i]? = some l ∧
        (((Recorded MapData.bi_indices (lane_state sqrtf g w k).impl.data i ∨
            Recorded MapData.mono_indices (lane_state sqrtf g w k).impl.data i) ∧
          l.entry.val = a ∧ l.exit.val = b) ∨
        (Recorded MapData.bi_indices (lane_state sqrtf g w k).impl.data i ∧
          l.entry.val = b ∧ l.exit.val = a)) := by
  induction k with
  | zero =>
    intro a b h
    simp [lane_state_zero, lane_loop_init] at h
  | succ k ih =>
    cases hl : g.lanes[k]? with
    | none => rw [lane_state_past _ _ _ _ hl]; exact ih
    | some lane =>
      obtain ⟨filed, _, hbi, hmono, hused⟩ := lane_state_recorded sqrtf g w k lane hl
      intro a b hab
      rw [hused] at hab
      rcases hab with hab | ⟨hf, hab⟩
      · obtain ⟨i, l, hil, h⟩ := ih a b hab
        refine ⟨i, l, hil, ?_⟩
        rcases h with ⟨h1 | h1, h2⟩ | ⟨h1, h2⟩
        · exact Or.inl ⟨Or.inl ((hbi i).2 (Or.inl h1)), h2⟩
        · exact Or.inl ⟨Or.inr ((hmono i).2 (Or.inl h1)), h2⟩
        · exact Or.inr ⟨(hbi i).2 (Or.inl h1), h2⟩
      · refine ⟨k, lane, hl, ?_⟩
        rcases hab with ⟨ha, hb⟩ | ⟨hb, ha, hb2⟩
        · refine Or.inl ⟨?_, ha.symm, hb.symm⟩
          cases hbd : (g.lane_from lane.exit.val lane.entry.val).isSome
          · exact Or.inr ((hmono k).2 (Or.inr ⟨hf, hbd, rfl⟩))
          · exact Or.inl ((hbi k).2 (Or.inr ⟨hf, hbd, rfl⟩))
        · exact Or.inr ⟨(hbi k).2 (Or.inr ⟨hf, hb, rfl⟩), hb2.symm, ha.symm⟩

/-- The directed pair of every same-floor lane already visited is marked as used. -/
theorem used_covers (sqrtf : ℚ → ℚ) (g : rmf_traffic.agv.Graph) (w : ℚ) (k : Nat) :
    ∀ i l, i < k → g.lanes[i]? = some l →
      (g.get_waypoint l.entry).map_name = (g.get_waypoint l.exit).map_name →
      (l.entry.val, l.exit.val) ∈ (lane_state sqrtf g w k).used_lanes := by
  induction k with
  | zero => intro i l hi; exact absurd hi (Nat.not_lt_zero i)
  | succ k ih =>
    cases hl : g.lanes[k]? with
    | none =>
      rw [lane_state_past _ _ _ _ hl]
      intro i l _ hil hx
      have : i < g.lanes.length := (List.getElem?_eq_some_iff.1 hil).1
      have : g.lanes.length ≤ k := by
        by_contra hlt
        push_neg at hlt
        rw [List.getElem?_eq_getElem hlt] at hl
        exact Option.noConfusion hl
      exact ih i l (by omega) hil hx
    | some lane =>
      obtain ⟨filed, hfiled, _, _, hused⟩ := lane_state_recorded sqrtf g w k lane hl
      intro i l hi hil hx
      rw [hused]
      by_cases hik : i = k
      · subst hik
        rw [hl] at hil
        cases hil
        by_cases hu : (lane.entry.val, lane.exit.val) ∈ (lane_state sqrtf g w i).used_lanes
        · exact Or.inl hu
        · exact Or.inr ⟨hfiled.2 ⟨hx, hu⟩, Or.inl ⟨rfl, rfl⟩⟩
      · exact Or.inl (ih i l (by omega) hil hx)

/-- Two recorded lanes that join the same two waypoints, in either direction, are the
same lane: a pair of waypoints gets at most one capsule. -/
theorem recorded_pair_unique (sqrtf : ℚ → ℚ) (g : rmf_traffic.agv.Graph) (w : ℚ) (k : Nat) :
    ∀ i1 i2 l1 l2, g.lanes[i1]? = some l1 → g.lanes[i2]? = some l2 →
      (Recorded MapData.bi_indices (lane_state sqrtf g w k).impl.data i1 ∨
        Recorded MapData.mono_indices (lane_state sqrtf g w k).impl.data i1) →
      (Recorded MapData.bi_indices (lane_state sqrtf g w k).impl.data i2 ∨
        Recorded MapData.mono_indices (lane_state sqrtf g w k).impl.data i2) →
      ((l1.entry.val = l2.entry.val ∧ l1.exit.val = l2.exit.val) ∨
        (l1.entry.val = l2.exit.val ∧ l1.exit.val = l2.entry.val)) →
      i1 = i2 := by
  induction k with
  | zero =>
    intro i1 i2 l1 l2 _ _ h1
    rcases h1 with h1 | h1
    · exact absurd (recorded_bi_lt _ _ _ _ _ h1) (Nat.not_lt_zero _)
    · exact absurd (recorded_mono_lt _ _ _ _ _ h1) (Nat.not_lt_zero _)
  | succ k ih =>
    cases hl : g.lanes[k]? with
    | none => rw [lane_state_past _ _ _ _ hl]; exact ih
    | some lane =>
      obtain ⟨filed, hfiled, hbi, hmono, _⟩ := lane_state_recorded sqrtf g w k lane hl
      -- a lane recorded before round `k` never joins the two waypoints of a lane filed in round `k`
      have key : ∀ i l, g.lanes[i]? = some l → filed = true →
          (Recorded MapData.bi_indices (lane_state sqrtf g w k).impl.data i ∨
            Recorded MapData.mono_indices (lane_state sqrtf g w k).impl.data i) →
          ((l.entry.val = lane.entry.val ∧ l.exit.val = lane.exit.val) ∨
            (l.entry.val = lane.exit.val ∧ l.exit.val = lane.entry.val)) → False := by
        intro i l hil hf hr hp
        have hu := (hfiled.1 hf).2
        have hU := used_of_recorded sqrtf g w k i l hil
        rcases hp with ⟨e1, e2⟩ | ⟨e1, e2⟩
        · rcases hr with hr | hr
          · have := (hU.1 hr).1
            rw [e1, e2] at this
            exact hu this
          · have := hU.2 hr
            rw [e1, e2] at this
            exact hu this
        · rcases hr with hr | hr
          · have := (hU.1 hr).2
            rw [e1, e2] at this
            exact hu this
          · obtain ⟨n, md, hfd, hi⟩ := hr
            obtain ⟨_, l2, hl2, _, _, hno⟩ := (geo_lane_state sqrtf g w k n md hfd).mono_rec i hi
            rw [hil] at hl2
            cases hl2
            rw [e1, e2, lane_from_isSome g k lane hl] at hno
            exact Bool.noConfusion hno
      intro i1 i2 l1 l2 h1 h2 r1 r2 hp
      have r1' : (Recorded MapData.bi_indices (lane_state sqrtf g w k).impl.data i1 ∨
          Recorded MapData.mono_indices (lane_state sqrtf g w k).impl.data i1) ∨
          (filed = true ∧ i1 = k) := by
        rcases r1 with r | r
        · rcases (hbi i1).1 r with r | ⟨hf, _, e⟩
          · exact Or.inl (Or.inl r)
          · exact Or.inr ⟨hf, e⟩
        · rcases (hmono i1).1 r with r | ⟨hf, _, e⟩
          · exact Or.inl (Or.inr r)
          · exact Or.inr ⟨hf, e⟩
      have r2' : (Recorded MapData.bi_indices (lane_state sqrtf g w k).impl.data i2 ∨
          Recorded MapData.mono_indices (lane_state sqrtf g w k).impl.data i2) ∨
          (filed = true ∧ i2 = k) := by
        rcases r2 with r | r
        · rcases (hbi i2).1 r with r | ⟨hf, _, e⟩
          · exact Or.inl (Or.inl r)
          · exact Or.inr ⟨hf, e⟩
        · rcases (hmono i2).1 r with r | ⟨hf, _, e⟩
          · exact Or.inl (Or.inr r)
          · exact Or.inr ⟨hf, e⟩
      rcases r1' with r1' | ⟨hf1, e1⟩
      · rcases r2' with r2' | ⟨hf2, e2⟩
        · exact ih i1 i2 l1 l2 h1 h2 r1' r2' hp
        · subst e2
          rw [hl] at h2
          cases h2
          exact absurd (key i1 l1 h1 hf2 r1' hp) id
      · rcases r2' with r2' | ⟨_, e2⟩
        · subst e1
          rw [hl] at h1
          cases h1
          refine absurd (key i2 l2 h2 hf1 r2' ?_) id
          rcases hp with ⟨a, b⟩ | ⟨a, b⟩
          · exact Or.inl ⟨a.symm, b.symm⟩
          · exact Or.inr ⟨b.symm, a.symm⟩
        · rw [e1, e2]

end Implementation
end Graph
end draw
end rmf_planner_viz

namespace rmf_planner_viz
namespace draw
namespace Graph
namespace Implementation

open rmf_traffic.agv (Waypoint Lane)

/-! ### The built graph -/

theorem build_data (sqrtf : ℚ → ℚ) (g : rmf_traffic.agv.Graph) (w : ℚ) :
    (build sqrtf g w).data = (lane_state sqrtf g w g.num_lanes).impl.data := rfl

theorem build_selected (sqrtf : ℚ → ℚ) (g : rmf_traffic.agv.Graph) (w : ℚ) :
    (build sqrtf g w).selected = none := lane_state_selected sqrtf g w g.num_lanes

theorem build_lane_width (sqrtf : ℚ → ℚ) (g : rmf_traffic.agv.Graph) (w : ℚ) :
    (build sqrtf g w).lane_width = w := lane_state_lane_width sqrtf g w g.num_lanes

theorem build_find?_of_mem (sqrtf : ℚ → ℚ) (g : rmf_traffic.agv.Graph) (w : ℚ)
    (e : String × MapData) (he : e ∈ (build sqrtf g w).data) :
    UMap.find? e.1 (build sqrtf g w).data = some e.2 :=
  UMap.find?_of_mem (textInv_lane_state sqrtf g w g.num_lanes).keys_nodup he

/-- The geometry invariant for every bucket of the built graph. -/
theorem build_geo (sqrtf : ℚ → ℚ) (g : rmf_traffic.agv.Graph) (w : ℚ)
    (e : String × MapData) (he : e ∈ (build sqrtf g w).data) :
    BucketGeo sqrtf g w g.num_lanes (lane_state sqrtf g w g.num_lanes).used_vertices e.1 e.2 :=
  geo_lane_state sqrtf g w g.num_lanes e.1 e.2 (build_find?_of_mem sqrtf g w e he)

theorem countP_eq_one_of_unique {α : Type} (p : α → Bool) (l : List α) (x : α)
    (hn : l.Nodup) (hx : x ∈ l) (hp : p x = true) (hu : ∀ y ∈ l, p y = true → y = x) :
    l.countP p = 1 := by
  induction l with
  | nil => simp at hx
  | cons a t ih =>
    rw [List.nodup_cons] at hn
    by_cases hax : a = x
    · subst hax
      rw [List.countP_cons_of_pos _ _ hp]
      have : t.countP p = 0 := by
        rw [List.countP_eq_zero]
        intro y hy hpy
        have := hu y (List.mem_cons_of_mem _ hy) (by simpa using hpy)
        subst this
        exact hn.1 hy
      omega
    · have hxt : x ∈ t := by
        rcases List.mem_cons.1 hx with h | h
        · exact absurd h.symm hax
        · exact h
      have hpa : ¬ p a = true := fun h => hax (hu a (List.mem_cons_self _ _) h)
      rw [List.countP_cons_of_neg _ _ hpa]
      exact ih hn.2 hxt (fun y hy => hu y (List.mem_cons_of_mem _ hy))

theorem nodup_flatMap_buckets (data : List (String × MapData)) (proj : MapData → List Nat)
    (hk : (UMap.keys data).Nodup) (hn : ∀ e ∈ data, (proj e.2).Nodup)
    (hfl : ∀ e1 ∈ data, ∀ e2 ∈ data, ∀ i, i ∈ proj e1.2 → i ∈ proj e2.2 → e1.1 = e2.1) :
    (data.flatMap fun e => proj e.2).Nodup := by
  rw [List.nodup_flatMap]
  refine ⟨hn, ?_⟩
  have hp : data.Pairwise (fun a b => a.1 ≠ b.1) := by
    have := hk
    rw [UMap.keys, List.Nodup, List.pairwise_map] at this
    exact this
  refine List.Pairwise.imp_of_mem ?_ hp
  intro a b ha hb hab
  simp only [Function.onFun]
  intro i hia hib
  exact hab (hfl a ha b hb i hia hib)

/-- The lane indices recorded over all buckets and both sequences are pairwise distinct. -/
theorem build_lane_indices_nodup (sqrtf : ℚ → ℚ) (g : rmf_traffic.agv.Graph) (w : ℚ) :
    ((lane_entries (build sqrtf g w).data).map Prod.fst).Nodup := by
  have hmap : (lane_entries (build sqrtf g w).data).map Prod.fst =
      (build sqrtf g w).data.flatMap (fun e => e.2.bi_indices ++ e.2.mono_indices) := by
    simp only [lane_entries, List.map_flatMap]
    apply List.flatMap_congr
    intro e he
    have hg := build_geo sqrtf g w e he
    have h1 : e.2.bi_indices.length = e.2.bi_lanes.length := by
      have := congrArg List.length hg.bi_lanes_eq
      simpa using this.symm
    have h2 : e.2.mono_indices.length = e.2.mono_lanes.length := by
      have := congrArg List.length hg.mono_lanes_eq
      simpa using this.symm
    rw [List.map_append, List.map_fst_zip _ _ (le_of_eq h1), List.map_fst_zip _ _ (le_of_eq h2)]
  rw [hmap]
  apply nodup_flatMap_buckets _ (fun md => md.bi_indices ++ md.mono_indices)
    (textInv_lane_state sqrtf g w g.num_lanes).keys_nodup
  · intro e he
    exact (build_geo sqrtf g w e he).lanes_nodup
  · intro e1 he1 e2 he2 i hi1 hi2
    have hg1 := build_geo sqrtf g w e1 he1
    have hg2 := build_geo sqrtf g w e2 he2
    have f1 : ∃ l, g.lanes[i]? = some l ∧ (g.get_waypoint l.entry).map_name = e1.1 := by
      rcases List.mem_append.1 hi1 with h | h
      · obtain ⟨_, l, hl, hf, _⟩ := hg1.bi_rec i h
        exact ⟨l, hl, hf⟩
      · obtain ⟨_, l, hl, hf, _⟩ := hg1.mono_rec i h
        exact ⟨l, hl, hf⟩
    have f2 : ∃ l, g.lanes[i]? = some l ∧ (g.get_waypoint l.entry).map_name = e2.1 := by
      rcases List.mem_append.1 hi2 with h | h
      · obtain ⟨_, l, hl, hf, _⟩ := hg2.bi_rec i h
        exact ⟨l, hl, hf⟩
      · obtain ⟨_, l, hl, hf, _⟩ := hg2.mono_rec i h
        exact ⟨l, hl, hf⟩
    obtain ⟨l1, hl1, hf1⟩ := f1
    obtain ⟨l2, hl2, hf2⟩ := f2
    rw [hl1] at hl2
    cases hl2
    rw [← hf1, ← hf2]

/-- An index is among the indices of `lane_entries` exactly when it is recorded. -/
theorem mem_lane_entries_fst (sqrtf : ℚ → ℚ) (g : rmf_traffic.agv.Graph) (w : ℚ) (i : Nat) :
    i ∈ (lane_entries (build sqrtf g w).data).map Prod.fst ↔
      (Recorded MapData.bi_indices (build sqrtf g w).data i ∨
        Recorded MapData.mono_indices (build sqrtf g w).data i) := by
  have hlen : ∀ e ∈ (build sqrtf g w).data,
      (e.2.bi_indices.zip e.2.bi_lanes ++ e.2.mono_indices.zip e.2.mono_lanes).map Prod.fst =
        e.2.bi_indices ++ e.2.mono_indices := by
    intro e he
    have hg := build_geo sqrtf g w e he
    have h1 : e.2.bi_indices.length = e.2.bi_lanes.length := by
      have := congrArg List.length hg.bi_lanes_eq
      simpa using this.symm
    have h2 : e.2.mono_indices.length = e.2.mono_lanes.length := by
      have := congrArg List.length hg.mono_lanes_eq
      simpa using this.symm
    rw [List.map_append, List.map_fst_zip _ _ (le_of_eq h1), List.map_fst_zip _ _ (le_of_eq h2)]
  simp only [lane_entries, List.map_flatMap, List.mem_flatMap]
  constructor
  · rintro ⟨e, he, hi⟩
    rw [hlen e he] at hi
    rcases List.mem_append.1 hi with h | h
    · exact Or.inl ⟨e.1, e.2, build_find?_of_mem sqrtf g w e he, h⟩
    · exact Or.inr ⟨e.1, e.2, build_find?_of_mem sqrtf g w e he, h⟩
  · rintro (⟨n, md, hf, hi⟩ | ⟨n, md, hf, hi⟩)
    · refine ⟨(n, md), UMap.mem_of_find? hf, ?_⟩
      rw [hlen _ (UMap.mem_of_find? hf)]
      exact List.mem_append_left _ hi
    · refine ⟨(n, md), UMap.mem_of_find? hf, ?_⟩
      rw [hlen _ (UMap.mem_of_find? hf)]
      exact List.mem_append_right _ hi

end Implementation
end Graph
end draw
end rmf_planner_viz

namespace rmf_planner_viz
namespace draw
namespace Graph
namespace Implementation

open rmf_traffic.agv (Waypoint Lane)

/-! ### Lanes in both directions are drawn once -/

/-- When a recorded lane joins the waypoints `a` and `b`, exactly one filed capsule does. -/
theorem count_joins_of_recorded (sqrtf : ℚ → ℚ) (g : rmf_traffic.agv.Graph) (w : ℚ)
    (a b i : Nat) (l : Lane g.waypoints.length) (hil : g.lanes[i]? = some l)
    (hrec : Recorded MapData.bi_indices (build sqrtf g w).data i ∨
      Recorded MapData.mono_indices (build sqrtf g w).data i)
    (hpair : (l.entry.val = a ∧ l.exit.val = b) ∨ (l.entry.val = b ∧ l.exit.val = a)) :
    (lane_entries (build sqrtf g w).data).countP (fun e => joins g a b e.1) = 1 := by
  have hjoin : joins g a b i = true := by
    simp only [joins, hil]
    rcases hpair with ⟨e1, e2⟩ | ⟨e1, e2⟩ <;> simp [e1, e2]
  have : (lane_entries (build sqrtf g w).data).countP (fun e => joins g a b e.1) =
      ((lane_entries (build sqrtf g w).data).map Prod.fst).countP (joins g a b) := by
    rw [List.countP_map]
    rfl
  rw [this]
  apply countP_eq_one_of_unique _ _ i (build_lane_indices_nodup sqrtf g w)
    ((mem_lane_entries_fst sqrtf g w i).2 hrec) hjoin
  intro y hy hjy
  have hry := (mem_lane_entries_fst sqrtf g w y).1 hy
  simp only [joins] at hjy
  cases hly : g.lanes[y]? with
  | none => simp [hly] at hjy
  | some l2 =>
    simp only [hly, Bool.or_eq_true, Bool.and_eq_true, decide_eq_true_eq] at hjy
    apply recorded_pair_unique sqrtf g w g.num_lanes y i l2 l hly hil hry hrec
    rcases hjy with ⟨a1, b1⟩ | ⟨a1, b1⟩ <;> rcases hpair with ⟨c, d⟩ | ⟨c, d⟩
    · exact Or.inl ⟨a1.trans c.symm, b1.trans d.symm⟩
    · exact Or.inr ⟨a1.trans d.symm, b1.trans c.symm⟩
    · exact Or.inr ⟨a1.trans d.symm, b1.trans c.symm⟩
    · exact Or.inl ⟨a1.trans c.symm, b1.trans d.symm⟩

/-- C3: a same-floor lane (j0,j1) that has a reverse lane (j1,j0) gets, over all buckets
and over both the bidirectional and the one-way sequences, exactly one capsule whose
recorded lane joins j0 and j1 in either direction, and that capsule is in the
bidirectional sequence of the bucket of the floor of j0, whatever the number of lanes
between the two waypoints. -/
theorem bidirectional_pair_one_capsule (sqrtf : ℚ → ℚ) (g : rmf_traffic.agv.Graph) (w : ℚ)
    (k : Nat) (lane : Lane g.waypoints.length) (hl : g.lanes[k]? = some lane)
    (hx : (g.get_waypoint lane.entry).map_name = (g.get_waypoint lane.exit).map_name)
    (hr : ∃ r ∈ g.lanes, r.entry = lane.exit ∧ r.exit = lane.entry) :
    (lane_entries (build sqrtf g w).data).countP
        (fun e => joins g lane.entry.val lane.exit.val e.1) = 1 ∧
      ∃ (md : MapData) (pos i : Nat) (c : Capsule),
        UMap.find? (g.get_waypoint lane.entry).map_name (build sqrtf g w).data = some md ∧
        md.bi_indices[pos]? = some i ∧ md.bi_lanes[pos]? = some c ∧
        joins g lane.entry.val lane.exit.val i = true := by
  have hk : k < g.num_lanes := (List.getElem?_eq_some_iff.1 hl).1
  have hrev : (g.lane_from lane.exit.val lane.entry.val).isSome = true := by
    obtain ⟨r, hr1, hr2, hr3⟩ := hr
    simp only [rmf_traffic.agv.Graph.lane_from, List.find?_isSome]
    exact ⟨r, hr1, by simp [hr2, hr3]⟩
  have hused := used_covers sqrtf g w g.num_lanes k lane hk hl hx
  -- the recorded lane that joins the pair, recorded as bidirectional
  have hex : ∃ i l, g.lanes[i]? = some l ∧
      Recorded MapData.bi_indices (build sqrtf g w).data i ∧
      ((l.entry.val = lane.entry.val ∧ l.exit.val = lane.exit.val) ∨
        (l.entry.val = lane.exit.val ∧ l.exit.val = lane.entry.val)) := by
    obtain ⟨i, l, hil, h⟩ := recorded_of_used sqrtf g w g.num_lanes _ _ hused
    refine ⟨i, l, hil, ?_⟩
    rcases h with ⟨hrec | hrec, e1, e2⟩ | ⟨hrec, e1, e2⟩
    · exact ⟨hrec, Or.inl ⟨e1, e2⟩⟩
    · obtain ⟨n, md, hf, hi⟩ := hrec
      obtain ⟨_, l2, hl2, _, _, hno⟩ := (geo_lane_state sqrtf g w _ n md hf).mono_rec i hi
      rw [hil] at hl2
      cases hl2
      rw [e1, e2, hrev] at hno
      exact Bool.noConfusion hno
    · exact ⟨hrec, Or.inr ⟨e1, e2⟩⟩
  obtain ⟨i, l, hil, hrec, hpair⟩ := hex
  have hjoin : joins g lane.entry.val lane.exit.val i = true := by
    simp only [joins, hil]
    rcases hpair with ⟨e1, e2⟩ | ⟨e1, e2⟩ <;> simp [e1, e2]
  refine ⟨count_joins_of_recorded sqrtf g w _ _ i l hil (Or.inl hrec) hpair, ?_⟩
  obtain ⟨n, md, hf, hi⟩ := hrec
  have hg := geo_lane_state sqrtf g w _ n md hf
  obtain ⟨_, l2, hl2, hn1, hn2, _⟩ := hg.bi_rec i hi
  rw [hil] at hl2
  cases hl2
  have hn : n = (g.get_waypoint lane.entry).map_name := by
    rcases hpair with ⟨e1, _⟩ | ⟨_, e2⟩
    · rw [← hn1, Fin.ext e1]
    · rw [← hn2, Fin.ext e2]
  obtain ⟨pos, hpos⟩ := List.getElem?_of_mem hi
  have hlen : md.bi_lanes.length = md.bi_indices.length := by
    simpa using congrArg List.length hg.bi_lanes_eq
  have hp : pos < md.bi_lanes.length := by
    rw [hlen]
    exact (List.getElem?_eq_some_iff.1 hpos).1
  exact ⟨md, pos, i, md.bi_lanes[pos], hn ▸ hf, hpos, List.getElem?_eq_getElem hp, hjoin⟩

theorem bidirectional_pair_one_capsule_witness :
    (lane_entries (build Samples.sample_sqrt Samples.two_way_graph 2).data).countP
        (fun e => joins Samples.two_way_graph 0 1 e.1) = 1 ∧
      ∃ (md : MapData) (pos i : Nat) (c : Capsule),
        UMap.find? "L1" (build Samples.sample_sqrt Samples.two_way_graph 2).data = some md ∧
        md.bi_indices[pos]? = some i ∧ md.bi_lanes[pos]? = some c ∧
        joins Samples.two_way_graph 0 1 i = true :=
  bidirectional_pair_one_capsule Samples.sample_sqrt Samples.two_way_graph 2 0
    (⟨0, 1⟩ : Lane 2) (by decide) (by decide)
    ⟨(⟨1, 0⟩ : Lane 2), by decide, by decide, by decide⟩

end Implementation
end Graph
end draw
end rmf_planner_viz

namespace rmf_planner_viz
namespace draw
namespace Graph
namespace Implementation

open rmf_traffic.agv (Waypoint Lane)

/-! ### One-way lanes: one capsule and its arrow -/

/-- The centroid of the arrow glyph is the midpoint of the segment moved along the
direction of the segment by a positive factor, when the square root of the squared
length is positive. -/
theorem arrow_centroid (sqrtf : ℚ → ℚ) (v0 v1 : Vertex)
    (hs : 0 < sqrtf ((v1.position.x - v0.position.x) * (v1.position.x - v0.position.x) +
      (v1.position.y - v0.position.y) * (v1.position.y - v0.position.y))) :
    ∃ t : ℚ, 0 < t ∧
      centroid (add_lane_arrow sqrtf v0 v1) =
        some ((midpoint v0.position v1.position).add ((v1.position.sub v0.position).smul t)) := by
  refine ⟨11 / 48 / sqrtf ((v1.position.x - v0.position.x) * (v1.position.x - v0.position.x) +
      (v1.position.y - v0.position.y) * (v1.position.y - v0.position.y)), by positivity, ?_⟩
  have hne := ne_of_gt hs
  simp only [add_lane_arrow, centroid, midpoint, Vec2.add, Vec2.sub, Vec2.smul, Vec2.sdiv,
    Option.some.injEq, Vec2.mk.injEq]
  constructor
  · field_simp
    ring
  · field_simp
    ring

theorem bucketGeo_lengths {sqrtf : ℚ → ℚ} {g : rmf_traffic.agv.Graph} {w : ℚ} {k : Nat}
    {uv : List Nat} {n : String} {md : MapData} (h : BucketGeo sqrtf g w k uv n md) :
    md.bi_lanes.length = md.bi_indices.length ∧
    md.mono_lanes.length = md.mono_indices.length ∧
    md.bi_lane_arrows.length = md.mono_lanes.length ∧
    md.waypoints.length = md.waypoint_indices.length ∧
    md.waypoint_p.length = md.waypoint_indices.length := by
  have h1 := congrArg List.length h.bi_lanes_eq
  have h2 := congrArg List.length h.mono_lanes_eq
  have h3 := congrArg List.length h.arrows_eq
  have h4 := congrArg List.length h.waypoints_eq
  have h5 := congrArg List.length h.waypoint_p_eq
  simp only [List.length_map] at h1 h2 h3 h4 h5
  exact ⟨h1, h2, h3.trans h2.symm, h4, h5⟩

/-- Position by position, a one-way capsule carries the index of its lane, runs from the
entry position to the exit position of that lane, and has its arrow at the same position
of the arrow sequence. -/
theorem bucketGeo_mono_at {sqrtf : ℚ → ℚ} {g : rmf_traffic.agv.Graph} {w : ℚ} {k : Nat}
    {uv : List Nat} {n : String} {md : MapData} (h : BucketGeo sqrtf g w k uv n md)
    (pos : Nat) (c : Capsule) (hc : md.mono_lanes[pos]? = some c) :
    ∃ i l, md.mono_indices[pos]? = some i ∧ g.lanes[i]? = some l ∧
      c = capsule_of g w false l ∧
      md.bi_lane_arrows[pos]? = some (add_lane_arrow sqrtf c.v0 c.v1) := by
  have h1 : (md.mono_lanes.map some)[pos]? = some (some c) := by
    rw [List.getElem?_map, hc]
    rfl
  rw [h.mono_lanes_eq, List.getElem?_map] at h1
  cases hi : md.mono_indices[pos]? with
  | none => simp [hi] at h1
  | some i =>
    simp only [hi, Option.map_some', Option.some.injEq] at h1
    simp only [capsule_at] at h1
    cases hli : g.lanes[i]? with
    | none => simp [hli] at h1
    | some l =>
      simp only [hli, Option.map_some', Option.some.injEq] at h1
      refine ⟨i, l, rfl, hli, h1.symm, ?_⟩
      have h2 : (md.bi_lane_arrows.map some)[pos]? = some (arrow_at sqrtf g i) := by
        rw [h.arrows_eq, List.getElem?_map, hi]
        rfl
      rw [List.getElem?_map] at h2
      cases ha : md.bi_lane_arrows[pos]? with
      | none => simp [ha] at h2
      | some a =>
        simp only [ha, Option.map_some', Option.some.injEq, arrow_at, hli] at h2
        rw [h2, ← h1]
        rfl

theorem build_mono_indices_nodup (sqrtf : ℚ → ℚ) (g : rmf_traffic.agv.Graph) (w : ℚ) :
    ((mono_entries (build sqrtf g w).data).map Prod.fst).Nodup := by
  have hmap : (mono_entries (build sqrtf g w).data).map Prod.fst =
      (build sqrtf g w).data.flatMap (fun e => e.2.mono_indices) := by
    simp only [mono_entries, List.map_flatMap]
    apply List.flatMap_congr
    intro e he
    have hg := bucketGeo_lengths (build_geo sqrtf g w e he)
    rw [List.map_fst_zip _ _ (le_of_eq hg.2.1.symm)]
  rw [hmap]
  apply nodup_flatMap_buckets _ (fun md => md.mono_indices)
    (textInv_lane_state sqrtf g w g.num_lanes).keys_nodup
  · intro e he
    have := (build_geo sqrtf g w e he).lanes_nodup
    rw [List.nodup_append] at this
    exact this.2.1
  · intro e1 he1 e2 he2 i hi1 hi2
    obtain ⟨_, l1, hl1, hf1, _⟩ := (build_geo sqrtf g w e1 he1).mono_rec i hi1
    obtain ⟨_, l2, hl2, hf2, _⟩ := (build_geo sqrtf g w e2 he2).mono_rec i hi2
    rw [hl1] at hl2
    cases hl2
    rw [← hf1, ← hf2]

theorem mem_mono_entries_fst (sqrtf : ℚ → ℚ) (g : rmf_traffic.agv.Graph) (w : ℚ) (i : Nat) :
    i ∈ (mono_entries (build sqrtf g w).data).map Prod.fst ↔
      Recorded MapData.mono_indices (build sqrtf g w).data i := by
  have hlen : ∀ e ∈ (build sqrtf g w).data,
      (e.2.mono_indices.zip e.2.mono_lanes).map Prod.fst = e.2.mono_indices := by
    intro e he
    have hg := bucketGeo_lengths (build_geo sqrtf g w e he)
    rw [List.map_fst_zip _ _ (le_of_eq hg.2.1.symm)]
  simp only [mono_entries, List.map_flatMap, List.mem_flatMap]
  constructor
  · rintro ⟨e, he, hi⟩
    rw [hlen e he] at hi
    exact ⟨e.1, e.2, build_find?_of_mem sqrtf g w e he, hi⟩
  · rintro ⟨n, md, hf, hi⟩
    refine ⟨(n, md), UMap.mem_of_find? hf, ?_⟩
    rw [hlen _ (UMap.mem_of_find? hf)]
    exact hi

end Implementation
end Graph
end draw
end rmf_planner_viz

namespace rmf_planner_viz
namespace draw
namespace Graph
namespace Implementation

open rmf_traffic.agv (Waypoint Lane)

/-- C4: a same-floor lane (j0,j1) with no reverse lane and with distinct end positions
gets exactly one capsule over all buckets and sequences, it is a one-way capsule for the
directed pair, and its arrow glyph sits at the same position of the arrow sequence of the
floor (the sequence named `bi_lane_arrows`, as long as the one-way capsule sequence and
aligned with it); the centroid of the arrow is the segment midpoint plus a positive
multiple of p1 - p0. The square root is assumed positive on positive numbers. -/
theorem one_way_lane_capsule_and_arrow (sqrtf : ℚ → ℚ) (g : rmf_traffic.agv.Graph) (w : ℚ)
    (k : Nat) (lane : Lane g.waypoints.length) (hl : g.lanes[k]? = some lane)
    (hx : (g.get_waypoint lane.entry).map_name = (g.get_waypoint lane.exit).map_name)
    (hr : ¬ ∃ r ∈ g.lanes, r.entry = lane.exit ∧ r.exit = lane.entry)
    (hp : (g.get_waypoint lane.entry).location ≠ (g.get_waypoint lane.exit).location)
    (hs : ∀ x : ℚ, 0 < x → 0 < sqrtf x) :
    (lane_entries (build sqrtf g w).data).countP
        (fun e => joins g lane.entry.val lane.exit.val e.1) = 1 ∧
    (mono_entries (build sqrtf g w).data).countP
        (fun e => runs g lane.entry.val lane.exit.val e.1) = 1 ∧
    ∃ (md : MapData) (pos i : Nat) (c : Capsule) (arrow : List Vertex),
      UMap.find? (g.get_waypoint lane.entry).map_name (build sqrtf g w).data = some md ∧
      md.mono_indices[pos]? = some i ∧ runs g lane.entry.val lane.exit.val i = true ∧
      md.mono_lanes[pos]? = some c ∧
      c.v0.position = (g.get_waypoint lane.entry).location ∧
      c.v1.position = (g.get_waypoint lane.exit).location ∧
      md.bi_lane_arrows.length = md.mono_lanes.length ∧
      md.mono_lane_arrows = [] ∧
      (∀ (pos2 : Nat) (c2 : Capsule), md.mono_lanes[pos2]? = some c2 →
        md.bi_lane_arrows[pos2]? = some (add_lane_arrow sqrtf c2.v0 c2.v1)) ∧
      md.bi_lane_arrows[pos]? = some arrow ∧
      ∃ t : ℚ, 0 < t ∧
        centroid arrow =
          some ((midpoint (g.get_waypoint lane.entry).location
              (g.get_waypoint lane.exit).location).add
            (((g.get_waypoint lane.exit).location.sub
              (g.get_waypoint lane.entry).location).smul t)) := by
  have hk : k < g.num_lanes := (List.getElem?_eq_some_iff.1 hl).1
  have hused := used_covers sqrtf g w g.num_lanes k lane hk hl hx
  -- the recorded lane of the directed pair, recorded as one-way
  have hex : ∃ i l, g.lanes[i]? = some l ∧
      Recorded MapData.mono_indices (build sqrtf g w).data i ∧
      l.entry.val = lane.entry.val ∧ l.exit.val = lane.exit.val := by
    obtain ⟨i, l, hil, h⟩ := recorded_of_used sqrtf g w g.num_lanes _ _ hused
    have hlmem : l ∈ g.lanes := (List.getElem?_eq_some_iff.1 hil).2 ▸ List.getElem_mem _
    refine ⟨i, l, hil, ?_⟩
    rcases h with ⟨hrec | hrec, e1, e2⟩ | ⟨_, e1, e2⟩
    · exfalso
      obtain ⟨n, md, hf, hi⟩ := hrec
      obtain ⟨_, l2, hl2, _, _, hyes⟩ := (geo_lane_state sqrtf g w _ n md hf).bi_rec i hi
      rw [hil] at hl2
      cases hl2
      rw [e1, e2] at hyes
      simp only [rmf_traffic.agv.Graph.lane_from, List.find?_isSome, Bool.and_eq_true,
        decide_eq_true_eq] at hyes
      obtain ⟨r, hr1, hr2, hr3⟩ := hyes
      exact hr ⟨r, hr1, Fin.ext hr2, Fin.ext hr3⟩
    · exact ⟨hrec, e1, e2⟩
    · exact absurd ⟨l, hlmem, Fin.ext e1, Fin.ext e2⟩ hr
  obtain ⟨i, l, hil, hrec, e1, e2⟩ := hex
  have hle : l = lane := by
    cases l
    cases lane
    simp only [rmf_traffic.agv.Lane.mk.injEq]
    exact ⟨Fin.ext e1, Fin.ext e2⟩
  subst hle
  have hruns : runs g l.entry.val l.exit.val i = true := by
    simp [runs, hil]
  refine ⟨count_joins_of_recorded sqrtf g w _ _ i l hil (Or.inr hrec) (Or.inl ⟨rfl, rfl⟩), ?_, ?_⟩
  · have : (mono_entries (build sqrtf g w).data).countP
        (fun e => runs g l.entry.val l.exit.val e.1) =
        ((mono_entries (build sqrtf g w).data).map Prod.fst).countP
          (runs g l.entry.val l.exit.val) := by
      rw [List.countP_map]
      rfl
    rw [this]
    apply countP_eq_one_of_unique _ _ i (build_mono_indices_nodup sqrtf g w)
      ((mem_mono_entries_fst sqrtf g w i).2 hrec) hruns
    intro y hy hjy
    have hry := (mem_mono_entries_fst sqrtf g w y).1 hy
    simp only [runs] at hjy
    cases hly : g.lanes[y]? with
    | none => simp [hly] at hjy
    | some l2 =>
      simp only [hly, Bool.and_eq_true, decide_eq_true_eq] at hjy
      exact recorded_pair_unique sqrtf g w g.num_lanes y i l2 l hly hil (Or.inr hry)
        (Or.inr hrec) (Or.inl hjy)
  · obtain ⟨n, md, hf, hi⟩ := hrec
    have hg := geo_lane_state sqrtf g w _ n md hf
    obtain ⟨_, l2, hl2, hn1, _, _⟩ := hg.mono_rec i hi
    rw [hil] at hl2
    cases hl2
    obtain ⟨pos, hpos⟩ := List.getElem?_of_mem hi
    have hlens := bucketGeo_lengths hg
    have hp2 : pos < md.mono_lanes.length := by
      rw [hlens.2.1]
      exact (List.getElem?_eq_some_iff.1 hpos).1
    have hc : md.mono_lanes[pos]? = some md.mono_lanes[pos] := List.getElem?_eq_getElem hp2
    obtain ⟨i2, l3, hi2, hl3, hcap, harrow⟩ := bucketGeo_mono_at hg pos _ hc
    rw [hpos] at hi2
    cases hi2
    rw [hil] at hl3
    cases hl3
    have hpos0 : (md.mono_lanes[pos]).v0.position = (g.get_waypoint l.entry).location := by
      rw [hcap]; rfl
    have hpos1 : (md.mono_lanes[pos]).v1.position = (g.get_waypoint l.exit).location := by
      rw [hcap]; rfl
    have hlen_pos : 0 < ((md.mono_lanes[pos]).v1.position.x - (md.mono_lanes[pos]).v0.position.x) *
        ((md.mono_lanes[pos]).v1.position.x - (md.mono_lanes[pos]).v0.position.x) +
        ((md.mono_lanes[pos]).v1.position.y - (md.mono_lanes[pos]).v0.position.y) *
        ((md.mono_lanes[pos]).v1.position.y - (md.mono_lanes[pos]).v0.position.y) := by
      rw [hpos0, hpos1]
      have hne : (g.get_waypoint l.exit).location.x - (g.get_waypoint l.entry).location.x ≠ 0 ∨
          (g.get_waypoint l.exit).location.y - (g.get_waypoint l.entry).location.y ≠ 0 := by
        by_contra hcon
        push_neg at hcon
        apply hp
        cases h0 : (g.get_waypoint l.entry).location
        cases h1 : (g.get_waypoint l.exit).location
        rw [h0, h1] at hcon
        simp only [Vec2.mk.injEq]
        constructor
        · linarith [hcon.1]
        · linarith [hcon.2]
      rcases hne with h | h
      · have := mul_self_pos.2 h
        nlinarith [mul_self_nonneg
          ((g.get_waypoint l.exit).location.y - (g.get_waypoint l.entry).location.y)]
      · have := mul_self_pos.2 h
        nlinarith [mul_self_nonneg
          ((g.get_waypoint l.exit).location.x - (g.get_waypoint l.entry).location.x)]
    obtain ⟨t, ht, hcen⟩ := arrow_centroid sqrtf (md.mono_lanes[pos]).v0 (md.mono_lanes[pos]).v1
      (hs _ hlen_pos)
    rw [hpos0, hpos1] at hcen
    refine ⟨md, pos, i, md.mono_lanes[pos], _, hn1 ▸ hf, hpos, hruns, hc, hpos0, hpos1,
      hlens.2.2.1, hg.mono_arrows, ?_, harrow, t, ht, hcen⟩
    intro pos2 c2 hc2
    obtain ⟨_, _, _, _, _, ha⟩ := bucketGeo_mono_at hg pos2 c2 hc2
    exact ha

theorem one_way_lane_capsule_and_arrow_witness :
    (lane_entries (build Samples.sample_sqrt Samples.one_way_graph 2).data).countP
        (fun e => joins Samples.one_way_graph 0 1 e.1) = 1 ∧
    (mono_entries (build Samples.sample_sqrt Samples.one_way_graph 2).data).countP
        (fun e => runs Samples.one_way_graph 0 1 e.1) = 1 ∧
    ∃ (md : MapData) (pos i : Nat) (c : Capsule) (arrow : List Vertex),
      UMap.find? "L1" (build Samples.sample_sqrt Samples.one_way_graph 2).data = some md ∧
      md.mono_indices[pos]? = some i ∧ runs Samples.one_way_graph 0 1 i = true ∧
      md.mono_lanes[pos]? = some c ∧
      c.v0.position = ⟨0, 0⟩ ∧
      c.v1.position = ⟨10, 0⟩ ∧
      md.bi_lane_arrows.length = md.mono_lanes.length ∧
      md.mono_lane_arrows = [] ∧
      (∀ (pos2 : Nat) (c2 : Capsule), md.mono_lanes[pos2]? = some c2 →
        md.bi_lane_arrows[pos2]? = some (add_lane_arrow Samples.sample_sqrt c2.v0 c2.v1)) ∧
      md.bi_lane_arrows[pos]? = some arrow ∧
      ∃ t : ℚ, 0 < t ∧
        centroid arrow =
          some ((midpoint ⟨0, 0⟩ ⟨10, 0⟩).add (((⟨10, 0⟩ : Vec2).sub ⟨0, 0⟩).smul t)) :=
  one_way_lane_capsule_and_arrow Samples.sample_sqrt Samples.one_way_graph 2 0
    (⟨0, 1⟩ : Lane 2) (by decide) (by decide)
    (by decide) (by decide!)
    (by
      intro x hx
      unfold Samples.sample_sqrt
      split_ifs <;> norm_num)

end Implementation
end Graph
end draw
end rmf_planner_viz

namespace rmf_planner_viz
namespace draw
namespace Graph
namespace Implementation

open rmf_traffic.agv (Waypoint Lane)

/-! ### Cross-floor lanes and connector texts -/

/-- How round `k` changes the connector map of the bucket of floor `n`: the cross-floor
branch emplaces one text in the bucket of the floor of the entry, nothing else changes. -/
theorem lane_state_connector_step (sqrtf : ℚ → ℚ) (g : rmf_traffic.agv.Graph) (w : ℚ) (k : Nat)
    (lane : Lane g.waypoints.length) (hl : g.lanes[k]? = some lane) (n : String) :
    (UMap.find? n (lane_state sqrtf g w (k + 1)).impl.data).map
        MapData.connector_waypoints_text =
      (UMap.find? n (lane_state sqrtf g w k).impl.data).map fun md =>
        if (g.get_waypoint lane.entry).map_name ≠ (g.get_waypoint lane.exit).map_name ∧
            n = (g.get_waypoint lane.entry).map_name then
          UMap.emplace lane.entry.val
            (connector_text (g.get_waypoint lane.exit).map_name
              (waypoint_text lane.entry.val (g.get_waypoint lane.entry))
              (waypoint_text lane.exit.val (g.get_waypoint lane.exit)))
            md.connector_waypoints_text
        else md.connector_waypoints_text := by
  have ht := textInv_lane_state sqrtf g w k
  obtain ⟨md0, h0, _⟩ := ht.text _ _ (get_waypoint_eq g lane.entry)
  rcases lane_state_cases sqrtf g w k lane hl with ⟨hx, h⟩ | ⟨hx, _, h⟩ | ⟨hx, _, h⟩
  · rw [h]
    simp only
    rw [UMap.find?_modify]
    by_cases hn : n = (g.get_waypoint lane.entry).map_name
    · subst hn
      simp [hx, h0, UMap.get_of_find? h0]
    · simp [hn]
  · rw [h]
    simp [hx]
  · rw [h]
    simp only
    rw [UMap.find?_modify]
    have hcond : ¬ ((g.get_waypoint lane.entry).map_name ≠ (g.get_waypoint lane.exit).map_name ∧
        n = (g.get_waypoint lane.entry).map_name) := fun hc => hc.1 hx
    simp only [hcond, if_false]
    by_cases hn : n = (g.get_waypoint lane.entry).map_name
    · subst hn
      rw [if_pos rfl, h0, UMap.get_of_find? h0]
      simp [file_lane_connector]
    · rw [if_neg hn]

/-- The keys of a connector map are unique, and each is the entry of a cross-floor lane
already visited that leaves from the floor of the bucket. -/
theorem connector_keys (sqrtf : ℚ → ℚ) (g : rmf_traffic.agv.Graph) (w : ℚ) (k : Nat) :
    ∀ n md, UMap.find? n (lane_state sqrtf g w k).impl.data = some md →
      (UMap.keys md.connector_waypoints_text).Nodup ∧
      ∀ j ∈ UMap.keys md.connector_waypoints_text, ∃ i l, i < k ∧ g.lanes[i]? = some l ∧
        (g.get_waypoint l.entry).map_name ≠ (g.get_waypoint l.exit).map_name ∧
        l.entry.val = j ∧ (g.get_waypoint l.entry).map_name = n := by
  induction k with
  | zero =>
    intro n md hf
    have := (waypoint_loop_inv g g.num_waypoints).bare n md hf
    rw [this]
    simp [UMap.keys, default]
  | succ k ih =>
    cases hl : g.lanes[k]? with
    | none =>
      rw [lane_state_past _ _ _ _ hl]
      intro n md hf
      refine ⟨(ih n md hf).1, ?_⟩
      intro j hj
      obtain ⟨i, l, hi, h⟩ := (ih n md hf).2 j hj
      exact ⟨i, l, Nat.lt_succ_of_lt hi, h⟩
    | some lane =>
      intro n md hf
      have hstep := lane_state_connector_step sqrtf g w k lane hl n
      rw [hf] at hstep
      cases hold : UMap.find? n (lane_state sqrtf g w k).impl.data with
      | none => simp [hold] at hstep
      | some md1 =>
        simp only [hold, Option.map_some', Option.some.injEq] at hstep
        obtain ⟨hnd, hkeys⟩ := ih n md1 hold
        have hmono : ∀ j ∈ UMap.keys md1.connector_waypoints_text, ∃ i l, i < k + 1 ∧
            g.lanes[i]? = some l ∧
            (g.get_waypoint l.entry).map_name ≠ (g.get_waypoint l.exit).map_name ∧
            l.entry.val = j ∧ (g.get_waypoint l.entry).map_name = n := by
          intro j hj
          obtain ⟨i, l, hi, h⟩ := hkeys j hj
          exact ⟨i, l, Nat.lt_succ_of_lt hi, h⟩
        rw [hstep]
        split
        · rename_i hc
          refine ⟨UMap.keys_nodup_emplace _ _ _ hnd, ?_⟩
          intro j hj
          rw [UMap.keys_emplace] at hj
          split at hj
          · exact hmono j hj
          · rcases List.mem_append.1 hj with h | h
            · exact hmono j h
            · simp at h
              exact ⟨k, lane, Nat.lt_succ_self k, hl, hc.1, h.symm, hc.2.symm⟩
        · exact ⟨hnd, hmono⟩

/-- A connector text, once filed under a key, stays there through the later rounds. -/
theorem connector_persists (sqrtf : ℚ → ℚ) (g : rmf_traffic.agv.Graph) (w : ℚ) (k : Nat)
    (n : String) (j : Nat) (t : Text)
    (h : ∃ md, UMap.find? n (lane_state sqrtf g w k).impl.data = some md ∧
      UMap.find? j md.connector_waypoints_text = some t) (d : Nat) :
    ∃ md, UMap.find? n (lane_state sqrtf g w (k + d)).impl.data = some md ∧
      UMap.find? j md.connector_waypoints_text = some t := by
  induction d with
  | zero => exact h
  | succ d ih =>
    obtain ⟨md, hf, ht⟩ := ih
    rw [← Nat.add_assoc]
    cases hl : g.lanes[k + d]? with
    | none => rw [lane_state_past _ _ _ _ hl]; exact ⟨md, hf, ht⟩
    | some lane =>
      have hstep := lane_state_connector_step sqrtf g w (k + d) lane hl n
      rw [hf] at hstep
      cases hnew : UMap.find? n (lane_state sqrtf g w (k + d + 1)).impl.data with
      | none => simp [hnew] at hstep
      | some md2 =>
        simp only [hnew, Option.map_some', Option.some.injEq] at hstep
        refine ⟨md2, rfl, ?_⟩
        rw [hstep]
        split
        · by_cases hj : j = lane.entry.val
          · subst hj
            rw [UMap.find?_emplace_self, ht]
            rfl
          · rw [UMap.find?_emplace_ne _ hj]
            exact ht
        · exact ht

end Implementation
end Graph
end draw
end rmf_planner_viz

namespace rmf_planner_viz
namespace draw
namespace Graph
namespace Implementation

open rmf_traffic.agv (Waypoint Lane)

/-- After the round of a cross-floor lane, the connector map of the floor of the entry
holds, under the index of the entry, the text it held before, or else the text of this
lane. -/
theorem connector_after_round (sqrtf : ℚ → ℚ) (g : rmf_traffic.agv.Graph) (w : ℚ) (k : Nat)
    (lane : Lane g.waypoints.length) (hl : g.lanes[k]? = some lane)
    (hx : (g.get_waypoint lane.entry).map_name ≠ (g.get_waypoint lane.exit).map_name) :
    ∃ md0 md, UMap.find? (g.get_waypoint lane.entry).map_name
          (lane_state sqrtf g w k).impl.data = some md0 ∧
      UMap.find? (g.get_waypoint lane.entry).map_name
          (lane_state sqrtf g w (k + 1)).impl.data = some md ∧
      UMap.find? lane.entry.val md.connector_waypoints_text =
        some ((UMap.find? lane.entry.val md0.connector_waypoints_text).getD
          (connector_text (g.get_waypoint lane.exit).map_name
            (waypoint_text lane.entry.val (g.get_waypoint lane.entry))
            (waypoint_text lane.exit.val (g.get_waypoint lane.exit)))) := by
  have ht := textInv_lane_state sqrtf g w k
  obtain ⟨md0, h0, _⟩ := ht.text _ _ (get_waypoint_eq g lane.entry)
  have hstep := lane_state_connector_step sqrtf g w k lane hl (g.get_waypoint lane.entry).map_name
  rw [h0] at hstep
  cases hnew : UMap.find? (g.get_waypoint lane.entry).map_name
      (lane_state sqrtf g w (k + 1)).impl.data with
  | none => simp [hnew] at hstep
  | some md =>
    simp only [hnew, Option.map_some', Option.some.injEq] at hstep
    refine ⟨md0, md, h0, rfl, ?_⟩
    rw [hstep, if_pos (by simp [hx]), UMap.find?_emplace_self]

theorem count_key_eq_one {α : Type} (j : Nat) (m : List (Nat × α))
    (hn : (UMap.keys m).Nodup) (hj : j ∈ UMap.keys m) :
    m.countP (fun e => decide (e.1 = j)) = 1 := by
  have h1 : m.countP (fun e => decide (e.1 = j)) = (UMap.keys m).countP (fun x => decide (x = j)) := by
    rw [UMap.keys, List.countP_map]
    rfl
  rw [h1]
  exact countP_eq_one_of_unique _ _ j hn hj (by simp) (fun y _ hy => by simpa using hy)

/-- C5: a lane whose end points lie on different floors changes, in its round of the
lane loop, neither the bounds nor any capsule, arrow or circle of any bucket, and no
connector map other than that of the floor of its entry; in the built graph its index is
recorded for no capsule (hence for no arrow), and the connector map of the floor of its
entry holds exactly one entry under the index of the entry. -/
theorem cross_floor_lane_connector_only (sqrtf : ℚ → ℚ) (g : rmf_traffic.agv.Graph) (w : ℚ)
    (k : Nat) (lane : Lane g.waypoints.length) (hl : g.lanes[k]? = some lane)
    (hx : (g.get_waypoint lane.entry).map_name ≠ (g.get_waypoint lane.exit).map_name) :
    (lane_state sqrtf g w (k + 1)).impl.bounds = (lane_state sqrtf g w k).impl.bounds ∧
    (∀ n md1, UMap.find? n (lane_state sqrtf g w (k + 1)).impl.data = some md1 →
      ∃ md, UMap.find? n (lane_state sqrtf g w k).impl.data = some md ∧
        same_primitives md md1 ∧
        (n ≠ (g.get_waypoint lane.entry).map_name →
          md1.connector_waypoints_text = md.connector_waypoints_text)) ∧
    (∀ e ∈ (build sqrtf g w).data, k ∉ e.2.bi_indices ∧ k ∉ e.2.mono_indices) ∧
    ∃ md, UMap.find? (g.get_waypoint lane.entry).map_name (build sqrtf g w).data = some md ∧
      md.connector_waypoints_text.countP (fun e => decide (e.1 = lane.entry.val)) = 1 := by
  have hk : k < g.num_lanes := (List.getElem?_eq_some_iff.1 hl).1
  have ht := textInv_lane_state sqrtf g w k
  obtain ⟨md0, h0, _⟩ := ht.text _ _ (get_waypoint_eq g lane.entry)
  have hcase : lane_state sqrtf g w (k + 1) =
      { lane_state sqrtf g w k with impl := { (lane_state sqrtf g w k).impl with
        data := UMap.modify
          (fun md => { md with
            connector_waypoints_text :=
              UMap.emplace lane.entry.val
                (connector_text (g.get_waypoint lane.exit).map_name
                  (waypoint_text lane.entry.val (g.get_waypoint lane.entry))
                  (waypoint_text lane.exit.val (g.get_waypoint lane.exit)))
                md.connector_waypoints_text })
          (g.get_waypoint lane.entry).map_name (lane_state sqrtf g w k).impl.data } } := by
    rcases lane_state_cases sqrtf g w k lane hl with ⟨_, h⟩ | ⟨hx2, _, _⟩ | ⟨hx2, _, _⟩
    · exact h
    · exact absurd hx2 hx
    · exact absurd hx2 hx
  refine ⟨by rw [hcase], ?_, ?_, ?_⟩
  · intro n md1 hf
    rw [hcase] at hf
    simp only at hf
    rw [UMap.find?_modify] at hf
    split at hf
    · rename_i hn
      cases hf
      refine ⟨md0, hn ▸ h0, ?_, fun hne => absurd hn hne⟩
      rw [UMap.get_of_find? h0]
      exact ⟨rfl, rfl, rfl, rfl, rfl, rfl, rfl, rfl, rfl⟩
    · exact ⟨md1, hf, ⟨rfl, rfl, rfl, rfl, rfl, rfl, rfl, rfl, rfl⟩, fun _ => rfl⟩
  · intro e he
    have hg := build_geo sqrtf g w e he
    constructor
    · intro hin
      obtain ⟨_, l2, hl2, h1, h2, _⟩ := hg.bi_rec k hin
      rw [hl] at hl2
      cases hl2
      exact hx (h1.trans h2.symm)
    · intro hin
      obtain ⟨_, l2, hl2, h1, h2, _⟩ := hg.mono_rec k hin
      rw [hl] at hl2
      cases hl2
      exact hx (h1.trans h2.symm)
  · obtain ⟨_, md, _, hf, htxt⟩ := connector_after_round sqrtf g w k lane hl hx
    obtain ⟨md2, hf2, htxt2⟩ := connector_persists sqrtf g w (k + 1)
      (g.get_waypoint lane.entry).map_name lane.entry.val _ ⟨md, hf, htxt⟩ (g.num_lanes - (k + 1))
    have hsum : k + 1 + (g.num_lanes - (k + 1)) = g.num_lanes := by omega
    rw [hsum] at hf2
    refine ⟨md2, hf2, ?_⟩
    exact count_key_eq_one _ _ (connector_keys sqrtf g w g.num_lanes _ md2 hf2).1
      (UMap.mem_keys_of_find? htxt2)

theorem cross_floor_lane_connector_only_witness :
    (lane_state Samples.sample_sqrt Samples.lift_graph 2 (1 + 1)).impl.bounds =
      (lane_state Samples.sample_sqrt Samples.lift_graph 2 1).impl.bounds ∧
    (∀ n md1,
      UMap.find? n (lane_state Samples.sample_sqrt Samples.lift_graph 2 (1 + 1)).impl.data =
        some md1 →
      ∃ md, UMap.find? n (lane_state Samples.sample_sqrt Samples.lift_graph 2 1).impl.data =
          some md ∧
        same_primitives md md1 ∧
        (n ≠ "L1" → md1.connector_waypoints_text = md.connector_waypoints_text)) ∧
    (∀ e ∈ (build Samples.sample_sqrt Samples.lift_graph 2).data,
      1 ∉ e.2.bi_indices ∧ 1 ∉ e.2.mono_indices) ∧
    ∃ md, UMap.find? "L1" (build Samples.sample_sqrt Samples.lift_graph 2).data = some md ∧
      md.connector_waypoints_text.countP (fun e => decide (e.1 = 0)) = 1 :=
  cross_floor_lane_connector_only Samples.sample_sqrt Samples.lift_graph 2 1
    (⟨0, 2⟩ : Lane 3) (by decide) (by decide)

end Implementation
end Graph
end draw
end rmf_planner_viz

namespace rmf_planner_viz
namespace draw
namespace Graph
namespace Implementation

open rmf_traffic.agv (Waypoint Lane)

/-- C6, as stated, fails: in the sample graph with lanes 0 → 1 (to floor L2) and 0 → 2
(to floor L3), lane 1 is a cross-floor lane from waypoint 0 to waypoint 2 on floor L3,
but the text under key 0 of the bucket of L1 names floor L2 and waypoint 1. -/
theorem connector_names_destination_counterexample :
    Samples.lift_graph.lanes[1]? = some (⟨0, 2⟩ : Lane 3) ∧
    (Samples.lift_graph.get_waypoint (0 : Fin 3)).map_name ≠
      (Samples.lift_graph.get_waypoint (2 : Fin 3)).map_name ∧
    connector_string (build Samples.sample_sqrt Samples.lift_graph 2) "L1" 0 =
      some "[L2::up (1)]" ∧
    connector_string (build Samples.sample_sqrt Samples.lift_graph 2) "L1" 0 ≠
      some ("[" ++ (Samples.lift_graph.get_waypoint (2 : Fin 3)).map_name ++ "::" ++
        toString 2 ++ "]") := by
  decide!

/-- C6, amended: for a cross-floor lane (j0,j1) that is the first cross-floor lane in
source order leaving j0, the connector text filed under key j0 in the bucket of the floor
of j0 is "[" + floor(j1) + "::" + label(j1) + "]", the label being "name (index)" for a
named waypoint and the decimal index otherwise. -/
theorem connector_names_first_destination (sqrtf : ℚ → ℚ) (g : rmf_traffic.agv.Graph) (w : ℚ)
    (k : Nat) (lane : Lane g.waypoints.length) (hl : g.lanes[k]? = some lane)
    (hx : (g.get_waypoint lane.entry).map_name ≠ (g.get_waypoint lane.exit).map_name)
    (hfirst : ∀ i l, i < k → g.lanes[i]? = some l →
      (g.get_waypoint l.entry).map_name ≠ (g.get_waypoint l.exit).map_name →
      l.entry ≠ lane.entry) :
    connector_string (build sqrtf g w) (g.get_waypoint lane.entry).map_name lane.entry.val =
      some ("[" ++ (g.get_waypoint lane.exit).map_name ++ "::" ++
        (match (g.get_waypoint lane.exit).name with
          | some name => name ++ " (" ++ toString lane.exit.val ++ ")"
          | none => toString lane.exit.val) ++ "]") := by
  have hk : k < g.num_lanes := (List.getElem?_eq_some_iff.1 hl).1
  obtain ⟨md0, md, hf0, hf, htxt⟩ := connector_after_round sqrtf g w k lane hl hx
  have hnone : UMap.find? lane.entry.val md0.connector_waypoints_text = none := by
    rw [UMap.find?_eq_none_iff]
    intro hin
    obtain ⟨i, l, hi, hil, hxl, he, _⟩ := (connector_keys sqrtf g w k _ md0 hf0).2 _ hin
    exact hfirst i l hi hil hxl (Fin.ext he)
  rw [hnone] at htxt
  obtain ⟨md2, hf2, htxt2⟩ := connector_persists sqrtf g w (k + 1)
    (g.get_waypoint lane.entry).map_name lane.entry.val _ ⟨md, hf, htxt⟩ (g.num_lanes - (k + 1))
  have hsum : k + 1 + (g.num_lanes - (k + 1)) = g.num_lanes := by omega
  rw [hsum] at hf2
  rw [connector_string, build_data, hf2]
  show Option.map Text.string (UMap.find? lane.entry.val md2.connector_waypoints_text) = _
  rw [htxt2]
  rfl

theorem connector_names_first_destination_witness :
    connector_string (build Samples.sample_sqrt Samples.lift_graph 2) "L1" 0 =
      some ("[" ++ "L2" ++ "::" ++ ("up" ++ " (" ++ toString 1 ++ ")") ++ "]") :=
  connector_names_first_destination Samples.sample_sqrt Samples.lift_graph 2 0
    (⟨0, 1⟩ : Lane 3) (by decide) (by decide)
    (fun i _ hi => absurd hi (Nat.not_lt_zero i))

end Implementation
end Graph
end draw
end rmf_planner_viz

namespace rmf_planner_viz
namespace draw
namespace Graph
namespace Implementation

open rmf_traffic.agv (Waypoint Lane)

/-! ### The aggregate bounds -/

theorem extend_min_of_le (b : EFloat) (p : ℚ) (h : EFloat.lt (EFloat.fin p) b = false) :
    extend_min b p = b := by
  simp [extend_min, h]

theorem extend_max_of_le (b : EFloat) (p : ℚ) (h : EFloat.lt b (EFloat.fin p) = false) :
    extend_max b p = b := by
  simp [extend_max, h]

/-- The fold of `extend_min` from `+inf` over a non-empty list is its least element. -/
theorem foldl_extend_min (l : List ℚ) (b : EFloat)
    (hb : b = EFloat.posInf ∨ ∃ q, b = EFloat.fin q) :
    (l = [] ∧ l.foldl extend_min b = b) ∨
    ∃ m, l.foldl extend_min b = EFloat.fin m ∧ (∀ x ∈ l, m ≤ x) ∧
      (m ∈ l ∨ b = EFloat.fin m) ∧ (∀ q, b = EFloat.fin q → m ≤ q) := by
  induction l generalizing b with
  | nil => exact Or.inl ⟨rfl, rfl⟩
  | cons a t ih =>
    right
    simp only [List.foldl_cons]
    rcases hb with hb | ⟨q, hb⟩
    · subst hb
      have e : extend_min EFloat.posInf a = EFloat.fin a := by simp [extend_min, EFloat.lt]
      rw [e]
      rcases ih (EFloat.fin a) (Or.inr ⟨a, rfl⟩) with ⟨ht, hf⟩ | ⟨m, hf, hle, hmem, hq⟩
      · subst ht
        exact ⟨a, hf, by simp, Or.inl (by simp), by intro q hq; cases hq⟩
      · refine ⟨m, hf, ?_, ?_, by intro q hq; cases hq⟩
        · intro x hx
          rcases List.mem_cons.1 hx with h | h
          · subst h
            exact hq x rfl
          · exact hle x h
        · rcases hmem with h | h
          · exact Or.inl (List.mem_cons_of_mem _ h)
          · cases h
            exact Or.inl (List.mem_cons_self _ _)
    · subst hb
      by_cases haq : a < q
      · have e : extend_min (EFloat.fin q) a = EFloat.fin a := by simp [extend_min, EFloat.lt, haq]
        rw [e]
        rcases ih (EFloat.fin a) (Or.inr ⟨a, rfl⟩) with ⟨ht, hf⟩ | ⟨m, hf, hle, hmem, hq⟩
        · subst ht
          refine ⟨a, hf, by simp, Or.inl (by simp), ?_⟩
          intro q2 hq2
          cases hq2
          exact le_of_lt haq
        · refine ⟨m, hf, ?_, ?_, ?_⟩
          · intro x hx
            rcases List.mem_cons.1 hx with h | h
            · subst h
              exact hq x rfl
            · exact hle x h
          · rcases hmem with h | h
            · exact Or.inl (List.mem_cons_of_mem _ h)
            · cases h
              exact Or.inl (List.mem_cons_self _ _)
          · intro q2 hq2
            cases hq2
            exact le_trans (hq a rfl) (le_of_lt haq)
      · have e : extend_min (EFloat.fin q) a = EFloat.fin q := by simp [extend_min, EFloat.lt, haq]
        rw [e]
        push_neg at haq
        rcases ih (EFloat.fin q) (Or.inr ⟨q, rfl⟩) with ⟨ht, hf⟩ | ⟨m, hf, hle, hmem, hq⟩
        · subst ht
          refine ⟨q, hf, ?_, Or.inr rfl, ?_⟩
          · intro x hx
            simp at hx
            subst hx
            exact haq
          · intro q2 hq2
            cases hq2
            exact le_refl _
        · refine ⟨m, hf, ?_, ?_, ?_⟩
          · intro x hx
            rcases List.mem_cons.1 hx with h | h
            · subst h
              exact le_trans (hq q rfl) haq
            · exact hle x h
          · rcases hmem with h | h
            · exact Or.inl (List.mem_cons_of_mem _ h)
            · exact Or.inr h
          · intro q2 hq2
            cases hq2
            exact hq q rfl

/-- The fold of `extend_max` from `-inf` over a non-empty list is its greatest element. -/
theorem foldl_extend_max (l : List ℚ) (b : EFloat)
    (hb : b = EFloat.negInf ∨ ∃ q, b = EFloat.fin q) :
    (l = [] ∧ l.foldl extend_max b = b) ∨
    ∃ m, l.foldl extend_max b = EFloat.fin m ∧ (∀ x ∈ l, x ≤ m) ∧
      (m ∈ l ∨ b = EFloat.fin m) ∧ (∀ q, b = EFloat.fin q → q ≤ m) := by
  induction l generalizing b with
  | nil => exact Or.inl ⟨rfl, rfl⟩
  | cons a t ih =>
    right
    simp only [List.foldl_cons]
    rcases hb with hb | ⟨q, hb⟩
    · subst hb
      have e : extend_max EFloat.negInf a = EFloat.fin a := by simp [extend_max, EFloat.lt]
      rw [e]
      rcases ih (EFloat.fin a) (Or.inr ⟨a, rfl⟩) with ⟨ht, hf⟩ | ⟨m, hf, hle, hmem, hq⟩
      · subst ht
        exact ⟨a, hf, by simp, Or.inl (by simp), by intro q hq; cases hq⟩
      · refine ⟨m, hf, ?_, ?_, by intro q hq; cases hq⟩
        · intro x hx
          rcases List.mem_cons.1 hx with h | h
          · subst h
            exact hq x rfl
          · exact hle x h
        · rcases hmem with h | h
          · exact Or.inl (List.mem_cons_of_mem _ h)
          · cases h
            exact Or.inl (List.mem_cons_self _ _)
    · subst hb
      by_cases haq : q < a
      · have e : extend_max (EFloat.fin q) a = EFloat.fin a := by simp [extend_max, EFloat.lt, haq]
        rw [e]
        rcases ih (EFloat.fin a) (Or.inr ⟨a, rfl⟩) with ⟨ht, hf⟩ | ⟨m, hf, hle, hmem, hq⟩
        · subst ht
          refine ⟨a, hf, by simp, Or.inl (by simp), ?_⟩
          intro q2 hq2
          cases hq2
          exact le_of_lt haq
        · refine ⟨m, hf, ?_, ?_, ?_⟩
          · intro x hx
            rcases List.mem_cons.1 hx with h | h
            · subst h
              exact hq x rfl
            · exact hle x h
          · rcases hmem with h | h
            · exact Or.inl (List.mem_cons_of_mem _ h)
            · cases h
              exact Or.inl (List.mem_cons_self _ _)
          · intro q2 hq2
            cases hq2
            exact le_trans (le_of_lt haq) (hq a rfl)
      · have e : extend_max (EFloat.fin q) a = EFloat.fin q := by simp [extend_max, EFloat.lt, haq]
        rw [e]
        push_neg at haq
        rcases ih (EFloat.fin q) (Or.inr ⟨q, rfl⟩) with ⟨ht, hf⟩ | ⟨m, hf, hle, hmem, hq⟩
        · subst ht
          refine ⟨q, hf, ?_, Or.inr rfl, ?_⟩
          · intro x hx
            simp at hx
            subst hx
            exact haq
          · intro q2 hq2
            cases hq2
            exact le_refl _
        · refine ⟨m, hf, ?_, ?_, ?_⟩
          · intro x hx
            rcases List.mem_cons.1 hx with h | h
            · subst h
              exact le_trans haq (hq q rfl)
            · exact hle x h
          · rcases hmem with h | h
            · exact Or.inl (List.mem_cons_of_mem _ h)
            · exact Or.inr h
          · intro q2 hq2
            cases hq2
            exact hq q rfl

end Implementation
end Graph
end draw
end rmf_planner_viz

namespace rmf_planner_viz
namespace draw
namespace Graph
namespace Implementation

open rmf_traffic.agv (Waypoint Lane)

theorem foldl_extend_bounds (ps : List Vec2) (b : Fit.Bounds) :
    ps.foldl extend_bounds b =
      { min := ⟨(ps.map Vec2.x).foldl extend_min b.min.x, (ps.map Vec2.y).foldl extend_min b.min.y⟩,
        max := ⟨(ps.map Vec2.x).foldl extend_max b.max.x,
          (ps.map Vec2.y).foldl extend_max b.max.y⟩ } := by
  induction ps generalizing b with
  | nil => rfl
  | cons p t ih =>
    simp only [List.foldl_cons, List.map_cons]
    rw [ih]
    rfl

/-- Extending the box of a list of points by one of these points changes nothing. -/
theorem extend_bounds_of_mem (ps : List Vec2) (p : Vec2) (hp : p ∈ ps) :
    extend_bounds (ps.foldl extend_bounds Fit.Bounds.empty) p =
      ps.foldl extend_bounds Fit.Bounds.empty := by
  rw [foldl_extend_bounds]
  have hx : p.x ∈ ps.map Vec2.x := List.mem_map_of_mem _ hp
  have hy : p.y ∈ ps.map Vec2.y := List.mem_map_of_mem _ hp
  simp only [extend_bounds, Fit.Bounds.empty]
  have h1 : extend_min ((ps.map Vec2.x).foldl extend_min EFloat.posInf) p.x =
      (ps.map Vec2.x).foldl extend_min EFloat.posInf := by
    rcases foldl_extend_min (ps.map Vec2.x) EFloat.posInf (Or.inl rfl) with ⟨hnil, _⟩ | ⟨m, hf, hle, _⟩
    · rw [hnil] at hx
      simp at hx
    · rw [hf]
      apply extend_min_of_le
      simp [EFloat.lt, hle p.x hx]
  have h2 : extend_min ((ps.map Vec2.y).foldl extend_min EFloat.posInf) p.y =
      (ps.map Vec2.y).foldl extend_min EFloat.posInf := by
    rcases foldl_extend_min (ps.map Vec2.y) EFloat.posInf (Or.inl rfl) with ⟨hnil, _⟩ | ⟨m, hf, hle, _⟩
    · rw [hnil] at hy
      simp at hy
    · rw [hf]
      apply extend_min_of_le
      simp [EFloat.lt, hle p.y hy]
  have h3 : extend_max ((ps.map Vec2.x).foldl extend_max EFloat.negInf) p.x =
      (ps.map Vec2.x).foldl extend_max EFloat.negInf := by
    rcases foldl_extend_max (ps.map Vec2.x) EFloat.negInf (Or.inl rfl) with ⟨hnil, _⟩ | ⟨m, hf, hle, _⟩
    · rw [hnil] at hx
      simp at hx
    · rw [hf]
      apply extend_max_of_le
      simp [EFloat.lt, hle p.x hx]
  have h4 : extend_max ((ps.map Vec2.y).foldl extend_max EFloat.negInf) p.y =
      (ps.map Vec2.y).foldl extend_max EFloat.negInf := by
    rcases foldl_extend_max (ps.map Vec2.y) EFloat.negInf (Or.inl rfl) with ⟨hnil, _⟩ | ⟨m, hf, hle, _⟩
    · rw [hnil] at hy
      simp at hy
    · rw [hf]
      apply extend_max_of_le
      simp [EFloat.lt, hle p.y hy]
  rw [h1, h2, h3, h4]

theorem same_floor_endpoints_succ (g : rmf_traffic.agv.Graph) (k : Nat)
    (lane : Lane g.waypoints.length) (hl : g.lanes[k]? = some lane) :
    same_floor_endpoints g (k + 1) =
      same_floor_endpoints g k ++
        (if (g.get_waypoint lane.entry).map_name = (g.get_waypoint lane.exit).map_name then
          [(g.get_waypoint lane.entry).location, (g.get_waypoint lane.exit).location]
        else []) := by
  simp only [same_floor_endpoints, List.take_succ, hl, Option.toList, List.filter_append,
    List.flatMap_append]
  by_cases hx : (g.get_waypoint lane.entry).map_name = (g.get_waypoint lane.exit).map_name
  · simp [List.filter, same_floor, hx]
  · simp [List.filter, same_floor, hx]

theorem mem_same_floor_endpoints (g : rmf_traffic.agv.Graph) (k i : Nat)
    (l : Lane g.waypoints.length) (hi : i < k) (hl : g.lanes[i]? = some l)
    (hx : (g.get_waypoint l.entry).map_name = (g.get_waypoint l.exit).map_name) :
    (g.get_waypoint l.entry).location ∈ same_floor_endpoints g k ∧
    (g.get_waypoint l.exit).location ∈ same_floor_endpoints g k := by
  have hmem : l ∈ (g.lanes.take k).filter (same_floor g) := by
    rw [List.mem_filter]
    refine ⟨?_, by simp [same_floor, hx]⟩
    rw [List.mem_iff_getElem?]
    refine ⟨i, ?_⟩
    rw [List.getElem?_take_of_lt hi]
    exact hl
  simp only [same_floor_endpoints, List.mem_flatMap]
  exact ⟨⟨l, hmem, by simp⟩, ⟨l, hmem, by simp⟩⟩

/-- Before the padding, the box is the fold of `extend_bounds` over the end positions of
the same-floor lanes visited so far. -/
theorem lane_state_bounds (sqrtf : ℚ → ℚ) (g : rmf_traffic.agv.Graph) (w : ℚ) (k : Nat) :
    (lane_state sqrtf g w k).impl.bounds =
      (same_floor_endpoints g k).foldl extend_bounds Fit.Bounds.empty := by
  induction k with
  | zero => rfl
  | succ k ih =>
    cases hl : g.lanes[k]? with
    | none =>
      rw [lane_state_past _ _ _ _ hl, ih]
      have hlen : g.lanes.length ≤ k := by
        by_contra hlt
        push_neg at hlt
        rw [List.getElem?_eq_getElem hlt] at hl
        exact Option.noConfusion hl
      simp only [same_floor_endpoints]
      rw [List.take_of_length_le hlen, List.take_of_length_le (Nat.le_succ_of_le hlen)]
    | some lane =>
      rw [same_floor_endpoints_succ g k lane hl]
      rcases lane_state_cases sqrtf g w k lane hl with ⟨hx, h⟩ | ⟨hx, hu, h⟩ | ⟨hx, _, h⟩
      · rw [h, if_neg hx, List.append_nil]
        exact ih
      · rw [h, if_pos hx, List.foldl_append, ← ih]
        simp only [List.foldl_cons, List.foldl_nil]
        obtain ⟨i, l, hil, hrec⟩ := recorded_of_used sqrtf g w k _ _ hu
        have hilt : i < k := by
          rcases hrec with ⟨h1 | h1, _⟩ | ⟨h1, _⟩
          · exact recorded_bi_lt _ _ _ _ _ h1
          · exact recorded_mono_lt _ _ _ _ _ h1
          · exact recorded_bi_lt _ _ _ _ _ h1
        have hxl : (g.get_waypoint l.entry).map_name = (g.get_waypoint l.exit).map_name := by
          have hgeo := geo_lane_state sqrtf g w k
          rcases hrec with ⟨⟨n, md, hf, hi⟩ | ⟨n, md, hf, hi⟩, _⟩ | ⟨⟨n, md, hf, hi⟩, _⟩
          · obtain ⟨_, l2, hl2, a, b, _⟩ := (hgeo n md hf).bi_rec i hi
            rw [hil] at hl2; cases hl2; exact a.trans b.symm
          · obtain ⟨_, l2, hl2, a, b, _⟩ := (hgeo n md hf).mono_rec i hi
            rw [hil] at hl2; cases hl2; exact a.trans b.symm
          · obtain ⟨_, l2, hl2, a, b, _⟩ := (hgeo n md hf).bi_rec i hi
            rw [hil] at hl2; cases hl2; exact a.trans b.symm
        obtain ⟨m1, m2⟩ := mem_same_floor_endpoints g k i l hilt hil hxl
        have hends : (g.get_waypoint lane.entry).location ∈ same_floor_endpoints g k ∧
            (g.get_waypoint lane.exit).location ∈ same_floor_endpoints g k := by
          rcases hrec with ⟨_, e1, e2⟩ | ⟨_, e1, e2⟩
          · rw [← Fin.ext e1, ← Fin.ext e2]
            exact ⟨m1, m2⟩
          · rw [← Fin.ext e1, ← Fin.ext e2]
            exact ⟨m2, m1⟩
        rw [ih, extend_bounds_of_mem _ _ hends.1, extend_bounds_of_mem _ _ hends.2]
      · rw [h, if_pos hx, List.foldl_append, ← ih]
        rfl

end Implementation
end Graph
end draw
end rmf_planner_viz

namespace rmf_planner_viz
namespace draw
namespace Graph

open rmf_traffic.agv (Waypoint Lane)
open Implementation

theorem Implementation.same_floor_endpoints_all (g : rmf_traffic.agv.Graph) :
    same_floor_endpoints g g.num_lanes = endpoint_positions g := by
  simp [same_floor_endpoints, endpoint_positions, rmf_traffic.agv.Graph.num_lanes]

theorem Implementation.foldl_extend_min_nonempty (l : List ℚ) (h : l ≠ []) :
    ∃ m, l.foldl extend_min EFloat.posInf = EFloat.fin m ∧ is_min m l := by
  rcases foldl_extend_min l EFloat.posInf (Or.inl rfl) with ⟨hnil, _⟩ | ⟨m, hf, hle, hmem, _⟩
  · exact absurd hnil h
  · refine ⟨m, hf, ?_, hle⟩
    rcases hmem with hm | hm
    · exact hm
    · cases hm

theorem Implementation.foldl_extend_max_nonempty (l : List ℚ) (h : l ≠ []) :
    ∃ m, l.foldl extend_max EFloat.negInf = EFloat.fin m ∧ is_max m l := by
  rcases foldl_extend_max l EFloat.negInf (Or.inl rfl) with ⟨hnil, _⟩ | ⟨m, hf, hle, hmem, _⟩
  · exact absurd hnil h
  · refine ⟨m, hf, ?_, hle⟩
    rcases hmem with hm | hm
    · exact hm
    · cases hm

/-- C10: when the graph has a same-floor lane, `bounds().min` is, on each axis, the least
coordinate of the end positions of the same-floor lanes lowered by half the lane width,
and `bounds().max` the greatest raised by half the lane width (the box starts empty, at
min = +inf and max = -inf); for the single lane from (0,0) to (10,0) with lane width 2
the bounds are min = (-1,-1) and max = (11,1). -/
theorem bounds_are_padded_extremes (sqrtf : ℚ → ℚ) (g : rmf_traffic.agv.Graph) (w : ℚ)
    (h : ∃ l ∈ g.lanes, (g.get_waypoint l.entry).map_name = (g.get_waypoint l.exit).map_name) :
    (∃ mx my Mx My : ℚ,
      is_min mx ((endpoint_positions g).map Vec2.x) ∧
      is_min my ((endpoint_positions g).map Vec2.y) ∧
      is_max Mx ((endpoint_positions g).map Vec2.x) ∧
      is_max My ((endpoint_positions g).map Vec2.y) ∧
      bounds (build sqrtf g w) =
        { min := ⟨EFloat.fin (mx - w / 2), EFloat.fin (my - w / 2)⟩,
          max := ⟨EFloat.fin (Mx + w / 2), EFloat.fin (My + w / 2)⟩ }) ∧
    bounds (build Samples.sample_sqrt Samples.one_way_graph 2) =
      { min := ⟨EFloat.fin (-1), EFloat.fin (-1)⟩, max := ⟨EFloat.fin 11, EFloat.fin 1⟩ } := by
  refine ⟨?_, by decide!⟩
  have hne : endpoint_positions g ≠ [] := by
    obtain ⟨l, hl, hx⟩ := h
    intro hnil
    have : (g.get_waypoint l.entry).location ∈ endpoint_positions g := by
      simp only [endpoint_positions, List.mem_flatMap, List.mem_filter]
      exact ⟨l, ⟨hl, by simp [same_floor, hx]⟩, by simp⟩
    rw [hnil] at this
    simp at this
  have hnx : (endpoint_positions g).map Vec2.x ≠ [] := by simpa using hne
  have hny : (endpoint_positions g).map Vec2.y ≠ [] := by simpa using hne
  obtain ⟨mx, hmx, h1⟩ := foldl_extend_min_nonempty _ hnx
  obtain ⟨my, hmy, h2⟩ := foldl_extend_min_nonempty _ hny
  obtain ⟨Mx, hMx, h3⟩ := foldl_extend_max_nonempty _ hnx
  obtain ⟨My, hMy, h4⟩ := foldl_extend_max_nonempty _ hny
  refine ⟨mx, my, Mx, My, h1, h2, h3, h4, ?_⟩
  have hb : (build sqrtf g w).bounds =
      pad_bounds (lane_state sqrtf g w g.num_lanes).impl.bounds (w / 2.0) := rfl
  rw [bounds, hb, lane_state_bounds, same_floor_endpoints_all, foldl_extend_bounds]
  simp only [pad_bounds, Fit.Bounds.empty, hmx, hmy, hMx, hMy, EFloat.sub, EFloat.add]
  norm_num

theorem bounds_are_padded_extremes_witness :
    (∃ mx my Mx My : ℚ,
      is_min mx ((endpoint_positions Samples.one_way_graph).map Vec2.x) ∧
      is_min my ((endpoint_positions Samples.one_way_graph).map Vec2.y) ∧
      is_max Mx ((endpoint_positions Samples.one_way_graph).map Vec2.x) ∧
      is_max My ((endpoint_positions Samples.one_way_graph).map Vec2.y) ∧
      bounds (build Samples.sample_sqrt Samples.one_way_graph 2) =
        { min := ⟨EFloat.fin (mx - 2 / 2), EFloat.fin (my - 2 / 2)⟩,
          max := ⟨EFloat.fin (Mx + 2 / 2), EFloat.fin (My + 2 / 2)⟩ }) ∧
    bounds (build Samples.sample_sqrt Samples.one_way_graph 2) =
      { min := ⟨EFloat.fin (-1), EFloat.fin (-1)⟩, max := ⟨EFloat.fin 11, EFloat.fin 1⟩ } :=
  bounds_are_padded_extremes Samples.sample_sqrt Samples.one_way_graph 2
    ⟨(⟨0, 1⟩ : Lane 2), by decide, by decide⟩

end Graph
end draw
end rmf_planner_viz

namespace rmf_planner_viz
namespace draw
namespace Graph

open rmf_traffic.agv (Waypoint Lane)
open Implementation

/-! ### Floor switching -/

/-- C9: `choose_map(name)` returns true and makes `current_map()` equal to `name` when
`name` is a key of the floor buckets; otherwise it returns false and leaves
`current_map()` empty, whatever floor was active before; in both cases the buckets are
untouched, so a later `choose_map` with an existing name makes `current_map()` non-empty
again. -/
theorem choose_map_contract (s : Implementation) (name : String) :
    (name ∈ UMap.keys s.data →
      (choose_map s name).2 = true ∧ current_map (choose_map s name).1 = some name) ∧
    (name ∉ UMap.keys s.data →
      (choose_map s name).2 = false ∧ current_map (choose_map s name).1 = none) ∧
    (choose_map s name).1.data = s.data ∧
    (∀ later, later ∈ UMap.keys s.data →
      (choose_map (choose_map s name).1 later).2 = true ∧
      current_map (choose_map (choose_map s name).1 later).1 = some later) := by
  have key : ∀ (t : Implementation) (nm : String),
      (nm ∈ UMap.keys t.data →
        (choose_map t nm).2 = true ∧ current_map (choose_map t nm).1 = some nm) ∧
      (nm ∉ UMap.keys t.data →
        (choose_map t nm).2 = false ∧ current_map (choose_map t nm).1 = none) ∧
      (choose_map t nm).1.data = t.data := by
    intro t nm
    cases hf : UMap.find? nm t.data with
    | none =>
      have hnot : nm ∉ UMap.keys t.data := (UMap.find?_eq_none_iff nm t.data).1 hf
      simp [choose_map, hf, hnot, current_map]
    | some md =>
      have hin : nm ∈ UMap.keys t.data := UMap.mem_keys_of_find? hf
      simp [choose_map, hf, hin, current_map]
  refine ⟨(key s name).1, (key s name).2.1, (key s name).2.2, ?_⟩
  intro later hl
  rw [← (key s name).2.2] at hl
  exact (key _ later).1 hl

end Graph
end draw
end rmf_planner_viz

namespace rmf_planner_viz
namespace draw
namespace Graph

open rmf_traffic.agv (Waypoint Lane)
open Implementation

/-! ### Picking -/

theorem pick_waypoints_sound (md : MapData) (p : Vec2) (r : ℚ) (is : List Nat) (q : Pick)
    (h : pick_waypoints md p r is = .ok (some q)) :
    ∃ i ∈ is, ∃ c, md.waypoint_p[i]? = some c ∧ (c.sub p).norm_le r = true ∧
      md.waypoint_indices[i]? = some q.index ∧ q.type = ElementType.Waypoint := by
  induction is with
  | nil => simp [pick_waypoints] at h
  | cons i rest ih =>
    simp only [pick_waypoints] at h
    cases hc : md.waypoint_p[i]? with
    | none => simp [hc] at h
    | some c =>
      simp only [hc] at h
      by_cases hn : (c.sub p).norm_le r = true
      · simp only [hn, if_true] at h
        cases hj : md.waypoint_indices[i]? with
        | none => simp [hj] at h
        | some j =>
          simp only [hj, Except.ok.injEq, Option.some.injEq] at h
          subst h
          exact ⟨i, List.mem_cons_self _ _, c, hc, hn, hj, rfl⟩
      · simp only [hn, if_false] at h
        obtain ⟨i2, hi2, rest2⟩ := ih h
        exact ⟨i2, List.mem_cons_of_mem _ hi2, rest2⟩

theorem pick_lanes_sound (cp : Capsule → ℚ → ℚ → Bool) (lanes : List Capsule)
    (indices : List Nat) (p : Vec2) (is : List Nat) (q : Pick)
    (h : pick_lanes cp lanes indices p is = .ok (some q)) :
    ∃ i ∈ is, ∃ c, lanes[i]? = some c ∧ cp c p.x p.y = true ∧
      indices[i]? = some q.index ∧ q.type = ElementType.Lane := by
  induction is with
  | nil => simp [pick_lanes] at h
  | cons i rest ih =>
    simp only [pick_lanes] at h
    cases hc : lanes[i]? with
    | none => simp [hc] at h
    | some c =>
      simp only [hc] at h
      by_cases hn : cp c p.x p.y = true
      · simp only [hn, if_true] at h
        cases hj : indices[i]? with
        | none => simp [hj] at h
        | some j =>
          simp only [hj, Except.ok.injEq, Option.some.injEq] at h
          subst h
          exact ⟨i, List.mem_cons_self _ _, c, hc, hn, hj, rfl⟩
      · simp only [hn, if_false] at h
        obtain ⟨i2, hi2, rest2⟩ := ih h
        exact ⟨i2, List.mem_cons_of_mem _ hi2, rest2⟩

/-- The waypoint loop over the positions `s, s+1, ...` returns the first circle within
the radius, when one of the positions holds such a circle. -/
theorem pick_waypoints_range' (md : MapData) (p : Vec2) (r : ℚ) (len s : Nat)
    (hp : s + len ≤ md.waypoint_p.length) (hi : s + len ≤ md.waypoint_indices.length)
    (pos : Nat) (hs : s ≤ pos) (hpos : pos < s + len) (c : Vec2)
    (hc : md.waypoint_p[pos]? = some c) (hn : (c.sub p).norm_le r = true) :
    ∃ pos0 c0 j0, s ≤ pos0 ∧ pos0 ≤ pos ∧ md.waypoint_p[pos0]? = some c0 ∧
      (c0.sub p).norm_le r = true ∧ md.waypoint_indices[pos0]? = some j0 ∧
      (∀ i c1, s ≤ i → i < pos0 → md.waypoint_p[i]? = some c1 → (c1.sub p).norm_le r = false) ∧
      pick_waypoints md p r (List.range' s len) = .ok (some ⟨ElementType.Waypoint, j0⟩) := by
  induction len generalizing s with
  | zero => omega
  | succ len ih =>
    have hs1 : s < md.waypoint_p.length := by omega
    have hs2 : s < md.waypoint_indices.length := by omega
    simp only [List.range'_succ, pick_waypoints, List.getElem?_eq_getElem hs1,
      List.getElem?_eq_getElem hs2]
    by_cases hhit : ((md.waypoint_p[s]).sub p).norm_le r = true
    · refine ⟨s, md.waypoint_p[s], md.waypoint_indices[s], le_refl _, hs,
        List.getElem?_eq_getElem hs1, hhit, List.getElem?_eq_getElem hs2, ?_, ?_⟩
      · intro i c1 h1 h2
        omega
      · simp [hhit]
    · have hne : pos ≠ s := by
        rintro rfl
        rw [List.getElem?_eq_getElem hs1] at hc
        cases hc
        exact hhit hn
      obtain ⟨pos0, c0, j0, h1, h2, h3, h4, h5, h6, h7⟩ :=
        ih (s + 1) (by omega) (by omega) (by omega) (by omega)
      refine ⟨pos0, c0, j0, by omega, h2, h3, h4, h5, ?_, ?_⟩
      · intro i c1 hi1 hi2 hi3
        by_cases his : i = s
        · subst his
          rw [List.getElem?_eq_getElem hs1] at hi3
          cases hi3
          simpa using hhit
        · exact h6 i c1 (by omega) hi2 hi3
      · simp only [hhit, if_false]
        exact h7

/-- No waypoint circle within the radius: the waypoint loop finds nothing. -/
theorem pick_waypoints_none (md : MapData) (p : Vec2) (r : ℚ) (is : List Nat)
    (hp : ∀ i ∈ is, i < md.waypoint_p.length)
    (hno : ∀ i ∈ is, ∀ c, md.waypoint_p[i]? = some c → (c.sub p).norm_le r = false) :
    pick_waypoints md p r is = .ok none := by
  induction is with
  | nil => rfl
  | cons i rest ih =>
    have hi := hp i (List.mem_cons_self _ _)
    simp only [pick_waypoints, List.getElem?_eq_getElem hi]
    rw [hno i (List.mem_cons_self _ _) _ (List.getElem?_eq_getElem hi)]
    simp only [Bool.false_eq_true, if_false]
    exact ih (fun j hj => hp j (List.mem_cons_of_mem _ hj))
      (fun j hj => hno j (List.mem_cons_of_mem _ hj))

/-- The waypoints that have a circle are end points of same-floor lanes already visited. -/
theorem Implementation.used_vertices_endpoint (sqrtf : ℚ → ℚ) (g : rmf_traffic.agv.Graph)
    (w : ℚ) (k : Nat) :
    ∀ j ∈ (lane_state sqrtf g w k).used_vertices, ∃ i l, i < k ∧ g.lanes[i]? = some l ∧
      (g.get_waypoint l.entry).map_name = (g.get_waypoint l.exit).map_name ∧
      (l.entry.val = j ∨ l.exit.val = j) := by
  induction k with
  | zero =>
    intro j hj
    simp [lane_state_zero, lane_loop_init] at hj
  | succ k ih =>
    have hmono : ∀ j ∈ (lane_state sqrtf g w k).used_vertices, ∃ i l, i < k + 1 ∧
        g.lanes[i]? = some l ∧
        (g.get_waypoint l.entry).map_name = (g.get_waypoint l.exit).map_name ∧
        (l.entry.val = j ∨ l.exit.val = j) := by
      intro j hj
      obtain ⟨i, l, hi, h⟩ := ih j hj
      exact ⟨i, l, Nat.lt_succ_of_lt hi, h⟩
    cases hl : g.lanes[k]? with
    | none => rw [lane_state_past _ _ _ _ hl]; exact hmono
    | some lane =>
      rcases lane_state_cases sqrtf g w k lane hl with ⟨_, h⟩ | ⟨_, _, h⟩ | ⟨hx, _, h⟩
      · rw [h]; exact hmono
      · rw [h]; exact hmono
      · rw [h]
        intro j hj
        simp only [USet.mem_insert] at hj
        rcases hj with hj | hj | hj
        · exact ⟨k, lane, Nat.lt_succ_self k, hl, hx, Or.inr hj.symm⟩
        · exact ⟨k, lane, Nat.lt_succ_self k, hl, hx, Or.inl hj.symm⟩
        · exact hmono j hj

end Graph
end draw
end rmf_planner_viz

namespace rmf_planner_viz
namespace draw
namespace Graph

open rmf_traffic.agv (Waypoint Lane)
open Implementation

/-- What a position of the waypoint sequences of a built bucket holds: the index of a
waypoint of the floor of the bucket, its position, its circle, and the position is an end
position of a same-floor lane. -/
theorem Implementation.build_circle_at (sqrtf : ℚ → ℚ) (g : rmf_traffic.agv.Graph) (w : ℚ)
    (name : String) (md : MapData) (hf : UMap.find? name (build sqrtf g w).data = some md)
    (pos : Nat) (c : Vec2) (hc : md.waypoint_p[pos]? = some c) :
    ∃ j wp circ, md.waypoint_indices[pos]? = some j ∧ g.waypoints[j]? = some wp ∧
      wp.location = c ∧ wp.map_name = name ∧ md.waypoints[pos]? = some circ ∧
      circ.position = c ∧ circ.radius = 0.30 * w ∧ circ.fillColor = WaypointColor ∧
      c ∈ endpoint_positions g := by
  have hg := geo_lane_state sqrtf g w g.num_lanes name md hf
  have h1 : (md.waypoint_p.map some)[pos]? = some (some c) := by
    rw [List.getElem?_map, hc]
    rfl
  rw [hg.waypoint_p_eq, List.getElem?_map] at h1
  cases hj : md.waypoint_indices[pos]? with
  | none => simp [hj] at h1
  | some j =>
    simp only [hj, Option.map_some', Option.some.injEq, location_of] at h1
    cases hw : g.waypoints[j]? with
    | none => simp [hw] at h1
    | some wp =>
      simp only [hw, Option.map_some', Option.some.injEq] at h1
      have hjmem : j ∈ md.waypoint_indices := List.getElem?_mem hj
      obtain ⟨huv, wp2, hw2, hname⟩ := hg.wp_rec j hjmem
      rw [hw] at hw2
      cases hw2
      have h2 : (md.waypoints.map some)[pos]? = some (circle_at g w j) := by
        rw [hg.waypoints_eq, List.getElem?_map, hj]
        rfl
      rw [List.getElem?_map] at h2
      cases hcirc : md.waypoints[pos]? with
      | none => simp [hcirc] at h2
      | some circ =>
        simp only [hcirc, Option.map_some', Option.some.injEq, circle_at, hw] at h2
        refine ⟨j, wp, circ, rfl, hw, h1, hname, rfl, ?_, ?_, ?_, ?_⟩
        · rw [h2]; exact h1
        · rw [h2]
        · rw [h2]
        · obtain ⟨i, l, hi, hil, hx, hend⟩ := used_vertices_endpoint sqrtf g w g.num_lanes j huv
          obtain ⟨m1, m2⟩ := mem_same_floor_endpoints g g.num_lanes i l hi hil hx
          rw [same_floor_endpoints_all] at m1 m2
          rcases hend with he | he
          · have : g.get_waypoint l.entry = wp := by
              have := get_waypoint_eq g l.entry
              rw [he, hw] at this
              exact (Option.some.inj this).symm
            rw [← h1, ← this]
            exact m1
          · have : g.get_waypoint l.exit = wp := by
              have := get_waypoint_eq g l.exit
              rw [he, hw] at this
              exact (Option.some.inj this).symm
            rw [← h1, ← this]
            exact m2

/-- C7: on a built graph with any floor active, a Lane pick returned by `pick` carries an
index smaller than the number of lanes of the source graph, and a Waypoint pick carries
the source index of a waypoint of the active floor that has a circle there whose centre,
the position of that waypoint, is at Euclidean distance at most the waypoint radius
0.30 x lane width from the point (the radius is not negative and the squared distance is
at most the squared radius). -/
theorem pick_result_is_valid (capsule_pick : Capsule → ℚ → ℚ → Bool) (sqrtf : ℚ → ℚ)
    (g : rmf_traffic.agv.Graph) (w : ℚ) (cm : Option String) (x y : ℚ) (p : Pick)
    (h : pick capsule_pick { build sqrtf g w with current_map := cm } x y = .ok (some p)) :
    (p.type = ElementType.Lane → p.index < g.num_lanes) ∧
    (p.type = ElementType.Waypoint →
      ∃ (name : String) (md : MapData) (pos : Nat) (circ : CircleShape) (wp : Waypoint),
        cm = some name ∧ UMap.find? name (build sqrtf g w).data = some md ∧
        md.waypoint_indices[pos]? = some p.index ∧ md.waypoints[pos]? = some circ ∧
        md.waypoint_p[pos]? = some circ.position ∧
        g.waypoints[p.index]? = some wp ∧ wp.location = circ.position ∧ wp.map_name = name ∧
        0 ≤ 0.30 * w ∧
        (circ.position.x - x) * (circ.position.x - x) +
          (circ.position.y - y) * (circ.position.y - y) ≤ (0.30 * w) * (0.30 * w)) := by
  cases cm with
  | none => simp [pick] at h
  | some name =>
    simp only [pick] at h
    split at h
    · cases h
    · split at h
      · cases h
      · split at h
        · cases h
        · split at h
          · cases h
          · cases hf : UMap.find? name (build sqrtf g w).data with
            | none =>
              simp only [hf] at h
              cases h
            | some md =>
              simp only [hf] at h
              split at h
              · cases h
              · split at h
                · cases h
                · have hg := geo_lane_state sqrtf g w g.num_lanes name md hf
                  cases hw : pick_waypoints md ⟨x, y⟩
                      (waypoint_radius { build sqrtf g w with current_map := some name })
                      (List.range md.waypoints.length) with
                  | error e =>
                    simp only [hw] at h
                    cases h
                  | ok r =>
                    cases r with
                    | some q =>
                      simp only [hw, Except.ok.injEq, Option.some.injEq] at h
                      subst h
                      obtain ⟨i, _, c, hc, hn, hj, hty⟩ := pick_waypoints_sound _ _ _ _ _ hw
                      refine ⟨fun hl => ?_, fun _ => ?_⟩
                      · rw [hty] at hl
                        cases hl
                      · obtain ⟨j, wp, circ, hj2, hwp, hloc, hname, hcirc, hcp, _, _, _⟩ :=
                          build_circle_at sqrtf g w name md hf i c hc
                        rw [hj] at hj2
                        cases hj2
                        simp only [Vec2.norm_le, Vec2.sub, Bool.and_eq_true, decide_eq_true_eq,
                          waypoint_radius, build_lane_width] at hn
                        refine ⟨name, md, i, circ, wp, rfl, hf, hj, hcirc, by rw [hcp]; exact hc,
                          hwp, by rw [hcp]; exact hloc, hname, hn.1, ?_⟩
                        rw [hcp]
                        exact hn.2
                    | none =>
                      simp only [hw] at h
                      cases hb : pick_lanes capsule_pick md.bi_lanes md.bi_indices ⟨x, y⟩
                          (List.range md.bi_lanes.length) with
                      | error e =>
                        simp only [hb] at h
                        cases h
                      | ok r =>
                        cases r with
                        | some q =>
                          simp only [hb, Except.ok.injEq, Option.some.injEq] at h
                          subst h
                          obtain ⟨i, _, c, _, _, hj, hty⟩ := pick_lanes_sound _ _ _ _ _ _ hb
                          refine ⟨fun _ => ?_, fun hl => ?_⟩
                          · have := (hg.bi_rec _ (List.getElem?_mem hj)).1
                            exact this
                          · rw [hty] at hl
                            cases hl
                        | none =>
                          simp only [hb] at h
                          obtain ⟨i, _, c, _, _, hj, hty⟩ := pick_lanes_sound _ _ _ _ _ _ h
                          refine ⟨fun _ => ?_, fun hl => ?_⟩
                          · have := (hg.mono_rec _ (List.getElem?_mem hj)).1
                            exact this
                          · rw [hty] at hl
                            cases hl

end Graph
end draw
end rmf_planner_viz

namespace rmf_planner_viz
namespace draw
namespace Graph

open rmf_traffic.agv (Waypoint Lane)
open Implementation

theorem sq_sum_le_bounds (a b r : ℚ) (hr : 0 ≤ r) (h : a * a + b * b ≤ r * r) :
    -r ≤ a ∧ a ≤ r := by
  constructor
  · by_contra hc
    push_neg at hc
    nlinarith [mul_self_nonneg b, mul_self_nonneg (a + r)]
  · by_contra hc
    push_neg at hc
    nlinarith [mul_self_nonneg b, mul_self_nonneg (a - r)]

/-- A point within the waypoint radius of an end position of a same-floor lane passes the
four bounds tests of `pick`. -/
theorem Implementation.pick_bounds_pass (sqrtf : ℚ → ℚ) (g : rmf_traffic.agv.Graph) (w : ℚ)
    (c : Vec2) (hc : c ∈ endpoint_positions g) (x y : ℚ)
    (hn : (c.sub ⟨x, y⟩).norm_le (0.30 * w) = true) :
    EFloat.lt (EFloat.fin x) ((build sqrtf g w).bounds.min.x.sub (0.30 * w)) = false ∧
    EFloat.lt (EFloat.fin y) ((build sqrtf g w).bounds.min.y.sub (0.30 * w)) = false ∧
    EFloat.lt ((build sqrtf g w).bounds.max.x.add (0.30 * w)) (EFloat.fin x) = false ∧
    EFloat.lt ((build sqrtf g w).bounds.max.y.add (0.30 * w)) (EFloat.fin y) = false := by
  simp only [Vec2.norm_le, Vec2.sub, Bool.and_eq_true, decide_eq_true_eq] at hn
  obtain ⟨hr, hsq⟩ := hn
  have hw : 0 ≤ w := by linarith
  obtain ⟨hx1, hx2⟩ := sq_sum_le_bounds _ _ _ hr hsq
  have hsq2 : (c.y - y) * (c.y - y) + (c.x - x) * (c.x - x) ≤ 0.30 * w * (0.30 * w) := by
    linarith
  obtain ⟨hy1, hy2⟩ := sq_sum_le_bounds _ _ _ hr hsq2
  have hne : endpoint_positions g ≠ [] := fun hnil => by rw [hnil] at hc; simp at hc
  have hnx : (endpoint_positions g).map Vec2.x ≠ [] := by simpa using hne
  have hny : (endpoint_positions g).map Vec2.y ≠ [] := by simpa using hne
  obtain ⟨mx, hmx, _, h1⟩ := foldl_extend_min_nonempty _ hnx
  obtain ⟨my, hmy, _, h2⟩ := foldl_extend_min_nonempty _ hny
  obtain ⟨Mx, hMx, _, h3⟩ := foldl_extend_max_nonempty _ hnx
  obtain ⟨My, hMy, _, h4⟩ := foldl_extend_max_nonempty _ hny
  have hcx : c.x ∈ (endpoint_positions g).map Vec2.x := List.mem_map_of_mem _ hc
  have hcy : c.y ∈ (endpoint_positions g).map Vec2.y := List.mem_map_of_mem _ hc
  have e1 := h1 _ hcx
  have e2 := h2 _ hcy
  have e3 := h3 _ hcx
  have e4 := h4 _ hcy
  have hb : (build sqrtf g w).bounds =
      pad_bounds (lane_state sqrtf g w g.num_lanes).impl.bounds (w / 2.0) := rfl
  rw [hb, lane_state_bounds, same_floor_endpoints_all, foldl_extend_bounds]
  simp only [pad_bounds, Fit.Bounds.empty, hmx, hmy, hMx, hMy, EFloat.sub, EFloat.add, EFloat.lt,
    decide_eq_false_iff_not, not_lt]
  have h20 : (2.0 : ℚ) = 2 := by norm_num
  rw [h20]
  refine ⟨?_, ?_, ?_, ?_⟩ <;> linarith

end Graph
end draw
end rmf_planner_viz

namespace rmf_planner_viz
namespace draw
namespace Graph

open rmf_traffic.agv (Waypoint Lane)
open Implementation

theorem pick_result_is_valid_witness :
    pick Samples.every_capsule
        { build Samples.sample_sqrt Samples.one_way_graph 2 with current_map := some "L1" } 5 0 =
      .ok (some ⟨ElementType.Lane, 0⟩) ∧
    ((⟨ElementType.Lane, 0⟩ : Pick).type = ElementType.Lane →
      (⟨ElementType.Lane, 0⟩ : Pick).index < Samples.one_way_graph.num_lanes) :=
  ⟨by decide!,
    (pick_result_is_valid Samples.every_capsule Samples.sample_sqrt Samples.one_way_graph 2
      (some "L1") 5 0 ⟨ElementType.Lane, 0⟩ (by decide!)).1⟩

/-- C8, as stated, fails in its last part: in the sample graph waypoint 1 at (1/10, 0) is
shared by the lanes 0 → 1 and 1 → 2, but with lane width 1 a point exactly at its
position is also within the radius 0.3 of the circle of waypoint 0, inserted first, and
`pick` returns waypoint 0. -/
theorem pick_at_shared_waypoint_counterexample :
    (Samples.close_graph.get_waypoint (1 : Fin 3)).location = ⟨1 / 10, 0⟩ ∧
    Samples.close_graph.lanes = ([⟨0, 1⟩, ⟨1, 2⟩] : List (Lane 3)) ∧
    pick Samples.every_capsule
        { build Samples.sample_sqrt Samples.close_graph 1 with current_map := some "L1" }
        (1 / 10) 0 =
      .ok (some ⟨ElementType.Waypoint, 0⟩) ∧
    pick Samples.every_capsule
        { build Samples.sample_sqrt Samples.close_graph 1 with current_map := some "L1" }
        (1 / 10) 0 ≠
      .ok (some ⟨ElementType.Waypoint, 1⟩) := by
  decide!

end Graph
end draw
end rmf_planner_viz

namespace rmf_planner_viz
namespace draw
namespace Graph

open rmf_traffic.agv (Waypoint Lane)
open Implementation

theorem norm_le_iff_within (c : Vec2) (x y r : ℚ) :
    (c.sub ⟨x, y⟩).norm_le r = true ↔ within_radius c x y r := by
  simp [Vec2.norm_le, Vec2.sub, within_radius]

/-- In a built bucket the circle at a position and the hit-test position there agree. -/
theorem Implementation.build_waypoint_p_of_circle (sqrtf : ℚ → ℚ) (g : rmf_traffic.agv.Graph)
    (w : ℚ) (name : String) (md : MapData)
    (hf : UMap.find? name (build sqrtf g w).data = some md)
    (pos : Nat) (circ : CircleShape) (hc : md.waypoints[pos]? = some circ) :
    md.waypoint_p[pos]? = some circ.position := by
  have hg := geo_lane_state sqrtf g w g.num_lanes name md hf
  have hlens := bucketGeo_lengths hg
  have hpos : pos < md.waypoint_p.length := by
    rw [hlens.2.2.2.2, ← hlens.2.2.2.1]
    exact (List.getElem?_eq_some_iff.1 hc).1
  obtain ⟨_, _, circ2, _, _, _, _, hc2, hp, _⟩ :=
    build_circle_at sqrtf g w name md hf pos _ (List.getElem?_eq_getElem hpos)
  rw [hc] at hc2
  cases hc2
  rw [List.getElem?_eq_getElem hpos, hp]

/-- C8, amended: on a built graph with an active floor, a point within the waypoint
radius of a waypoint circle of the active floor makes `pick` return a Waypoint pick,
whatever the capsule test answers: the pick of the first circle of the floor, in
insertion order, that is within the radius of the point. In particular the pick is the
index recorded for the given circle when no circle inserted before it is within the
radius of the point. -/
theorem waypoint_wins_over_lanes (capsule_pick : Capsule → ℚ → ℚ → Bool) (sqrtf : ℚ → ℚ)
    (g : rmf_traffic.agv.Graph) (w : ℚ) (name : String) (md : MapData) (x y : ℚ)
    (pos : Nat) (circ : CircleShape)
    (hf : UMap.find? name (build sqrtf g w).data = some md)
    (hcirc : md.waypoints[pos]? = some circ)
    (hin : within_radius circ.position x y (0.30 * w)) :
    (∃ (pos0 j0 : Nat) (c0 : CircleShape), pos0 ≤ pos ∧
      md.waypoint_indices[pos0]? = some j0 ∧ md.waypoints[pos0]? = some c0 ∧
      within_radius c0.position x y (0.30 * w) ∧
      (∀ (i : Nat) (c1 : CircleShape), i < pos0 → md.waypoints[i]? = some c1 →
        ¬ within_radius c1.position x y (0.30 * w)) ∧
      pick capsule_pick { build sqrtf g w with current_map := some name } x y =
        .ok (some ⟨ElementType.Waypoint, j0⟩)) ∧
    ((∀ (i : Nat) (c1 : CircleShape), i < pos → md.waypoints[i]? = some c1 →
        ¬ within_radius c1.position x y (0.30 * w)) →
      ∃ j, md.waypoint_indices[pos]? = some j ∧
        pick capsule_pick { build sqrtf g w with current_map := some name } x y =
          .ok (some ⟨ElementType.Waypoint, j⟩)) := by
  have hg := geo_lane_state sqrtf g w g.num_lanes name md hf
  have hlens := bucketGeo_lengths hg
  have hp := build_waypoint_p_of_circle sqrtf g w name md hf pos circ hcirc
  have hposlt : pos < md.waypoints.length := (List.getElem?_eq_some_iff.1 hcirc).1
  obtain ⟨_, _, _, _, _, _, _, _, _, _, _, hmem⟩ :=
    build_circle_at sqrtf g w name md hf pos _ hp
  have hn := (norm_le_iff_within _ _ _ _).2 hin
  obtain ⟨b1, b2, b3, b4⟩ := pick_bounds_pass sqrtf g w _ hmem x y hn
  obtain ⟨pos0, c0, j0, _, hle, hc0, hn0, hj0, hfirst, hpick⟩ :=
    pick_waypoints_range' md ⟨x, y⟩ (0.30 * w) md.waypoints.length 0
      (by rw [hlens.2.2.2.2, ← hlens.2.2.2.1]; omega) (by rw [← hlens.2.2.2.1]; omega)
      pos (Nat.zero_le _) (by omega) _ hp hn
  rw [← List.range_eq_range'] at hpick
  have hres : pick capsule_pick { build sqrtf g w with current_map := some name } x y =
      .ok (some ⟨ElementType.Waypoint, j0⟩) := by
    have hl1 : md.waypoints.length = md.waypoint_indices.length := hlens.2.2.2.1
    have hl2 : md.waypoints.length = md.waypoint_p.length := by
      rw [hlens.2.2.2.2, hlens.2.2.2.1]
    simp only [pick, waypoint_radius, build_lane_width, b1, b2, b3, b4, hf,
      Bool.false_eq_true, if_false]
    rw [if_neg (by simp [hl1]), if_neg (by simp [hl2]), hpick]
  have hpos0lt : pos0 < md.waypoints.length := by omega
  have hcirc0 : md.waypoints[pos0]? = some md.waypoints[pos0] := List.getElem?_eq_getElem hpos0lt
  have hp0 := build_waypoint_p_of_circle sqrtf g w name md hf pos0 _ hcirc0
  rw [hc0] at hp0
  have hc0eq : md.waypoints[pos0].position = c0 := (Option.some.inj hp0).symm
  have hwithin0 : within_radius md.waypoints[pos0].position x y (0.30 * w) := by
    rw [hc0eq]
    exact (norm_le_iff_within _ _ _ _).1 hn0
  constructor
  · refine ⟨pos0, j0, md.waypoints[pos0], hle, hj0, hcirc0, hwithin0, ?_, hres⟩
    intro i c1 hi hc1 hw1
    have hp1 := build_waypoint_p_of_circle sqrtf g w name md hf i c1 hc1
    have := hfirst i _ (Nat.zero_le _) hi hp1
    rw [(norm_le_iff_within _ _ _ _).2 hw1] at this
    exact Bool.noConfusion this
  · intro hnone
    have hpp : pos0 = pos := by
      by_contra hne
      exact hnone pos0 _ (by omega) hcirc0 hwithin0
    subst hpp
    exact ⟨j0, hj0, hres⟩

theorem waypoint_wins_over_lanes_witness :
    ∃ (pos0 j0 : Nat) (c0 : CircleShape), pos0 ≤ 1 ∧
      (UMap.get "L1" (build Samples.sample_sqrt Samples.close_graph 1).data).waypoint_indices[pos0]? =
        some j0 ∧
      (UMap.get "L1" (build Samples.sample_sqrt Samples.close_graph 1).data).waypoints[pos0]? =
        some c0 ∧
      within_radius c0.position (1 / 10) 0 (0.30 * 1) ∧
      (∀ (i : Nat) (c1 : CircleShape), i < pos0 →
        (UMap.get "L1" (build Samples.sample_sqrt Samples.close_graph 1).data).waypoints[i]? =
          some c1 →
        ¬ within_radius c1.position (1 / 10) 0 (0.30 * 1)) ∧
      pick Samples.every_capsule
          { build Samples.sample_sqrt Samples.close_graph 1 with current_map := some "L1" }
          (1 / 10) 0 =
        .ok (some ⟨ElementType.Waypoint, j0⟩) :=
  (waypoint_wins_over_lanes Samples.every_capsule Samples.sample_sqrt Samples.close_graph 1 "L1"
    (UMap.get "L1" (build Samples.sample_sqrt Samples.close_graph 1).data) (1 / 10) 0 1
    ⟨0.30 * 1, ⟨0.30 * 1, 0.30 * 1⟩, ⟨1 / 10, 0⟩, WaypointColor⟩
    (by decide!) (by decide!) (by constructor <;> norm_num)).1

end Graph
end draw
end rmf_planner_viz

namespace rmf_planner_viz
namespace draw
namespace Graph

open rmf_traffic.agv (Waypoint Lane)
open Implementation

/-! ### Selection -/

/-- C1 fails on the code: `deselect` clears the record of the selection and reverts no
colour. On the sample graph, after `select` of waypoint 1 and `deselect`, nothing is
selected and one primitive, the circle of waypoint 1, is still highlighted. -/
theorem deselect_keeps_highlight :
    selected (deselect (select (build Samples.sample_sqrt Samples.one_way_graph 2)
      ⟨ElementType.Waypoint, 1⟩)) = none ∧
    highlighted_count (deselect (select (build Samples.sample_sqrt Samples.one_way_graph 2)
      ⟨ElementType.Waypoint, 1⟩)).data = 1 ∧
    (primitive_of (deselect (select (build Samples.sample_sqrt Samples.one_way_graph 2)
      ⟨ElementType.Waypoint, 1⟩)).data ⟨ElementType.Waypoint, 1⟩).map Primitive.is_highlight =
      some true := by
  decide!

end Graph
end draw
end rmf_planner_viz

namespace rmf_planner_viz
namespace draw
namespace Graph

open rmf_traffic.agv (Waypoint Lane)
open Implementation

theorem findSome?_range_unique {β : Type} (f : Nat → Option β) (n i0 : Nat) (hi : i0 < n)
    (hf : ∀ i, i < n → i ≠ i0 → f i = none) : (List.range n).findSome? f = f i0 := by
  induction n with
  | zero => omega
  | succ n ih =>
    rw [List.range_succ, List.findSome?_append]
    by_cases h : i0 < n
    · rw [ih h (fun i hin hne => hf i (Nat.lt_succ_of_lt hin) hne)]
      cases hfi : f i0 with
      | some v => rfl
      | none =>
        have : f n = none := hf n (Nat.lt_succ_self n) (by omega)
        simp [this]
    · have hin : i0 = n := by omega
      subst hin
      have : (List.range i0).findSome? f = none := by
        rw [List.findSome?_eq_none_iff]
        intro x hx
        have hx2 := List.mem_range.1 hx
        exact hf x (Nat.lt_succ_of_lt hx2) (by omega)
      rw [this]
      cases hfi : f i0 <;> simp [hfi]

theorem findSome?_range_none {β : Type} (f : Nat → Option β) (n : Nat)
    (hf : ∀ i, i < n → f i = none) : (List.range n).findSome? f = none := by
  rw [List.findSome?_eq_none_iff]
  intro x hx
  exact hf x (List.mem_range.1 hx)

/-- The loop shape shared by the three loops of `change_color` in a bucket: over the
positions of `prims`, the first position of `idx` holding `j` is rewritten. -/
theorem recolor_loop_hit {β : Type} (idx : List Nat) (n : Nat) (j i0 : Nat)
    (g : Nat → β) (hn : n = idx.length) (hnd : idx.Nodup) (h0 : idx[i0]? = some j) :
    (List.range n).findSome? (fun i => if idx[i]? = some j then some (g i) else none) =
      some (g i0) := by
  have hi0 : i0 < idx.length := (List.getElem?_eq_some_iff.1 h0).1
  rw [findSome?_range_unique _ n i0 (by omega)]
  · simp [h0]
  · intro i hi hne
    have hi2 : i < idx.length := by omega
    have : idx[i]? ≠ some j := by
      rw [List.getElem?_eq_getElem hi2]
      intro hc
      have h1 : idx[i] = idx[i0] := by
        have := (List.getElem?_eq_some_iff.1 h0).2
        rw [this]
        exact Option.some.inj hc
      exact hne ((hnd.getElem_inj_iff).1 h1)
    simp [this]

theorem recolor_loop_miss {β : Type} (idx : List Nat) (n : Nat) (j : Nat)
    (g : Nat → β) (hj : j ∉ idx) :
    (List.range n).findSome? (fun i => if idx[i]? = some j then some (g i) else none) =
      none := by
  apply findSome?_range_none
  intro i _
  have : idx[i]? ≠ some j := fun hc => hj (List.getElem?_mem hc)
  simp [this]

/-- The four cases of `paint` on a bucket. -/
theorem paint_cases (p : Pick) (ce cx cw : Color) (md : MapData) (hs : Shape md) :
    (names_in md p = false ∧ paint p ce cx cw md = md) ∨
    (p.type = ElementType.Waypoint ∧ p.index ∈ md.waypoint_indices ∧
      paint p ce cx cw md = { md with
        waypoints := md.waypoints.modify (fun c => { c with fillColor := cw })
          (md.waypoint_indices.indexOf p.index) }) ∨
    (p.type = ElementType.Lane ∧ p.index ∈ md.bi_indices ∧
      paint p ce cx cw md = { md with
        bi_lanes := md.bi_lanes.modify (fun c => (c.set_start_color ce).set_end_color ce)
          (md.bi_indices.indexOf p.index) }) ∨
    (p.type = ElementType.Lane ∧ p.index ∉ md.bi_indices ∧ p.index ∈ md.mono_indices ∧
      paint p ce cx cw md = { md with
        mono_lanes := md.mono_lanes.modify (fun c => (c.set_start_color ce).set_end_color cx)
          (md.mono_indices.indexOf p.index) }) := by
  have hnd := hs.nd_lanes
  rw [List.nodup_append] at hnd
  cases hty : p.type with
  | Waypoint =>
    by_cases hin : p.index ∈ md.waypoint_indices
    · right; left
      refine ⟨rfl, hin, ?_⟩
      have h0 := List.getElem?_indexOf hin
      simp only [paint, hit_of, hty, if_true, recolor_waypoint]
      rw [recolor_loop_hit md.waypoint_indices _ p.index _ _ hs.len_wp hs.nd_wp h0]
      rfl
    · left
      constructor
      · simp [names_in, hty, hin]
      · simp only [paint, hit_of, hty, if_true, recolor_waypoint]
        rw [recolor_loop_miss md.waypoint_indices _ p.index _ hin]
        rfl
  | Lane =>
    have hne : ¬ (ElementType.Lane = ElementType.Waypoint) := by decide
    by_cases hin : p.index ∈ md.bi_indices
    · right; right; left
      refine ⟨rfl, hin, ?_⟩
      have h0 := List.getElem?_indexOf hin
      simp only [paint, hit_of, hty, hne, if_false, recolor_bi]
      rw [recolor_loop_hit md.bi_indices _ p.index _ _ hs.len_bi hnd.1 h0]
      rfl
    · by_cases hin2 : p.index ∈ md.mono_indices
      · right; right; right
        refine ⟨rfl, hin, hin2, ?_⟩
        have h0 := List.getElem?_indexOf hin2
        simp only [paint, hit_of, hty, hne, if_false, recolor_bi, recolor_mono]
        rw [recolor_loop_miss md.bi_indices _ p.index _ hin,
          recolor_loop_hit md.mono_indices _ p.index _ _ hs.len_mono hnd.2.1 h0]
        rfl
      · left
        constructor
        · simp [names_in, hty, hin, hin2]
        · simp only [paint, hit_of, hty, hne, if_false, recolor_bi, recolor_mono]
          rw [recolor_loop_miss md.bi_indices _ p.index _ hin,
            recolor_loop_miss md.mono_indices _ p.index _ hin2]
          rfl

end Graph
end draw
end rmf_planner_viz

namespace rmf_planner_viz
namespace draw
namespace Graph

open rmf_traffic.agv (Waypoint Lane)
open Implementation

theorem modify_modify_cancel {α : Type} (f g : α → α) (l : List α) (i : Nat)
    (h : ∀ c ∈ l, f (g c) = c) : (l.modify g i).modify f i = l := by
  induction l generalizing i with
  | nil => cases i <;> rfl
  | cons a t ih =>
    cases i with
    | zero =>
      simp only [List.modify_zero_cons]
      rw [h a (List.mem_cons_self _ _)]
    | succ i =>
      simp only [List.modify_succ_cons]
      rw [ih i (fun c hc => h c (List.mem_cons_of_mem _ hc))]

theorem countP_modify_one {α : Type} (p : α → Bool) (f : α → α) (l : List α) (i : Nat)
    (hi : i < l.length) (h0 : ∀ c ∈ l, p c = false) (h1 : ∀ c ∈ l, p (f c) = true) :
    (l.modify f i).countP p = 1 := by
  induction l generalizing i with
  | nil => simp at hi
  | cons a t ih =>
    have ht : t.countP p = 0 := by
      rw [List.countP_eq_zero]
      intro c hc
      simp [h0 c (List.mem_cons_of_mem _ hc)]
    cases i with
    | zero =>
      simp only [List.modify_zero_cons]
      rw [List.countP_cons_of_pos _ _ (h1 a (List.mem_cons_self _ _)), ht]
    | succ i =>
      simp only [List.modify_succ_cons]
      have ha : ¬ p a = true := by simp [h0 a (List.mem_cons_self _ _)]
      rw [List.countP_cons_of_neg _ _ ha]
      exact ih i (by simpa using hi) (fun c hc => h0 c (List.mem_cons_of_mem _ hc))
        (fun c hc => h1 c (List.mem_cons_of_mem _ hc))

theorem countP_zero_of_all_false {α : Type} (p : α → Bool) (l : List α)
    (h0 : ∀ c ∈ l, p c = false) : l.countP p = 0 := by
  rw [List.countP_eq_zero]
  intro c hc
  simp [h0 c hc]

theorem paint_indices (p : Pick) (ce cx cw : Color) (md : MapData) (hs : Shape md) :
    (paint p ce cx cw md).waypoint_indices = md.waypoint_indices ∧
    (paint p ce cx cw md).bi_indices = md.bi_indices ∧
    (paint p ce cx cw md).mono_indices = md.mono_indices ∧
    (paint p ce cx cw md).waypoints.length = md.waypoints.length ∧
    (paint p ce cx cw md).bi_lanes.length = md.bi_lanes.length ∧
    (paint p ce cx cw md).mono_lanes.length = md.mono_lanes.length := by
  rcases paint_cases p ce cx cw md hs with ⟨_, h⟩ | ⟨_, _, h⟩ | ⟨_, _, h⟩ | ⟨_, _, _, h⟩ <;>
    rw [h] <;> simp

theorem paint_shape (p : Pick) (ce cx cw : Color) (md : MapData) (hs : Shape md) :
    Shape (paint p ce cx cw md) := by
  obtain ⟨h1, h2, h3, h4, h5, h6⟩ := paint_indices p ce cx cw md hs
  constructor
  · rw [h4, h1]; exact hs.len_wp
  · rw [h5, h2]; exact hs.len_bi
  · rw [h6, h3]; exact hs.len_mono
  · rw [h1]; exact hs.nd_wp
  · rw [h2, h3]; exact hs.nd_lanes

theorem paint_names_in (p q : Pick) (ce cx cw : Color) (md : MapData) (hs : Shape md) :
    names_in (paint p ce cx cw md) q = names_in md q := by
  obtain ⟨h1, h2, h3, _⟩ := paint_indices p ce cx cw md hs
  simp only [names_in, h1, h2, h3]

/-- Reverting the colours of a pick after highlighting it gives back a bucket whose
primitives all had their default colours. -/
theorem paint_revert (p : Pick) (ce cx cw : Color) (md : MapData) (hs : Shape md)
    (hd : AllDefault md) :
    paint p LaneEntryColor LaneExitColor WaypointColor (paint p ce cx cw md) = md := by
  have hs2 := paint_shape p ce cx cw md hs
  obtain ⟨i1, i2, i3, _⟩ := paint_indices p ce cx cw md hs
  have hnm := paint_names_in p p ce cx cw md hs
  rcases paint_cases p ce cx cw md hs with ⟨hn, h⟩ | ⟨hty, hin, h⟩ | ⟨hty, hin, h⟩ |
      ⟨hty, hnin, hin, h⟩
  · rw [h]
    rcases paint_cases p LaneEntryColor LaneExitColor WaypointColor md hs with
      ⟨_, h2⟩ | ⟨hty, hin, _⟩ | ⟨hty, hin, _⟩ | ⟨hty, _, hin, _⟩
    · exact h2
    · simp [names_in, hty, hin] at hn
    · simp [names_in, hty, hin] at hn
    · simp [names_in, hty, hin] at hn
  · rcases paint_cases p LaneEntryColor LaneExitColor WaypointColor _ hs2 with
      ⟨hn2, _⟩ | ⟨_, _, h2⟩ | ⟨hty2, _, _⟩ | ⟨hty2, _, _, _⟩
    · rw [hnm] at hn2
      simp [names_in, hty, hin] at hn2
    · rw [h2, i1, h]
      simp only
      rw [modify_modify_cancel]
      intro c hc
      cases c
      simp only [CircleShape.mk.injEq, true_and]
      exact (hd.wp _ hc).symm
    · rw [hty] at hty2; cases hty2
    · rw [hty] at hty2; cases hty2
  · rcases paint_cases p LaneEntryColor LaneExitColor WaypointColor _ hs2 with
      ⟨hn2, _⟩ | ⟨hty2, _, _⟩ | ⟨_, _, h2⟩ | ⟨_, hnin2, _, _⟩
    · rw [hnm] at hn2
      simp [names_in, hty, hin] at hn2
    · rw [hty] at hty2; cases hty2
    · rw [h2, i2, h]
      simp only
      rw [modify_modify_cancel]
      intro c hc
      obtain ⟨a, b⟩ := hd.bi _ hc
      cases c with
      | mk v0 v1 r =>
        cases v0
        cases v1
        simp only at a b
        simp [Capsule.set_start_color, Capsule.set_end_color, a, b]
    · rw [i2] at hnin2
      exact absurd hin hnin2
  · rcases paint_cases p LaneEntryColor LaneExitColor WaypointColor _ hs2 with
      ⟨hn2, _⟩ | ⟨hty2, _, _⟩ | ⟨_, hin2, _⟩ | ⟨_, _, _, h2⟩
    · rw [hnm] at hn2
      simp [names_in, hty, hin] at hn2
    · rw [hty] at hty2; cases hty2
    · rw [i2] at hin2
      exact absurd hin2 hnin
    · rw [h2, i3, h]
      simp only
      rw [modify_modify_cancel]
      intro c hc
      obtain ⟨a, b⟩ := hd.mono _ hc
      cases c with
      | mk v0 v1 r =>
        cases v0
        cases v1
        simp only at a b
        simp [Capsule.set_start_color, Capsule.set_end_color, a, b]

end Graph
end draw
end rmf_planner_viz

namespace rmf_planner_viz
namespace draw
namespace Graph

open rmf_traffic.agv (Waypoint Lane)
open Implementation

theorem pick_index_ne {p q : Pick} (h : q ≠ p) (ht : q.type = p.type) : q.index ≠ p.index := by
  intro hi
  apply h
  cases p
  cases q
  simp only at ht hi
  rw [ht, hi]

theorem primitive_in_none (md : MapData) (p : Pick) (h : names_in md p = false) :
    primitive_in md p = none := by
  cases hty : p.type with
  | Waypoint =>
    simp only [names_in, hty, if_true, decide_eq_false_iff_not] at h
    simp [primitive_in, hty, h]
  | Lane =>
    have hne : ¬ (ElementType.Lane = ElementType.Waypoint) := by decide
    simp only [names_in, hty, hne, if_false, Bool.or_eq_false_iff, decide_eq_false_iff_not] at h
    simp [primitive_in, hty, h.1, h.2]

/-- The primitive of the painted pick is the old primitive recoloured. -/
theorem primitive_in_paint_self (p : Pick) (ce cx cw : Color) (md : MapData) (hs : Shape md) :
    primitive_in (paint p ce cx cw md) p =
      (primitive_in md p).map (Primitive.recolor ce cx cw) := by
  have hne : ¬ (ElementType.Lane = ElementType.Waypoint) := by decide
  rcases paint_cases p ce cx cw md hs with ⟨hn, h⟩ | ⟨hty, hin, h⟩ | ⟨hty, hin, h⟩ |
      ⟨hty, hnin, hin, h⟩
  · rw [h, primitive_in_none md p hn]
    rfl
  · rw [h]
    simp only [primitive_in, hty, if_true, hin, List.getElem?_modify_eq]
    cases md.waypoints[List.indexOf p.index md.waypoint_indices]? <;> rfl
  · rw [h]
    simp only [primitive_in, hty, hne, if_false, hin, if_true, List.getElem?_modify_eq]
    cases md.bi_lanes[List.indexOf p.index md.bi_indices]? <;> rfl
  · rw [h]
    simp only [primitive_in, hty, hne, if_false, hnin, hin, if_true, List.getElem?_modify_eq]
    cases md.mono_lanes[List.indexOf p.index md.mono_indices]? <;> rfl

/-- The primitives of the other picks are untouched. -/
theorem primitive_in_paint_other (p q : Pick) (ce cx cw : Color) (md : MapData)
    (hs : Shape md) (hq : q ≠ p) :
    primitive_in (paint p ce cx cw md) q = primitive_in md q := by
  have hne : ¬ (ElementType.Lane = ElementType.Waypoint) := by decide
  rcases paint_cases p ce cx cw md hs with ⟨_, h⟩ | ⟨hty, hin, h⟩ | ⟨hty, hin, h⟩ |
      ⟨hty, hnin, hin, h⟩
  · rw [h]
  · rw [h]
    cases hqt : q.type with
    | Lane => simp only [primitive_in, hqt, hne, if_false]
    | Waypoint =>
      have hidx := pick_index_ne hq (hqt.trans hty.symm)
      simp only [primitive_in, hqt, if_true]
      by_cases hqin : q.index ∈ md.waypoint_indices
      · simp only [hqin, if_true]
        rw [List.getElem?_modify_ne]
        intro hc
        exact hidx ((List.indexOf_inj hqin hin).1 hc.symm)
      · simp only [hqin, if_false]
  · rw [h]
    cases hqt : q.type with
    | Waypoint => simp only [primitive_in, hqt, if_true]
    | Lane =>
      have hidx := pick_index_ne hq (hqt.trans hty.symm)
      simp only [primitive_in, hqt, hne, if_false]
      by_cases hqin : q.index ∈ md.bi_indices
      · simp only [hqin, if_true]
        rw [List.getElem?_modify_ne]
        intro hc
        exact hidx ((List.indexOf_inj hqin hin).1 hc.symm)
      · simp only [hqin, if_false]
  · rw [h]
    cases hqt : q.type with
    | Waypoint => simp only [primitive_in, hqt, if_true]
    | Lane =>
      have hidx := pick_index_ne hq (hqt.trans hty.symm)
      simp only [primitive_in, hqt, hne, if_false]
      by_cases hqin : q.index ∈ md.bi_indices
      · simp only [hqin, if_true]
      · simp only [hqin, if_false]
        by_cases hqin2 : q.index ∈ md.mono_indices
        · simp only [hqin2, if_true]
          rw [List.getElem?_modify_ne]
          intro hc
          exact hidx ((List.indexOf_inj hqin2 hin).1 hc.symm)
        · simp only [hqin2, if_false]

/-- In a bucket with default colours, highlighting a pick highlights one primitive when
the bucket holds the pick, and none otherwise. -/
theorem highlighted_in_paint (p : Pick) (md : MapData) (hs : Shape md) (hd : AllDefault md) :
    highlighted_in (paint p Color.Cyan Color.Yellow Color.Magenta md) =
      if names_in md p = true then 1 else 0 := by
  have z1 : md.waypoints.countP (fun c => !(Primitive.circle c).is_default) = 0 :=
    countP_zero_of_all_false _ _ (fun c hc => by simp [Primitive.is_default, hd.wp c hc])
  have z2 : md.bi_lanes.countP (fun c => !(Primitive.bi c).is_default) = 0 :=
    countP_zero_of_all_false _ _ (fun c hc => by
      simp [Primitive.is_default, (hd.bi c hc).1, (hd.bi c hc).2])
  have z3 : md.mono_lanes.countP (fun c => !(Primitive.mono c).is_default) = 0 :=
    countP_zero_of_all_false _ _ (fun c hc => by
      simp [Primitive.is_default, (hd.mono c hc).1, (hd.mono c hc).2])
  rcases paint_cases p Color.Cyan Color.Yellow Color.Magenta md hs with
    ⟨hn, h⟩ | ⟨hty, hin, h⟩ | ⟨hty, hin, h⟩ | ⟨hty, hnin, hin, h⟩
  · rw [h, hn]
    simp [highlighted_in, z1, z2, z3]
  · have hnm : names_in md p = true := by simp [names_in, hty, hin]
    rw [h, hnm]
    simp only [highlighted_in, z2, z3, if_true]
    rw [countP_modify_one]
    · rw [hs.len_wp]
      exact List.indexOf_lt_length.2 hin
    · intro c hc
      simp [Primitive.is_default, hd.wp c hc]
    · intro c _
      simp only [Primitive.is_default, Bool.not_eq_true', decide_eq_false_iff_not]
      decide
  · have hnm : names_in md p = true := by simp [names_in, hty, hin]
    rw [h, hnm]
    simp only [highlighted_in, z1, z3, if_true]
    rw [countP_modify_one]
    · rw [hs.len_bi]
      exact List.indexOf_lt_length.2 hin
    · intro c hc
      simp [Primitive.is_default, (hd.bi c hc).1, (hd.bi c hc).2]
    · intro c _
      simp only [Primitive.is_default, Capsule.set_start_color, Capsule.set_end_color,
        Bool.not_eq_true', Bool.and_eq_false_iff, decide_eq_false_iff_not]
      left
      decide
  · have hnm : names_in md p = true := by simp [names_in, hty, hin]
    rw [h, hnm]
    simp only [highlighted_in, z1, z2, if_true]
    rw [countP_modify_one]
    · rw [hs.len_mono]
      exact List.indexOf_lt_length.2 hin
    · intro c hc
      simp [Primitive.is_default, (hd.mono c hc).1, (hd.mono c hc).2]
    · intro c _
      simp only [Primitive.is_default, Capsule.set_start_color, Capsule.set_end_color,
        Bool.not_eq_true', Bool.and_eq_false_iff, decide_eq_false_iff_not]
      left
      decide

end Graph
end draw
end rmf_planner_viz

namespace rmf_planner_viz
namespace draw
namespace Graph

open rmf_traffic.agv (Waypoint Lane)
open Implementation

theorem hit_of_none (p : Pick) (ce cx cw : Color) (md : MapData)
    (h : names_in md p = false) : hit_of p ce cx cw md = none := by
  cases hty : p.type with
  | Waypoint =>
    simp only [names_in, hty, if_true, decide_eq_false_iff_not] at h
    simp only [hit_of, hty, if_true, recolor_waypoint]
    exact recolor_loop_miss _ _ _ _ h
  | Lane =>
    have hne : ¬ (ElementType.Lane = ElementType.Waypoint) := by decide
    simp only [names_in, hty, hne, if_false, Bool.or_eq_false_iff, decide_eq_false_iff_not] at h
    simp only [hit_of, hty, hne, if_false, recolor_bi, recolor_mono]
    rw [recolor_loop_miss _ _ _ _ h.1, recolor_loop_miss _ _ _ _ h.2]

theorem change_color_eq (s : Implementation) (p : Pick) (ce cx cw : Color) :
    (change_color s p ce cx cw).data = change_color_data (hit_of p ce cx cw) s.data := by
  have hne : ¬ (ElementType.Lane = ElementType.Waypoint) := by decide
  cases hty : p.type with
  | Waypoint =>
    simp only [change_color, hty, if_true]
    congr 1
    funext md
    simp [hit_of, hty]
  | Lane =>
    simp only [change_color, hty, hne, if_false]
    congr 1
    funext md
    simp [hit_of, hty]

/-- On well-shaped buckets the loop over the buckets of `change_color`, which stops at the
first hit, paints every bucket. -/
theorem change_color_data_eq_map (p : Pick) (ce cx cw : Color) (data : List (String × MapData))
    (hp : data.Pairwise (fun e1 e2 => ¬ (names_in e1.2 p = true ∧ names_in e2.2 p = true))) :
    change_color_data (hit_of p ce cx cw) data =
      data.map (fun e => (e.1, paint p ce cx cw e.2)) := by
  induction data with
  | nil => rfl
  | cons e rest ih =>
    obtain ⟨n, md⟩ := e
    rw [List.pairwise_cons] at hp
    simp only [change_color_data, List.map_cons]
    cases hh : hit_of p ce cx cw md with
    | none =>
      have hpm : paint p ce cx cw md = md := by simp [paint, hh]
      simp only [hpm]
      rw [ih hp.2]
    | some md1 =>
      have hpm : paint p ce cx cw md = md1 := by simp [paint, hh]
      simp only [hpm]
      congr 1
      have hnm : names_in md p = true := by
        by_contra hc
        have : names_in md p = false := by simpa using hc
        rw [hit_of_none p ce cx cw md this] at hh
        cases hh
      symm
      rw [List.map_congr_left, List.map_id]
      intro e2 he2
      have : names_in e2.2 p = false := by
        have := hp.1 e2 he2
        simp only [hnm, true_and, Bool.not_eq_true] at this
        exact this
      have hpe : paint p ce cx cw e2.2 = e2.2 := by
        simp [paint, hit_of_none p ce cx cw e2.2 this]
      rw [hpe]
      rfl

theorem dataShape_map_paint (p : Pick) (ce cx cw : Color) (data : List (String × MapData))
    (h : DataShape data) : DataShape (data.map (fun e => (e.1, paint p ce cx cw e.2))) := by
  constructor
  · intro e he
    obtain ⟨e0, he0, rfl⟩ := List.mem_map.1 he
    exact paint_shape _ _ _ _ _ (h.shape e0 he0)
  · intro q
    rw [List.pairwise_map]
    refine List.Pairwise.imp_of_mem ?_ (h.exclusive q)
    intro a b ha hb hab
    simp only
    rw [paint_names_in _ _ _ _ _ _ (h.shape a ha), paint_names_in _ _ _ _ _ _ (h.shape b hb)]
    exact hab

theorem change_color_map (s : Implementation) (p : Pick) (ce cx cw : Color)
    (h : DataShape s.data) :
    (change_color s p ce cx cw).data = s.data.map (fun e => (e.1, paint p ce cx cw e.2)) := by
  rw [change_color_eq, change_color_data_eq_map p ce cx cw s.data (h.exclusive p)]

theorem change_color_fields (s : Implementation) (p : Pick) (ce cx cw : Color) :
    (change_color s p ce cx cw).selected = s.selected ∧
    (change_color s p ce cx cw).current_map = s.current_map ∧
    (change_color s p ce cx cw).bounds = s.bounds ∧
    (change_color s p ce cx cw).lane_width = s.lane_width := by
  simp only [change_color]
  split <;> exact ⟨rfl, rfl, rfl, rfl⟩

theorem findSome?_congr_mem {α β : Type} (f g : α → Option β) (l : List α)
    (h : ∀ x ∈ l, f x = g x) : l.findSome? f = l.findSome? g := by
  induction l with
  | nil => rfl
  | cons a t ih =>
    simp only [List.findSome?_cons, h a (List.mem_cons_self _ _)]
    rw [ih (fun x hx => h x (List.mem_cons_of_mem _ hx))]

theorem findSome?_map_option {α β : Type} (f : α → Option β) (r : β → β) (l : List α) :
    l.findSome? (fun x => (f x).map r) = (l.findSome? f).map r := by
  induction l with
  | nil => rfl
  | cons a t ih =>
    simp only [List.findSome?_cons]
    cases f a with
    | none => simpa using ih
    | some v => rfl

theorem primitive_of_paint_other (p q : Pick) (ce cx cw : Color)
    (data : List (String × MapData)) (h : DataShape data) (hq : q ≠ p) :
    primitive_of (data.map (fun e => (e.1, paint p ce cx cw e.2))) q = primitive_of data q := by
  simp only [primitive_of, List.findSome?_map]
  apply findSome?_congr_mem
  intro e he
  exact primitive_in_paint_other p q ce cx cw e.2 (h.shape e he) hq

theorem primitive_of_paint_self (p : Pick) (ce cx cw : Color)
    (data : List (String × MapData)) (h : DataShape data) :
    primitive_of (data.map (fun e => (e.1, paint p ce cx cw e.2))) p =
      (primitive_of data p).map (Primitive.recolor ce cx cw) := by
  simp only [primitive_of, List.findSome?_map]
  rw [← findSome?_map_option]
  apply findSome?_congr_mem
  intro e he
  exact primitive_in_paint_self p ce cx cw e.2 (h.shape e he)

theorem map_paint_revert (p : Pick) (ce cx cw : Color) (data : List (String × MapData))
    (h : DataShape data) (hd : ∀ e ∈ data, AllDefault e.2) :
    (data.map (fun e => (e.1, paint p ce cx cw e.2))).map
      (fun e => (e.1, paint p LaneEntryColor LaneExitColor WaypointColor e.2)) = data := by
  rw [List.map_map, List.map_congr_left, List.map_id]
  intro e he
  simp only [Function.comp]
  rw [paint_revert p ce cx cw e.2 (h.shape e he) (hd e he)]
  rfl

theorem sum_indicator_one {α : Type} (q : α → Bool) (l : List α)
    (hp : l.Pairwise (fun a b => ¬ (q a = true ∧ q b = true)))
    (hex : ∃ a ∈ l, q a = true) :
    (l.map (fun a => if q a = true then 1 else 0)).sum = 1 := by
  induction l with
  | nil =>
    obtain ⟨a, ha, _⟩ := hex
    simp at ha
  | cons a t ih =>
    rw [List.pairwise_cons] at hp
    simp only [List.map_cons, List.sum_cons]
    by_cases hqa : q a = true
    · have hz : (t.map (fun a => if q a = true then 1 else 0)).sum = 0 := by
        apply List.sum_eq_zero
        intro x hx
        obtain ⟨b, hb, rfl⟩ := List.mem_map.1 hx
        have := hp.1 b hb
        simp only [hqa, true_and] at this
        simp [this]
      simp [hqa, hz]
    · have hex2 : ∃ b ∈ t, q b = true := by
        obtain ⟨b, hb, hqb⟩ := hex
        rcases List.mem_cons.1 hb with h | h
        · subst h
          exact absurd hqb hqa
        · exact ⟨b, h, hqb⟩
      rw [if_neg hqa, Nat.zero_add]
      exact ih hp.2 hex2

/-- Highlighting a pick that names a primitive, on buckets with default colours, leaves
exactly one primitive highlighted. -/
theorem highlighted_count_paint (p : Pick) (data : List (String × MapData))
    (h : DataShape data) (hd : ∀ e ∈ data, AllDefault e.2) (hn : names_primitive data p) :
    highlighted_count
      (data.map (fun e => (e.1, paint p Color.Cyan Color.Yellow Color.Magenta e.2))) = 1 := by
  have : (data.map (fun e => (e.1, paint p Color.Cyan Color.Yellow Color.Magenta e.2))).map
      (fun e => highlighted_in e.2) =
      data.map (fun e => if names_in e.2 p = true then 1 else 0) := by
    rw [List.map_map]
    apply List.map_congr_left
    intro e he
    simp only [Function.comp]
    exact highlighted_in_paint p e.2 (h.shape e he) (hd e he)
  rw [highlighted_count, this]
  exact sum_indicator_one (fun (e : String × MapData) => names_in e.2 p) data (h.exclusive p) hn

end Graph
end draw
end rmf_planner_viz

namespace rmf_planner_viz
namespace draw
namespace Graph

open rmf_traffic.agv (Waypoint Lane)
open Implementation

theorem Implementation.bucketGeo_shape {sqrtf : ℚ → ℚ} {g : rmf_traffic.agv.Graph} {w : ℚ}
    {k : Nat} {uv : List Nat} {n : String} {md : MapData} (h : BucketGeo sqrtf g w k uv n md) :
    Shape md := by
  have hl := bucketGeo_lengths h
  exact ⟨hl.2.2.2.1, hl.1, hl.2.1, h.wp_nodup, h.lanes_nodup⟩

theorem Implementation.bucketGeo_allDefault {sqrtf : ℚ → ℚ} {g : rmf_traffic.agv.Graph}
    {w : ℚ} {k : Nat} {uv : List Nat} {n : String} {md : MapData}
    (h : BucketGeo sqrtf g w k uv n md) : AllDefault md := by
  constructor
  · intro c hc
    obtain ⟨pos, hpos⟩ := List.mem_iff_getElem?.1 hc
    have h1 : (md.waypoints.map some)[pos]? = some (some c) := by
      rw [List.getElem?_map, hpos]; rfl
    rw [h.waypoints_eq, List.getElem?_map] at h1
    cases hj : md.waypoint_indices[pos]? with
    | none => simp [hj] at h1
    | some j =>
      simp only [hj, Option.map_some', Option.some.injEq, circle_at] at h1
      cases hw : g.waypoints[j]? with
      | none => simp [hw] at h1
      | some wp =>
        simp only [hw, Option.map_some', Option.some.injEq] at h1
        rw [← h1]
  · intro c hc
    obtain ⟨pos, hpos⟩ := List.mem_iff_getElem?.1 hc
    have h1 : (md.bi_lanes.map some)[pos]? = some (some c) := by
      rw [List.getElem?_map, hpos]; rfl
    rw [h.bi_lanes_eq, List.getElem?_map] at h1
    cases hj : md.bi_indices[pos]? with
    | none => simp [hj] at h1
    | some j =>
      simp only [hj, Option.map_some', Option.some.injEq, capsule_at] at h1
      cases hw : g.lanes[j]? with
      | none => simp [hw] at h1
      | some l =>
        simp only [hw, Option.map_some', Option.some.injEq] at h1
        rw [← h1]
        exact ⟨rfl, rfl⟩
  · intro c hc
    obtain ⟨pos, hpos⟩ := List.mem_iff_getElem?.1 hc
    have h1 : (md.mono_lanes.map some)[pos]? = some (some c) := by
      rw [List.getElem?_map, hpos]; rfl
    rw [h.mono_lanes_eq, List.getElem?_map] at h1
    cases hj : md.mono_indices[pos]? with
    | none => simp [hj] at h1
    | some j =>
      simp only [hj, Option.map_some', Option.some.injEq, capsule_at] at h1
      cases hw : g.lanes[j]? with
      | none => simp [hw] at h1
      | some l =>
        simp only [hw, Option.map_some', Option.some.injEq] at h1
        rw [← h1]
        exact ⟨rfl, rfl⟩

/-- The buckets of a built graph are well shaped. -/
theorem Implementation.build_dataShape (sqrtf : ℚ → ℚ) (g : rmf_traffic.agv.Graph) (w : ℚ) :
    DataShape (build sqrtf g w).data := by
  constructor
  · intro e he
    exact bucketGeo_shape (build_geo sqrtf g w e he)
  · intro p
    have hk := (textInv_lane_state sqrtf g w g.num_lanes).keys_nodup
    have hp : (build sqrtf g w).data.Pairwise (fun a b => a.1 ≠ b.1) := by
      rw [UMap.keys, List.Nodup, List.pairwise_map] at hk
      exact hk
    refine List.Pairwise.imp_of_mem ?_ hp
    intro e1 e2 he1 he2 hne hboth
    apply hne
    have hg1 := build_geo sqrtf g w e1 he1
    have hg2 := build_geo sqrtf g w e2 he2
    have hnl : ¬ (ElementType.Lane = ElementType.Waypoint) := by decide
    obtain ⟨n1, n2⟩ := hboth
    cases hty : p.type with
    | Waypoint =>
      simp only [names_in, hty, if_true, decide_eq_true_eq] at n1 n2
      obtain ⟨_, wp1, hw1, hf1⟩ := hg1.wp_rec _ n1
      obtain ⟨_, wp2, hw2, hf2⟩ := hg2.wp_rec _ n2
      rw [hw1] at hw2
      cases hw2
      rw [← hf1, ← hf2]
    | Lane =>
      simp only [names_in, hty, hnl, if_false, Bool.or_eq_true, decide_eq_true_eq] at n1 n2
      have f1 : ∃ l, g.lanes[p.index]? = some l ∧ (g.get_waypoint l.entry).map_name = e1.1 := by
        rcases n1 with h | h
        · obtain ⟨_, l, hl, hf, _⟩ := hg1.bi_rec _ h
          exact ⟨l, hl, hf⟩
        · obtain ⟨_, l, hl, hf, _⟩ := hg1.mono_rec _ h
          exact ⟨l, hl, hf⟩
      have f2 : ∃ l, g.lanes[p.index]? = some l ∧ (g.get_waypoint l.entry).map_name = e2.1 := by
        rcases n2 with h | h
        · obtain ⟨_, l, hl, hf, _⟩ := hg2.bi_rec _ h
          exact ⟨l, hl, hf⟩
        · obtain ⟨_, l, hl, hf, _⟩ := hg2.mono_rec _ h
          exact ⟨l, hl, hf⟩
      obtain ⟨l1, hl1, hf1⟩ := f1
      obtain ⟨l2, hl2, hf2⟩ := f2
      rw [hl1] at hl2
      cases hl2
      rw [← hf1, ← hf2]

theorem Implementation.build_allDefault (sqrtf : ℚ → ℚ) (g : rmf_traffic.agv.Graph) (w : ℚ) :
    ∀ e ∈ (build sqrtf g w).data, AllDefault e.2 :=
  fun e he => bucketGeo_allDefault (build_geo sqrtf g w e he)

end Graph
end draw
end rmf_planner_viz

namespace rmf_planner_viz
namespace draw
namespace Graph

open rmf_traffic.agv (Waypoint Lane)
open Implementation

theorem primitive_in_isSome (md : MapData) (p : Pick) (hs : Shape md)
    (h : names_in md p = true) : (primitive_in md p).isSome = true := by
  have hnl : ¬ (ElementType.Lane = ElementType.Waypoint) := by decide
  cases hty : p.type with
  | Waypoint =>
    simp only [names_in, hty, if_true, decide_eq_true_eq] at h
    have hlt : List.indexOf p.index md.waypoint_indices < md.waypoints.length := by
      rw [hs.len_wp]
      exact List.indexOf_lt_length.2 h
    simp [primitive_in, hty, h, List.getElem?_eq_getElem hlt]
  | Lane =>
    simp only [names_in, hty, hnl, if_false, Bool.or_eq_true, decide_eq_true_eq] at h
    by_cases hb : p.index ∈ md.bi_indices
    · have hlt : List.indexOf p.index md.bi_indices < md.bi_lanes.length := by
        rw [hs.len_bi]
        exact List.indexOf_lt_length.2 hb
      simp [primitive_in, hty, hb, List.getElem?_eq_getElem hlt]
    · have hm : p.index ∈ md.mono_indices := by
        rcases h with h | h
        · exact absurd h hb
        · exact h
      have hlt : List.indexOf p.index md.mono_indices < md.mono_lanes.length := by
        rw [hs.len_mono]
        exact List.indexOf_lt_length.2 hm
      simp [primitive_in, hty, hb, hm, List.getElem?_eq_getElem hlt]

theorem primitive_of_of_names (data : List (String × MapData)) (p : Pick)
    (h : DataShape data) (hn : names_primitive data p) :
    ∃ prim, primitive_of data p = some prim := by
  obtain ⟨e, he, hne⟩ := hn
  have : (primitive_of data p).isSome = true := by
    rw [primitive_of, List.findSome?_isSome_iff]
    exact ⟨e, he, primitive_in_isSome e.2 p (h.shape e he) hne⟩
  exact Option.isSome_iff_exists.1 this

theorem primitive_in_default (md : MapData) (p : Pick) (prim : Primitive)
    (hd : AllDefault md) (h : primitive_in md p = some prim) : prim.is_default = true := by
  simp only [primitive_in] at h
  split at h
  · split at h
    · cases hc : md.waypoints[List.indexOf p.index md.waypoint_indices]? with
      | none => simp [hc] at h
      | some c =>
        simp only [hc, Option.map_some', Option.some.injEq] at h
        subst h
        simp [Primitive.is_default, hd.wp c (List.getElem?_mem hc)]
    · cases h
  · split at h
    · cases hc : md.bi_lanes[List.indexOf p.index md.bi_indices]? with
      | none => simp [hc] at h
      | some c =>
        simp only [hc, Option.map_some', Option.some.injEq] at h
        subst h
        have := hd.bi c (List.getElem?_mem hc)
        simp [Primitive.is_default, this.1, this.2]
    · split at h
      · cases hc : md.mono_lanes[List.indexOf p.index md.mono_indices]? with
        | none => simp [hc] at h
        | some c =>
          simp only [hc, Option.map_some', Option.some.injEq] at h
          subst h
          have := hd.mono c (List.getElem?_mem hc)
          simp [Primitive.is_default, this.1, this.2]
      · cases h

theorem primitive_of_default (data : List (String × MapData)) (p : Pick) (prim : Primitive)
    (hd : ∀ e ∈ data, AllDefault e.2) (h : primitive_of data p = some prim) :
    prim.is_default = true := by
  obtain ⟨e, he, hp⟩ := List.exists_of_findSome?_eq_some h
  exact primitive_in_default e.2 p prim (hd e he) hp

theorem recolor_is_highlight (prim : Primitive) :
    (prim.recolor Color.Cyan Color.Yellow Color.Magenta).is_highlight = true := by
  cases prim <;>
    simp [Primitive.recolor, Primitive.is_highlight, Capsule.set_start_color,
      Capsule.set_end_color]

/-- The buckets after `select(chosen)`, on well-shaped buckets: the previous selection is
painted with the default colours, then the chosen pick with the highlight colours. -/
theorem select_data (s : Implementation) (chosen : Pick) (h : DataShape s.data) :
    (select s chosen).selected = some chosen ∧
    (select s chosen).data =
      (match s.selected with
        | some previous =>
          s.data.map (fun (e : String × MapData) =>
            (e.1, paint previous LaneEntryColor LaneExitColor WaypointColor e.2))
        | none => s.data).map
        (fun (e : String × MapData) =>
          (e.1, paint chosen Color.Cyan Color.Yellow Color.Magenta e.2)) := by
  cases hsel : s.selected with
  | none =>
    simp only [select, hsel, highlight]
    refine ⟨(change_color_fields _ _ _ _ _).1, ?_⟩
    exact change_color_map
      ({ s with selected := some chosen } : Implementation) chosen _ _ _ h
  | some previous =>
    simp only [select, hsel, highlight, unhighlight]
    refine ⟨(change_color_fields _ _ _ _ _).1, ?_⟩
    have h1 := change_color_map s previous LaneEntryColor LaneExitColor WaypointColor h
    have hs1 : DataShape
        ({ change_color s previous LaneEntryColor LaneExitColor WaypointColor with
          selected := some chosen } : Implementation).data := by
      show DataShape (change_color s previous LaneEntryColor LaneExitColor WaypointColor).data
      rw [h1]
      exact dataShape_map_paint _ _ _ _ _ h
    rw [change_color_map _ _ _ _ _ hs1]
    show List.map _ (change_color s previous LaneEntryColor LaneExitColor WaypointColor).data = _
    rw [h1]

/-- C2: on a freshly built graph, for two different picks `a` and `b` that each name a
built primitive, `select(a)` followed by `select(b)` leaves exactly one primitive
highlighted, the primitive of `b` (with the highlight colours of its class), and the
primitive of `a` is again the primitive the builder made, with the default colours of its
class; `b` is the recorded selection. -/
theorem select_then_select (sqrtf : ℚ → ℚ) (g : rmf_traffic.agv.Graph) (w : ℚ) (a b : Pick)
    (ha : names_primitive (build sqrtf g w).data a)
    (hb : names_primitive (build sqrtf g w).data b) (hab : a ≠ b) :
    highlighted_count (select (select (build sqrtf g w) a) b).data = 1 ∧
    (∃ pb, primitive_of (select (select (build sqrtf g w) a) b).data b = some pb ∧
      pb.is_highlight = true) ∧
    (∃ pa, primitive_of (select (select (build sqrtf g w) a) b).data a = some pa ∧
      primitive_of (build sqrtf g w).data a = some pa ∧ pa.is_default = true) ∧
    selected (select (select (build sqrtf g w) a) b) = some b := by
  have hs0 := build_dataShape sqrtf g w
  have hd0 := build_allDefault sqrtf g w
  obtain ⟨hsel1, hdata1⟩ := select_data (build sqrtf g w) a hs0
  rw [build_selected] at hdata1
  simp only at hdata1
  have hs1 : DataShape (select (build sqrtf g w) a).data := by
    rw [hdata1]
    exact dataShape_map_paint _ _ _ _ _ hs0
  obtain ⟨hsel2, hdata2⟩ := select_data (select (build sqrtf g w) a) b hs1
  rw [hsel1] at hdata2
  simp only at hdata2
  rw [hdata1, map_paint_revert a _ _ _ _ hs0 hd0] at hdata2
  obtain ⟨pa, hpa⟩ := primitive_of_of_names _ a hs0 ha
  obtain ⟨pb, hpb⟩ := primitive_of_of_names _ b hs0 hb
  refine ⟨?_, ?_, ?_, hsel2⟩
  · rw [hdata2]
    exact highlighted_count_paint b _ hs0 hd0 hb
  · refine ⟨pb.recolor Color.Cyan Color.Yellow Color.Magenta, ?_, recolor_is_highlight pb⟩
    rw [hdata2, primitive_of_paint_self b _ _ _ _ hs0, hpb]
    rfl
  · refine ⟨pa, ?_, hpa, primitive_of_default _ a pa hd0 hpa⟩
    rw [hdata2, primitive_of_paint_other b a _ _ _ _ hs0 hab, hpa]

theorem select_then_select_witness :
    highlighted_count (select (select (build Samples.sample_sqrt Samples.two_way_graph 2)
      ⟨ElementType.Waypoint, 1⟩) ⟨ElementType.Lane, 0⟩).data = 1 ∧
    (∃ pb, primitive_of (select (select (build Samples.sample_sqrt Samples.two_way_graph 2)
        ⟨ElementType.Waypoint, 1⟩) ⟨ElementType.Lane, 0⟩).data ⟨ElementType.Lane, 0⟩ = some pb ∧
      pb.is_highlight = true) ∧
    (∃ pa, primitive_of (select (select (build Samples.sample_sqrt Samples.two_way_graph 2)
        ⟨ElementType.Waypoint, 1⟩) ⟨ElementType.Lane, 0⟩).data ⟨ElementType.Waypoint, 1⟩ =
        some pa ∧
      primitive_of (build Samples.sample_sqrt Samples.two_way_graph 2).data
        ⟨ElementType.Waypoint, 1⟩ = some pa ∧ pa.is_default = true) ∧
    selected (select (select (build Samples.sample_sqrt Samples.two_way_graph 2)
      ⟨ElementType.Waypoint, 1⟩) ⟨ElementType.Lane, 0⟩) = some ⟨ElementType.Lane, 0⟩ :=
  select_then_select Samples.sample_sqrt Samples.two_way_graph 2
    ⟨ElementType.Waypoint, 1⟩ ⟨ElementType.Lane, 0⟩
    ⟨("L1", UMap.get "L1" (build Samples.sample_sqrt Samples.two_way_graph 2).data),
      by decide!, by decide!⟩
    ⟨("L1", UMap.get "L1" (build Samples.sample_sqrt Samples.two_way_graph 2).data),
      by decide!, by decide!⟩
    (by decide)

end Graph
end draw
end rmf_planner_viz

namespace rmf_planner_viz
namespace draw
namespace Graph
namespace Implementation

open rmf_traffic.agv (Waypoint Lane)

/-! ### The parallel sequences of a bucket -/

theorem map_some_eq_map_at {α : Type} (xs : List α) (is : List Nat) (f : Nat → Option α)
    (h : xs.map some = is.map f) (pos i : Nat) (hi : is[pos]? = some i) :
    ∃ x, xs[pos]? = some x ∧ f i = some x := by
  have h1 : (xs.map some)[pos]? = (is.map f)[pos]? := by rw [h]
  rw [List.getElem?_map, List.getElem?_map, hi] at h1
  cases hx : xs[pos]? with
  | none => simp [hx] at h1
  | some x =>
    simp only [hx, Option.map_some', Option.some.injEq] at h1
    exact ⟨x, rfl, h1.symm⟩

theorem lane_from_isSome_iff (g : rmf_traffic.agv.Graph) (a b : Nat) :
    (g.lane_from a b).isSome = true ↔ ∃ r ∈ g.lanes, r.entry.val = a ∧ r.exit.val = b := by
  simp [rmf_traffic.agv.Graph.lane_from, List.find?_isSome]

theorem has_reverse_iff (g : rmf_traffic.agv.Graph) (l : Lane g.waypoints.length) :
    has_reverse g l ↔ (g.lane_from l.exit.val l.entry.val).isSome = true := by
  rw [lane_from_isSome_iff]
  constructor
  · rintro ⟨r, hr, h1, h2⟩
    exact ⟨r, hr, by rw [h1], by rw [h2]⟩
  · rintro ⟨r, hr, h1, h2⟩
    exact ⟨r, hr, Fin.ext h1, Fin.ext h2⟩

/-- C13: after construction, in every floor bucket, `bi_lanes` and `bi_indices` have
equal length and `mono_lanes` and `mono_indices` have equal length; the index recorded at
a position of `bi_indices` (of `mono_indices`) is the index of a lane of the source graph,
the capsule at the same position starts at the position of the entry waypoint of that lane
and ends at the position of its exit waypoint, and the lane has a reverse lane in the
graph when it is recorded in `bi_indices` and has none when it is recorded in
`mono_indices`. -/
theorem lane_indices_name_source_lanes (sqrtf : ℚ → ℚ) (g : rmf_traffic.agv.Graph) (w : ℚ)
    (e : String × MapData) (he : e ∈ (build sqrtf g w).data) :
    e.2.bi_lanes.length = e.2.bi_indices.length ∧
    e.2.mono_lanes.length = e.2.mono_indices.length ∧
    (∀ pos i : Nat, e.2.bi_indices[pos]? = some i →
      ∃ (l : Lane g.waypoints.length) (c : Capsule),
        g.lanes[i]? = some l ∧ e.2.bi_lanes[pos]? = some c ∧
        c.v0.position = (g.get_waypoint l.entry).location ∧
        c.v1.position = (g.get_waypoint l.exit).location ∧ has_reverse g l) ∧
    (∀ pos i : Nat, e.2.mono_indices[pos]? = some i →
      ∃ (l : Lane g.waypoints.length) (c : Capsule),
        g.lanes[i]? = some l ∧ e.2.mono_lanes[pos]? = some c ∧
        c.v0.position = (g.get_waypoint l.entry).location ∧
        c.v1.position = (g.get_waypoint l.exit).location ∧ ¬ has_reverse g l) := by
  have hg := build_geo sqrtf g w e he
  have hlens := bucketGeo_lengths hg
  refine ⟨hlens.1, hlens.2.1, ?_, ?_⟩
  · intro pos i hi
    obtain ⟨c, hc, hcap⟩ := map_some_eq_map_at _ _ _ hg.bi_lanes_eq pos i hi
    obtain ⟨_, l, hl, _, _, hrev⟩ := hg.bi_rec i (List.getElem?_mem hi)
    simp only [capsule_at, hl, Option.map_some', Option.some.injEq] at hcap
    refine ⟨l, c, hl, hc, ?_, ?_, (has_reverse_iff g l).2 hrev⟩
    · rw [← hcap]; rfl
    · rw [← hcap]; rfl
  · intro pos i hi
    obtain ⟨c, hc, hcap⟩ := map_some_eq_map_at _ _ _ hg.mono_lanes_eq pos i hi
    obtain ⟨_, l, hl, _, _, hrev⟩ := hg.mono_rec i (List.getElem?_mem hi)
    simp only [capsule_at, hl, Option.map_some', Option.some.injEq] at hcap
    refine ⟨l, c, hl, hc, ?_, ?_, ?_⟩
    · rw [← hcap]; rfl
    · rw [← hcap]; rfl
    · intro h
      rw [has_reverse_iff, hrev] at h
      exact Bool.noConfusion h

theorem lane_indices_name_source_lanes_witness :
    (UMap.get "L1" (build Samples.sample_sqrt Samples.two_way_graph 2).data).bi_lanes.length =
      (UMap.get "L1" (build Samples.sample_sqrt Samples.two_way_graph 2).data).bi_indices.length ∧
    (UMap.get "L1" (build Samples.sample_sqrt Samples.two_way_graph 2).data).bi_indices = [0] :=
  ⟨(lane_indices_name_source_lanes Samples.sample_sqrt Samples.two_way_graph 2
      ("L1", UMap.get "L1" (build Samples.sample_sqrt Samples.two_way_graph 2).data)
      (by decide!)).1, by decide!⟩

end Implementation
end Graph
end draw
end rmf_planner_viz

namespace rmf_planner_viz
namespace draw
namespace Graph

open rmf_traffic.agv (Waypoint Lane)
open Implementation

/-! ### The floor names -/

theorem foldl_push_keys (data : List (String × MapData)) (acc : List String) :
    data.foldl (fun names s => names ++ [s.1]) acc = acc ++ UMap.keys data := by
  induction data generalizing acc with
  | nil => simp [UMap.keys]
  | cons e rest ih =>
    rw [List.foldl_cons, ih]
    simp [UMap.keys]

theorem get_map_names_eq (s : Implementation) : get_map_names s = UMap.keys s.data := by
  rw [get_map_names, foldl_push_keys]
  rfl

/-- The floors of the built buckets are the floor labels of the waypoints of the graph. -/
theorem Implementation.build_keys (sqrtf : ℚ → ℚ) (g : rmf_traffic.agv.Graph) (w : ℚ) :
    (UMap.keys (build sqrtf g w).data).Nodup ∧
    ∀ n, n ∈ UMap.keys (build sqrtf g w).data ↔ ∃ wp ∈ g.waypoints, wp.map_name = n := by
  have ht := textInv_lane_state sqrtf g w g.num_lanes
  rw [← build_data] at ht
  refine ⟨ht.keys_nodup, fun n => ⟨fun hn => ?_, ?_⟩⟩
  · rw [ht.keys_eq] at hn
    obtain ⟨j, wp, _, hj, hname⟩ := (waypoint_loop_inv g g.num_waypoints).keys_floor n hn
    exact ⟨wp, List.getElem?_mem hj, hname⟩
  · rintro ⟨wp, hwp, rfl⟩
    obtain ⟨j, hj, hget⟩ := List.getElem_of_mem hwp
    obtain ⟨md, hmd, _⟩ := ht.text j wp (by rw [List.getElem?_eq_getElem hj, hget])
    exact UMap.mem_keys_of_find? hmd

/-- C15: `get_map_names()` on a built graph returns the floor label of every waypoint of
the source graph exactly once, and every string it returns is the floor label of a
waypoint of the source graph; floors without lanes are included, as on the sample of two
waypoints and no lane. -/
theorem get_map_names_are_the_floor_labels (sqrtf : ℚ → ℚ) (g : rmf_traffic.agv.Graph)
    (w : ℚ) :
    (∀ wp ∈ g.waypoints, (get_map_names (build sqrtf g w)).count wp.map_name = 1) ∧
    (∀ n ∈ get_map_names (build sqrtf g w), ∃ wp ∈ g.waypoints, wp.map_name = n) ∧
    (get_map_names (build sqrtf g w)).Nodup ∧
    get_map_names (build Samples.sample_sqrt
      (⟨Samples.two_waypoints, ([] : List (Lane 2))⟩ : rmf_traffic.agv.Graph) 2) = ["L1"] := by
  obtain ⟨hnd, hmem⟩ := build_keys sqrtf g w
  rw [get_map_names_eq]
  refine ⟨fun wp hwp => ?_, fun n hn => (hmem n).1 hn, hnd, by decide!⟩
  exact List.count_eq_one_of_mem hnd ((hmem _).2 ⟨wp, hwp, rfl⟩)

end Graph
end draw
end rmf_planner_viz

namespace rmf_planner_viz
namespace draw
namespace Graph

open rmf_traffic.agv (Waypoint Lane)
open Implementation

/-! ### Selection and the active floor -/

theorem change_color_floor (s : Implementation) (cm : Option String) (p : Pick)
    (ce cx cw : Color) :
    change_color { s with current_map := cm } p ce cx cw =
      { change_color s p ce cx cw with current_map := cm } := by
  unfold change_color
  split <;> rfl

/-- The call `select` never reads the active floor. -/
theorem select_floor (s : Implementation) (cm : Option String) (p : Pick) :
    select { s with current_map := cm } p = { select s p with current_map := cm } := by
  obtain ⟨lw, data, cm0, b, sel⟩ := s
  cases sel with
  | none =>
    simp only [select, highlight, change_color]
    split <;> rfl
  | some q =>
    simp only [select, highlight, unhighlight, change_color]
    split <;> split <;> rfl

theorem choose_map_fields (s : Implementation) (name : String) :
    (choose_map s name).1.data = s.data ∧ (choose_map s name).1.selected = s.selected ∧
    (choose_map s name).1.bounds = s.bounds ∧ (choose_map s name).1.lane_width = s.lane_width := by
  unfold choose_map
  split <;> exact ⟨rfl, rfl, rfl, rfl⟩

/-- C14: on a built graph, whatever the active floor `cm` (a floor or none), `select` of
a pick that names a built primitive leaves that primitive, searched over all buckets, in
its highlight colours, and the buckets after `select` do not depend on the active floor;
`choose_map` changes nothing but the active floor (buckets, hence all colours, the
selection, the bounds and the lane width are kept), so the primitive is still in its
highlight colours, and still selected, after two further `choose_map` calls. -/
theorem select_is_floor_independent (sqrtf : ℚ → ℚ) (g : rmf_traffic.agv.Graph) (w : ℚ)
    (p : Pick) (cm : Option String) (hp : names_primitive (build sqrtf g w).data p) :
    (∃ prim, primitive_of (select { build sqrtf g w with current_map := cm } p).data p =
        some prim ∧ prim.is_highlight = true) ∧
    (select { build sqrtf g w with current_map := cm } p).data =
      (select (build sqrtf g w) p).data ∧
    (∀ (s : Implementation) (name : String),
      (choose_map s name).1.data = s.data ∧ selected (choose_map s name).1 = selected s ∧
      (choose_map s name).1.bounds = s.bounds ∧
      (choose_map s name).1.lane_width = s.lane_width) ∧
    (∀ away back : String,
      (∃ prim, primitive_of (choose_map (choose_map
          (select { build sqrtf g w with current_map := cm } p) away).1 back).1.data p =
        some prim ∧ prim.is_highlight = true) ∧
      selected (choose_map (choose_map
        (select { build sqrtf g w with current_map := cm } p) away).1 back).1 = some p) := by
  have hs0 := build_dataShape sqrtf g w
  obtain ⟨hsel1, hdata1⟩ := select_data (build sqrtf g w) p hs0
  rw [build_selected] at hdata1
  simp only at hdata1
  obtain ⟨prim, hprim⟩ := primitive_of_of_names _ p hs0 hp
  have hfl : (select { build sqrtf g w with current_map := cm } p).data =
      (select (build sqrtf g w) p).data := by
    rw [select_floor]
  have hsl : (select { build sqrtf g w with current_map := cm } p).selected = some p := by
    rw [select_floor]
    exact hsel1
  have hhi : ∃ prim, primitive_of (select { build sqrtf g w with current_map := cm } p).data p =
      some prim ∧ prim.is_highlight = true := by
    refine ⟨prim.recolor Color.Cyan Color.Yellow Color.Magenta, ?_, recolor_is_highlight prim⟩
    rw [hfl, hdata1, primitive_of_paint_self p _ _ _ _ hs0, hprim]
    rfl
  refine ⟨hhi, hfl, fun s name => choose_map_fields s name, fun away back => ⟨?_, ?_⟩⟩
  · rw [(choose_map_fields _ back).1, (choose_map_fields _ away).1]
    exact hhi
  · show (choose_map (choose_map _ away).1 back).1.selected = some p
    rw [(choose_map_fields _ back).2.1, (choose_map_fields _ away).2.1]
    exact hsl

theorem select_is_floor_independent_witness :
    ∃ prim, primitive_of (select { build Samples.sample_sqrt Samples.two_floor_graph 2 with
        current_map := some "L1" } ⟨ElementType.Waypoint, 3⟩).data ⟨ElementType.Waypoint, 3⟩ =
      some prim ∧ prim.is_highlight = true :=
  (select_is_floor_independent Samples.sample_sqrt Samples.two_floor_graph 2
    ⟨ElementType.Waypoint, 3⟩ (some "L1")
    ⟨("L2", UMap.get "L2" (build Samples.sample_sqrt Samples.two_floor_graph 2).data),
      by decide!, by decide!⟩).1

end Graph
end draw
end rmf_planner_viz

namespace rmf_planner_viz
namespace draw
namespace Graph
namespace Implementation

open rmf_traffic.agv (Waypoint Lane)

/-! ### The arrow of a one-way lane -/

end Implementation
end Graph
end draw
end rmf_planner_viz

namespace rmf_planner_viz
namespace draw
namespace Graph
namespace Implementation

open rmf_traffic.agv (Waypoint Lane)

end Implementation
end Graph
end draw
end rmf_planner_viz

namespace rmf_planner_viz
namespace draw
namespace Graph

open rmf_traffic.agv (Waypoint Lane)
open Implementation

/-! ### What every reachable state keeps -/

theorem map_modify_invariant {α β : Type} (g : α → β) (f : α → α) (l : List α) (i : Nat)
    (h : ∀ c, g (f c) = g c) : (l.modify f i).map g = l.map g := by
  apply List.ext_getElem?
  intro j
  rw [List.getElem?_map, List.getElem?_map, List.getElem?_modify]
  cases l[j]? with
  | none => rfl
  | some a =>
    by_cases hij : i = j
    · simp [hij, h]
    · simp [hij]

theorem geometry_paint (p : Pick) (ce cx cw : Color) (md : MapData) (hs : Shape md) :
    geometry (paint p ce cx cw md) = geometry md := by
  rcases paint_cases p ce cx cw md hs with ⟨_, h⟩ | ⟨_, _, h⟩ | ⟨_, _, h⟩ | ⟨_, _, _, h⟩
  · rw [h]
  · rw [h]
    simp only [geometry]
    congr 1
    exact map_modify_invariant _ _ _ _ (fun c => rfl)
  · rw [h]
    simp only [geometry]
    congr 1
    exact map_modify_invariant _ _ _ _ (fun c => rfl)
  · rw [h]
    simp only [geometry]
    congr 1
    exact map_modify_invariant _ _ _ _ (fun c => rfl)

theorem geometry_set_text_size_bucket (md : MapData) (sz : Nat) :
    geometry (set_text_size_bucket md sz) = geometry md := rfl

theorem UMap.find?_map_snd {α β : Type} (F : α → β) (n : String) (data : List (String × α)) :
    UMap.find? n (data.map (fun e => (e.1, F e.2))) = (UMap.find? n data).map F := by
  induction data with
  | nil => rfl
  | cons e rest ih =>
    obtain ⟨k, v⟩ := e
    simp only [List.map_cons, UMap.find?]
    split
    · rfl
    · exact ih

theorem UMap.keys_map_snd {α β : Type} (F : α → β) (data : List (String × α)) :
    UMap.keys (data.map (fun e => (e.1, F e.2))) = UMap.keys data := by
  simp [UMap.keys, List.map_map, Function.comp_def]

theorem map_geometry_map (F : MapData → MapData) (data : List (String × MapData))
    (h : ∀ e ∈ data, geometry (F e.2) = geometry e.2) :
    (data.map (fun e => (e.1, F e.2))).map (fun e => (e.1, geometry e.2)) =
      data.map (fun e => (e.1, geometry e.2)) := by
  rw [List.map_map]
  apply List.map_congr_left
  intro e he
  simp only [Function.comp_apply]
  rw [h e he]

theorem shape_of_geometry (a b : MapData) (h : geometry a = geometry b)
    (hl : a.waypoints.length = b.waypoints.length ∧ a.bi_lanes.length = b.bi_lanes.length ∧
      a.mono_lanes.length = b.mono_lanes.length) (hs : Shape b) : Shape a := by
  have h2 : a.waypoint_indices = b.waypoint_indices := congrArg Geometry.waypoint_indices h
  have h3 : a.bi_indices = b.bi_indices := congrArg Geometry.bi_indices h
  have h4 : a.mono_indices = b.mono_indices := congrArg Geometry.mono_indices h
  exact ⟨by rw [hl.1, h2]; exact hs.len_wp, by rw [hl.2.1, h3]; exact hs.len_bi,
    by rw [hl.2.2, h4]; exact hs.len_mono, by rw [h2]; exact hs.nd_wp,
    by rw [h3, h4]; exact hs.nd_lanes⟩

theorem names_in_of_geometry (a b : MapData) (h : geometry a = geometry b) (p : Pick) :
    names_in a p = names_in b p := by
  have h2 : a.waypoint_indices = b.waypoint_indices := congrArg Geometry.waypoint_indices h
  have h3 : a.bi_indices = b.bi_indices := congrArg Geometry.bi_indices h
  have h4 : a.mono_indices = b.mono_indices := congrArg Geometry.mono_indices h
  simp only [names_in, h2, h3, h4]

theorem dataShape_map_set_text_size (sz : Nat) (data : List (String × MapData))
    (h : DataShape data) :
    DataShape (data.map (fun e => (e.1, set_text_size_bucket e.2 sz))) := by
  constructor
  · intro e he
    obtain ⟨e0, he0, rfl⟩ := List.mem_map.1 he
    exact shape_of_geometry _ _ (geometry_set_text_size_bucket e0.2 sz) ⟨rfl, rfl, rfl⟩
      (h.shape e0 he0)
  · intro p
    rw [List.pairwise_map]
    exact (h.exclusive p).imp (fun hab => hab)

end Graph
end draw
end rmf_planner_viz

namespace rmf_planner_viz
namespace draw
namespace Graph
namespace Implementation

open rmf_traffic.agv (Waypoint Lane)

/-! ### The floor that is active after the construction -/

/-- A pair that the lane loop has marked as used comes from a same-floor lane already
visited and filed, which joins the pair in one of the two directions. -/
theorem used_lane_origin (sqrtf : ℚ → ℚ) (g : rmf_traffic.agv.Graph) (w : ℚ) (k a b : Nat)
    (hu : (a, b) ∈ (lane_state sqrtf g w k).used_lanes) :
    ∃ i l, i < k ∧ g.lanes[i]? = some l ∧
      (g.get_waypoint l.entry).map_name = (g.get_waypoint l.exit).map_name ∧
      ((l.entry.val = a ∧ l.exit.val = b) ∨ (l.entry.val = b ∧ l.exit.val = a)) ∧
      (Recorded MapData.bi_indices (lane_state sqrtf g w k).impl.data i ∨
        Recorded MapData.mono_indices (lane_state sqrtf g w k).impl.data i) := by
  obtain ⟨i, l, hil, hrec⟩ := recorded_of_used sqrtf g w k _ _ hu
  have hilt : i < k := by
    rcases hrec with ⟨h1 | h1, _⟩ | ⟨h1, _⟩
    · exact recorded_bi_lt _ _ _ _ _ h1
    · exact recorded_mono_lt _ _ _ _ _ h1
    · exact recorded_bi_lt _ _ _ _ _ h1
  have hxl : (g.get_waypoint l.entry).map_name = (g.get_waypoint l.exit).map_name := by
    have hgeo := geo_lane_state sqrtf g w k
    rcases hrec with ⟨⟨n, md, hf, hi⟩ | ⟨n, md, hf, hi⟩, _⟩ | ⟨⟨n, md, hf, hi⟩, _⟩
    · obtain ⟨_, l2, hl2, a, b, _⟩ := (hgeo n md hf).bi_rec i hi
      rw [hil] at hl2; cases hl2; exact a.trans b.symm
    · obtain ⟨_, l2, hl2, a, b, _⟩ := (hgeo n md hf).mono_rec i hi
      rw [hil] at hl2; cases hl2; exact a.trans b.symm
    · obtain ⟨_, l2, hl2, a, b, _⟩ := (hgeo n md hf).bi_rec i hi
      rw [hil] at hl2; cases hl2; exact a.trans b.symm
  refine ⟨i, l, hilt, hil, hxl, ?_, ?_⟩
  · rcases hrec with ⟨_, e1, e2⟩ | ⟨_, e1, e2⟩
    · exact Or.inl ⟨e1, e2⟩
    · exact Or.inr ⟨e1, e2⟩
  · rcases hrec with ⟨h1, _⟩ | ⟨h1, _⟩
    · exact h1
    · exact Or.inl h1

theorem mem_take_of_getElem? {α : Type} (l : List α) (k i : Nat) (x : α) (hi : i < k)
    (hx : l[i]? = some x) : x ∈ l.take k := by
  rw [List.mem_iff_getElem?]
  exact ⟨i, by rw [List.getElem?_take_of_lt hi]; exact hx⟩

/-- After `k` rounds of the lane loop the active floor is the floor of the entry of the
first same-floor lane among the first `k` lanes. -/
theorem lane_state_current_map (sqrtf : ℚ → ℚ) (g : rmf_traffic.agv.Graph) (w : ℚ) (k : Nat) :
    (lane_state sqrtf g w k).impl.current_map =
      ((g.lanes.take k).find? (same_floor g)).map
        (fun l => (g.get_waypoint l.entry).map_name) := by
  induction k with
  | zero => rfl
  | succ k ih =>
    cases hl : g.lanes[k]? with
    | none =>
      rw [lane_state_past _ _ _ _ hl, ih]
      have hlen : g.lanes.length ≤ k := by
        by_contra hlt
        push_neg at hlt
        rw [List.getElem?_eq_getElem hlt] at hl
        exact Option.noConfusion hl
      rw [List.take_of_length_le hlen, List.take_of_length_le (Nat.le_succ_of_le hlen)]
    | some lane =>
      rw [List.take_succ, hl, List.find?_append]
      rcases lane_state_cases sqrtf g w k lane hl with ⟨hx, h⟩ | ⟨hx, hu, h⟩ | ⟨hx, _, h⟩
      · rw [h]
        simp only [Option.toList, List.find?, same_floor, hx, decide_False, Option.or_none]
        exact ih
      · rw [h, ih]
        obtain ⟨i, l, hilt, hil, hxl, _, _⟩ := used_lane_origin sqrtf g w k _ _ hu
        have hsome : ((g.lanes.take k).find? (same_floor g)).isSome = true := by
          rw [List.find?_isSome]
          exact ⟨l, mem_take_of_getElem? _ _ _ _ hilt hil, by simp [same_floor, hxl]⟩
        obtain ⟨l0, hl0⟩ := Option.isSome_iff_exists.1 hsome
        rw [hl0]
        rfl
      · rw [h]
        simp only [ih]
        cases hfind : (g.lanes.take k).find? (same_floor g) with
        | some l0 => rfl
        | none =>
          simp [Option.toList, List.find?, same_floor, hx]

theorem build_current_map (sqrtf : ℚ → ℚ) (g : rmf_traffic.agv.Graph) (w : ℚ) :
    (build sqrtf g w).current_map =
      (g.lanes.find? (same_floor g)).map (fun l => (g.get_waypoint l.entry).map_name) := by
  have h := lane_state_current_map sqrtf g w g.num_lanes
  rw [rmf_traffic.agv.Graph.num_lanes, List.take_length] at h
  exact h

end Implementation
end Graph
end draw
end rmf_planner_viz

namespace rmf_planner_viz
namespace draw
namespace Graph

open rmf_traffic.agv (Waypoint Lane)
open Implementation

theorem find?_eq_of_first {α : Type} (p : α → Bool) (l : List α) (k : Nat) (x : α)
    (hx : l[k]? = some x) (hp : p x = true)
    (hfirst : ∀ i y, i < k → l[i]? = some y → p y = false) : l.find? p = some x := by
  induction l generalizing k with
  | nil => simp at hx
  | cons a rest ih =>
    cases k with
    | zero =>
      simp only [List.getElem?_cons_zero, Option.some.injEq] at hx
      subst hx
      simp [List.find?, hp]
    | succ k =>
      have ha : p a = false := hfirst 0 a (Nat.succ_pos k) (by simp)
      simp only [List.getElem?_cons_succ] at hx
      simp only [List.find?, ha]
      exact ih k hx (fun i y hi hy => hfirst (i + 1) y (by omega) (by simpa using hy))

/-- C21: right after the construction `current_map()` is the floor label of the entry
waypoint of the first lane, in source order, whose two end points are on the same floor,
and it is empty when the graph has no same-floor lane, as for the sample with three
floors and two cross-floor lanes. -/
theorem current_map_after_construction (sqrtf : ℚ → ℚ) (g : rmf_traffic.agv.Graph) (w : ℚ) :
    (∀ (k : Nat) (lane : Lane g.waypoints.length), g.lanes[k]? = some lane →
      (g.get_waypoint lane.entry).map_name = (g.get_waypoint lane.exit).map_name →
      (∀ (i : Nat) (l : Lane g.waypoints.length), i < k → g.lanes[i]? = some l →
        (g.get_waypoint l.entry).map_name ≠ (g.get_waypoint l.exit).map_name) →
      current_map (build sqrtf g w) = some (g.get_waypoint lane.entry).map_name) ∧
    ((∀ l ∈ g.lanes, (g.get_waypoint l.entry).map_name ≠ (g.get_waypoint l.exit).map_name) →
      current_map (build sqrtf g w) = none) ∧
    current_map (build Samples.sample_sqrt Samples.lift_graph 2) = none := by
  refine ⟨fun k lane hl hx hfirst => ?_, fun hno => ?_, by decide!⟩
  · rw [current_map, build_current_map,
      find?_eq_of_first (same_floor g) g.lanes k lane hl (by simp [same_floor, hx])
        (fun i y hi hy => by simpa [same_floor] using hfirst i y hi hy)]
    rfl
  · rw [current_map, build_current_map]
    have : g.lanes.find? (same_floor g) = none := by
      rw [List.find?_eq_none]
      intro l hl
      simpa [same_floor] using hno l hl
    rw [this]
    rfl

end Graph
end draw
end rmf_planner_viz

namespace rmf_planner_viz
namespace draw
namespace Graph

open rmf_traffic.agv (Waypoint Lane)
open Implementation

theorem Implementation.build_active (sqrtf : ℚ → ℚ) (g : rmf_traffic.agv.Graph) (w : ℚ)
    (name : String) (h : (build sqrtf g w).current_map = some name) :
    name ∈ UMap.keys (build sqrtf g w).data := by
  rw [build_current_map] at h
  cases hf : g.lanes.find? (same_floor g) with
  | none => simp [hf] at h
  | some l =>
    simp only [hf, Option.map_some', Option.some.injEq] at h
    rw [(build_keys sqrtf g w).2]
    exact ⟨g.get_waypoint l.entry, List.get_mem _ _ _, h⟩

theorem select_fields (s : Implementation) (p : Pick) :
    (select s p).current_map = s.current_map ∧ (select s p).bounds = s.bounds ∧
    (select s p).lane_width = s.lane_width := by
  cases hsel : s.selected with
  | none =>
    simp only [select, hsel, highlight]
    obtain ⟨_, a, b, c⟩ := change_color_fields
      ({ s with selected := some p } : Implementation) p Color.Cyan Color.Yellow Color.Magenta
    exact ⟨a, b, c⟩
  | some q =>
    simp only [select, hsel, highlight, unhighlight]
    obtain ⟨_, a1, b1, c1⟩ := change_color_fields s q LaneEntryColor LaneExitColor WaypointColor
    obtain ⟨_, a, b, c⟩ := change_color_fields
      ({ change_color s q LaneEntryColor LaneExitColor WaypointColor with
        selected := some p } : Implementation) p Color.Cyan Color.Yellow Color.Magenta
    exact ⟨a.trans a1, b.trans b1, c.trans c1⟩

/-- The buckets after `select`, in terms of `paint`. -/
theorem select_data_paint (s : Implementation) (p : Pick) (h : DataShape s.data) :
    ∃ F : MapData → MapData, (∀ md, Shape md → Shape (F md) ∧ geometry (F md) = geometry md ∧
        ∀ q, names_in (F md) q = names_in md q) ∧
      (select s p).data = s.data.map (fun e => (e.1, F e.2)) := by
  obtain ⟨_, hd⟩ := select_data s p h
  cases hsel : s.selected with
  | none =>
    rw [hsel] at hd
    refine ⟨paint p Color.Cyan Color.Yellow Color.Magenta, fun md hs => ?_, hd⟩
    exact ⟨paint_shape _ _ _ _ _ hs, geometry_paint _ _ _ _ _ hs,
      fun q => paint_names_in _ q _ _ _ _ hs⟩
  | some prev =>
    rw [hsel] at hd
    refine ⟨fun md => paint p Color.Cyan Color.Yellow Color.Magenta
      (paint prev LaneEntryColor LaneExitColor WaypointColor md), fun md hs => ?_, ?_⟩
    · have hs1 := paint_shape prev LaneEntryColor LaneExitColor WaypointColor md hs
      refine ⟨paint_shape _ _ _ _ _ hs1, ?_, fun q => ?_⟩
      · rw [geometry_paint _ _ _ _ _ hs1, geometry_paint _ _ _ _ _ hs]
      · rw [paint_names_in _ q _ _ _ _ hs1, paint_names_in _ q _ _ _ _ hs]
    · rw [hd, List.map_map]
      rfl

theorem dataShape_map_of_frame (F : MapData → MapData) (data : List (String × MapData))
    (hF : ∀ md, Shape md → Shape (F md) ∧ geometry (F md) = geometry md ∧
      ∀ q, names_in (F md) q = names_in md q)
    (h : DataShape data) : DataShape (data.map (fun e => (e.1, F e.2))) := by
  constructor
  · intro e he
    obtain ⟨e0, he0, rfl⟩ := List.mem_map.1 he
    exact (hF e0.2 (h.shape e0 he0)).1
  · intro q
    rw [List.pairwise_iff_getElem]
    intro i j hi hj hij
    have hp := List.pairwise_iff_getElem.1 (h.exclusive q) i j
      (by simpa using hi) (by simpa using hj) hij
    simp only [List.getElem_map]
    rw [(hF _ (h.shape _ (List.getElem_mem _))).2.2 q,
      (hF _ (h.shape _ (List.getElem_mem _))).2.2 q]
    exact hp

/-- Every reachable state keeps the shape, the floors and the geometry of the
construction, a valid active floor, the bounds and the lane width. -/
theorem reachable_sound (sqrtf : ℚ → ℚ) (g : rmf_traffic.agv.Graph) (w : ℚ)
    (s : Implementation) (h : Reachable sqrtf g w s) : Sound sqrtf g w s := by
  induction h with
  | construct =>
    exact ⟨build_dataShape sqrtf g w, rfl, build_active sqrtf g w, rfl, build_lane_width sqrtf g w⟩
  | choose_map s name _ ih =>
    obtain ⟨hd, hsel, hb, hw⟩ := choose_map_fields s name
    refine ⟨by rw [hd]; exact ih.shape, by rw [hd]; exact ih.geometry, ?_,
      by rw [hb]; exact ih.bounds, by rw [hw]; exact ih.lane_width⟩
    intro n hn
    rw [hd]
    unfold choose_map at hn
    cases hf : UMap.find? name s.data with
    | none => simp [hf] at hn
    | some md =>
      simp only [hf, Option.some.injEq] at hn
      subst hn
      exact UMap.mem_keys_of_find? hf
  | select s p _ ih =>
    obtain ⟨F, hF, hd⟩ := select_data_paint s p ih.shape
    obtain ⟨hc, hb, hw⟩ := select_fields s p
    refine ⟨by rw [hd]; exact dataShape_map_of_frame F _ hF ih.shape, ?_, ?_,
      by rw [hb]; exact ih.bounds, by rw [hw]; exact ih.lane_width⟩
    · rw [hd, map_geometry_map F _ (fun e he => (hF e.2 (ih.shape.shape e he)).2.1)]
      exact ih.geometry
    · intro n hn
      rw [hd, UMap.keys_map_snd]
      exact ih.active n (hc ▸ hn)
  | deselect s _ ih =>
    exact ⟨ih.shape, ih.geometry, ih.active, ih.bounds, ih.lane_width⟩
  | set_text_size s sz _ ih =>
    refine ⟨dataShape_map_set_text_size sz _ ih.shape, ?_, ?_, ih.bounds, ih.lane_width⟩
    · show (s.data.map (fun e => (e.1, set_text_size_bucket e.2 sz))).map _ = _
      rw [map_geometry_map (fun md => set_text_size_bucket md sz) _ (fun e _ => rfl)]
      exact ih.geometry
    · intro n hn
      show n ∈ UMap.keys (s.data.map (fun e => (e.1, set_text_size_bucket e.2 sz)))
      rw [UMap.keys_map_snd (fun md => set_text_size_bucket md sz)]
      exact ih.active n hn

end Graph
end draw
end rmf_planner_viz

namespace rmf_planner_viz
namespace draw
namespace Graph

open rmf_traffic.agv (Waypoint Lane)
open Implementation

/-! ### The loops of `pick` -/

theorem pick_waypoints_total (md : MapData) (p : Vec2) (r : ℚ) (is : List Nat)
    (h : ∀ i ∈ is, i < md.waypoint_p.length ∧ i < md.waypoint_indices.length) :
    ∃ res, pick_waypoints md p r is = .ok res := by
  induction is with
  | nil => exact ⟨none, rfl⟩
  | cons i rest ih =>
    obtain ⟨h1, h2⟩ := h i (List.mem_cons_self _ _)
    simp only [pick_waypoints, List.getElem?_eq_getElem h1, List.getElem?_eq_getElem h2]
    split
    · exact ⟨_, rfl⟩
    · exact ih (fun j hj => h j (List.mem_cons_of_mem _ hj))

theorem pick_lanes_total (cp : Capsule → ℚ → ℚ → Bool) (lanes : List Capsule)
    (indices : List Nat) (p : Vec2) (is : List Nat)
    (h : ∀ i ∈ is, i < lanes.length ∧ i < indices.length) :
    ∃ res, pick_lanes cp lanes indices p is = .ok res := by
  induction is with
  | nil => exact ⟨none, rfl⟩
  | cons i rest ih =>
    obtain ⟨h1, h2⟩ := h i (List.mem_cons_self _ _)
    simp only [pick_lanes, List.getElem?_eq_getElem h1, List.getElem?_eq_getElem h2]
    split
    · exact ⟨_, rfl⟩
    · exact ih (fun j hj => h j (List.mem_cons_of_mem _ hj))

/-- No capsule of the positions contains the point: the lane loop finds nothing. -/
theorem pick_lanes_none (cp : Capsule → ℚ → ℚ → Bool) (lanes : List Capsule)
    (indices : List Nat) (p : Vec2) (is : List Nat) (hp : ∀ i ∈ is, i < lanes.length)
    (hno : ∀ i ∈ is, ∀ c, lanes[i]? = some c → cp c p.x p.y = false) :
    pick_lanes cp lanes indices p is = .ok none := by
  induction is with
  | nil => rfl
  | cons i rest ih =>
    have hi := hp i (List.mem_cons_self _ _)
    simp only [pick_lanes, List.getElem?_eq_getElem hi]
    rw [hno i (List.mem_cons_self _ _) _ (List.getElem?_eq_getElem hi)]
    simp only [Bool.false_eq_true, if_false]
    exact ih (fun j hj => hp j (List.mem_cons_of_mem _ hj))
      (fun j hj => hno j (List.mem_cons_of_mem _ hj))

/-- The lane loop over the positions `s, s+1, ...` returns the index recorded at the
first position whose capsule contains the point. -/
theorem pick_lanes_first (cp : Capsule → ℚ → ℚ → Bool) (lanes : List Capsule)
    (indices : List Nat) (p : Vec2) (len s : Nat)
    (hp : s + len ≤ lanes.length) (hi : s + len ≤ indices.length)
    (pos : Nat) (hs : s ≤ pos) (hpos : pos < s + len) (c : Capsule)
    (hc : lanes[pos]? = some c) (hn : cp c p.x p.y = true)
    (hfirst : ∀ i c1, s ≤ i → i < pos → lanes[i]? = some c1 → cp c1 p.x p.y = false) :
    ∃ j, indices[pos]? = some j ∧
      pick_lanes cp lanes indices p (List.range' s len) = .ok (some ⟨ElementType.Lane, j⟩) := by
  induction len generalizing s with
  | zero => omega
  | succ len ih =>
    have hs1 : s < lanes.length := by omega
    have hs2 : s < indices.length := by omega
    simp only [List.range'_succ, pick_lanes, List.getElem?_eq_getElem hs1,
      List.getElem?_eq_getElem hs2]
    by_cases hps : pos = s
    · subst hps
      rw [List.getElem?_eq_getElem hs1] at hc
      cases hc
      exact ⟨indices[pos], List.getElem?_eq_getElem hs2, by simp [hn]⟩
    · have hmiss : cp lanes[s] p.x p.y = false :=
        hfirst s _ (le_refl _) (by omega) (List.getElem?_eq_getElem hs1)
      obtain ⟨j, hj, hpick⟩ := ih (s + 1) (by omega) (by omega) (by omega) (by omega)
        (fun i c1 h1 h2 h3 => hfirst i c1 (by omega) h2 h3)
      refine ⟨j, hj, ?_⟩
      simp only [hmiss, Bool.false_eq_true, if_false]
      exact hpick

/-- A point outside the enlarged bounds: `pick` returns no match. -/
theorem pick_outside (cp : Capsule → ℚ → ℚ → Bool) (s : Implementation) (x y : ℚ)
    (h : outside_enlarged s.bounds s.waypoint_radius x y = true) : pick cp s x y = .ok none := by
  unfold pick
  cases s.current_map with
  | none => rfl
  | some name =>
    simp only [outside_enlarged, Bool.or_eq_true] at h
    simp only
    split
    · rfl
    · split
      · rfl
      · split
        · rfl
        · split
          · rfl
          · rename_i h1 h2 h3 h4
            rcases h with ((h | h) | h) | h
            · exact absurd h h1
            · exact absurd h h2
            · exact absurd h h3
            · exact absurd h h4

/-- A point inside the enlarged bounds, with the bucket of the active floor at hand:
`pick` is the search through the three loops. -/
theorem pick_inside (cp : Capsule → ℚ → ℚ → Bool) (s : Implementation) (x y : ℚ)
    (name : String) (md : MapData) (hc : s.current_map = some name)
    (h : outside_enlarged s.bounds s.waypoint_radius x y = false)
    (hf : UMap.find? name s.data = some md)
    (h1 : md.waypoints.length = md.waypoint_indices.length)
    (h2 : md.waypoints.length = md.waypoint_p.length) :
    pick cp s x y =
      match pick_waypoints md ⟨x, y⟩ s.waypoint_radius (List.range md.waypoints.length) with
      | .error e => .error e
      | .ok (some p) => .ok (some p)
      | .ok none =>
        match pick_lanes cp md.bi_lanes md.bi_indices ⟨x, y⟩
            (List.range md.bi_lanes.length) with
        | .error e => .error e
        | .ok (some p) => .ok (some p)
        | .ok none =>
          pick_lanes cp md.mono_lanes md.mono_indices ⟨x, y⟩
            (List.range md.mono_lanes.length) := by
  simp only [outside_enlarged, Bool.or_eq_false_iff] at h
  obtain ⟨⟨⟨b1, b2⟩, b3⟩, b4⟩ := h
  unfold pick
  simp only [hc, b1, b2, b3, b4, hf, Bool.false_eq_true, if_false]
  rw [if_neg (by simp [h1]), if_neg (by simp [h2])]

end Graph
end draw
end rmf_planner_viz

namespace rmf_planner_viz
namespace draw
namespace Graph

open rmf_traffic.agv (Waypoint Lane)
open Implementation

/-! ### The buckets of a reachable state -/

/-- A bucket of a sound state is well shaped and has the geometry of the bucket that the
construction made for the same floor. -/
theorem sound_bucket {sqrtf : ℚ → ℚ} {g : rmf_traffic.agv.Graph} {w : ℚ} {s : Implementation}
    (hs : Sound sqrtf g w s) (name : String) (md : MapData)
    (hf : UMap.find? name s.data = some md) :
    ∃ md0, UMap.find? name (build sqrtf g w).data = some md0 ∧ geometry md = geometry md0 ∧
      Shape md := by
  have h := congrArg (UMap.find? name) hs.geometry
  rw [UMap.find?_map_snd geometry, UMap.find?_map_snd geometry, hf] at h
  cases hf0 : UMap.find? name (build sqrtf g w).data with
  | none => simp [hf0] at h
  | some md0 =>
    simp only [hf0, Option.map_some', Option.some.injEq] at h
    exact ⟨md0, rfl, h, hs.shape.shape (name, md) (UMap.mem_of_find? hf)⟩

/-- In a built bucket the hit-test positions are the centres of the circles. -/
theorem Implementation.build_waypoint_p (sqrtf : ℚ → ℚ) (g : rmf_traffic.agv.Graph) (w : ℚ)
    (name : String) (md : MapData) (hf : UMap.find? name (build sqrtf g w).data = some md) :
    md.waypoint_p = md.waypoints.map CircleShape.position := by
  have hlens := bucketGeo_lengths (geo_lane_state sqrtf g w g.num_lanes name md hf)
  apply List.ext_getElem?
  intro i
  rw [List.getElem?_map]
  cases hc : md.waypoints[i]? with
  | some c =>
    rw [build_waypoint_p_of_circle sqrtf g w name md hf i c hc]
    rfl
  | none =>
    rw [List.getElem?_eq_none_iff] at hc
    show md.waypoint_p[i]? = none
    rw [List.getElem?_eq_none_iff]
    omega

/-- The lengths and the alignment that `pick` relies on, in a bucket of a sound state. -/
theorem sound_lengths {sqrtf : ℚ → ℚ} {g : rmf_traffic.agv.Graph} {w : ℚ} {s : Implementation}
    (hs : Sound sqrtf g w s) (name : String) (md : MapData)
    (hf : UMap.find? name s.data = some md) :
    md.waypoints.length = md.waypoint_indices.length ∧
    md.waypoints.length = md.waypoint_p.length ∧
    md.bi_lanes.length = md.bi_indices.length ∧
    md.mono_lanes.length = md.mono_indices.length ∧
    md.waypoint_p = md.waypoints.map CircleShape.position := by
  obtain ⟨md0, hf0, hgeo, hshape⟩ := sound_bucket hs name md hf
  have hp : md.waypoint_p = md0.waypoint_p := congrArg Geometry.waypoint_p hgeo
  have hc : md.waypoints.map (fun c => (c.position, c.radius)) =
      md0.waypoints.map (fun c => (c.position, c.radius)) := congrArg Geometry.circles hgeo
  have hpos : md.waypoints.map CircleShape.position = md0.waypoints.map CircleShape.position := by
    have := congrArg (List.map Prod.fst) hc
    simpa [List.map_map, Function.comp_def] using this
  have hp0 := build_waypoint_p sqrtf g w name md0 hf0
  have hpp : md.waypoint_p = md.waypoints.map CircleShape.position := by
    rw [hp, hp0, hpos]
  refine ⟨hshape.len_wp, ?_, hshape.len_bi, hshape.len_mono, hpp⟩
  rw [hpp, List.length_map]

/-- In a sound state `pick` returns a result. -/
theorem sound_pick_total {sqrtf : ℚ → ℚ} {g : rmf_traffic.agv.Graph} {w : ℚ}
    {s : Implementation} (hs : Sound sqrtf g w s) (cp : Capsule → ℚ → ℚ → Bool) (x y : ℚ) :
    ∃ res, pick cp s x y = .ok res := by
  cases hout : outside_enlarged s.bounds s.waypoint_radius x y with
  | true => exact ⟨none, pick_outside cp s x y hout⟩
  | false =>
    cases hc : s.current_map with
    | none => exact ⟨none, by unfold pick; rw [hc]⟩
    | some name =>
      have hkey := hs.active name hc
      obtain ⟨md, hf⟩ : ∃ md, UMap.find? name s.data = some md := by
        cases hfn : UMap.find? name s.data with
        | some md => exact ⟨md, rfl⟩
        | none =>
          rw [UMap.find?_eq_none_iff] at hfn
          exact absurd hkey hfn
      obtain ⟨l1, l2, l3, l4, _⟩ := sound_lengths hs name md hf
      rw [pick_inside cp s x y name md hc hout hf l1 l2]
      obtain ⟨r1, h1⟩ := pick_waypoints_total md ⟨x, y⟩ s.waypoint_radius
        (List.range md.waypoints.length)
        (fun i hi => by rw [List.mem_range] at hi; omega)
      obtain ⟨r2, h2⟩ := pick_lanes_total cp md.bi_lanes md.bi_indices ⟨x, y⟩
        (List.range md.bi_lanes.length) (fun i hi => by rw [List.mem_range] at hi; omega)
      obtain ⟨r3, h3⟩ := pick_lanes_total cp md.mono_lanes md.mono_indices ⟨x, y⟩
        (List.range md.mono_lanes.length) (fun i hi => by rw [List.mem_range] at hi; omega)
      rw [h1]
      cases r1 with
      | some p => exact ⟨_, rfl⟩
      | none =>
        simp only
        rw [h2]
        cases r2 with
        | some p => exact ⟨_, rfl⟩
        | none => exact ⟨r3, h3⟩

end Graph
end draw
end rmf_planner_viz

namespace rmf_planner_viz
namespace draw
namespace Graph

open rmf_traffic.agv (Waypoint Lane)
open Implementation

/-- C18: in every state reached from the construction by calls of `choose_map`, `select`,
`deselect` and `set_text_size`, `pick` returns a result and never fails, for every
capsule test and every point: when a floor is active its bucket is found, the three
waypoint sequences of that bucket have one length, and so have `bi_lanes` and
`bi_indices`, and `mono_lanes` and `mono_indices`, which keeps every indexed access of
the three loops in range. -/
theorem pick_never_fails (capsule_pick : Capsule → ℚ → ℚ → Bool) (sqrtf : ℚ → ℚ)
    (g : rmf_traffic.agv.Graph) (w : ℚ) (s : Implementation) (x y : ℚ)
    (h : Reachable sqrtf g w s) :
    (∃ res, pick capsule_pick s x y = .ok res) ∧
    (∀ name, current_map s = some name →
      ∃ md, UMap.find? name s.data = some md ∧
        md.waypoints.length = md.waypoint_indices.length ∧
        md.waypoints.length = md.waypoint_p.length ∧
        md.bi_lanes.length = md.bi_indices.length ∧
        md.mono_lanes.length = md.mono_indices.length) := by
  have hs := reachable_sound sqrtf g w s h
  refine ⟨sound_pick_total hs capsule_pick x y, fun name hc => ?_⟩
  have hkey := hs.active name hc
  cases hfn : UMap.find? name s.data with
  | none =>
    rw [UMap.find?_eq_none_iff] at hfn
    exact absurd hkey hfn
  | some md =>
    obtain ⟨l1, l2, l3, l4, _⟩ := sound_lengths hs name md hfn
    exact ⟨md, rfl, l1, l2, l3, l4⟩

theorem pick_never_fails_witness :
    ∃ res, pick Samples.every_capsule
      (set_text_size (deselect (select
        (choose_map (build Samples.sample_sqrt Samples.two_floor_graph 2) "L2").1
        ⟨ElementType.Waypoint, 1⟩)) 12) 0 5 = .ok res :=
  (pick_never_fails Samples.every_capsule Samples.sample_sqrt Samples.two_floor_graph 2
    (set_text_size (deselect (select
      (choose_map (build Samples.sample_sqrt Samples.two_floor_graph 2) "L2").1
      ⟨ElementType.Waypoint, 1⟩)) 12) 0 5
    (Reachable.set_text_size _ _ (Reachable.deselect _ (Reachable.select _ _
      (Reachable.choose_map _ _ Reachable.construct))))).1

end Graph
end draw
end rmf_planner_viz

namespace rmf_planner_viz
namespace draw
namespace Graph

open rmf_traffic.agv (Waypoint Lane)
open Implementation

theorem sound_waypoint_radius {sqrtf : ℚ → ℚ} {g : rmf_traffic.agv.Graph} {w : ℚ}
    {s : Implementation} (hs : Sound sqrtf g w s) : s.waypoint_radius = 0.30 * w := by
  rw [waypoint_radius, hs.lane_width]

/-- No circle of the bucket is within the radius: the waypoint loop finds nothing. -/
theorem pick_waypoints_no_circle (md : MapData) (x y r : ℚ)
    (hl : md.waypoints.length = md.waypoint_p.length)
    (hp : md.waypoint_p = md.waypoints.map CircleShape.position)
    (hno : ∀ circ ∈ md.waypoints, ¬ within_radius circ.position x y r) :
    pick_waypoints md ⟨x, y⟩ r (List.range md.waypoints.length) = .ok none := by
  apply pick_waypoints_none
  · intro i hi
    rw [List.mem_range] at hi
    omega
  · intro i _ c hc
    rw [hp, List.getElem?_map] at hc
    cases hcirc : md.waypoints[i]? with
    | none => simp [hcirc] at hc
    | some circ =>
      simp only [hcirc, Option.map_some', Option.some.injEq] at hc
      subst hc
      have := hno circ (List.getElem?_mem hcirc)
      rw [← norm_le_iff_within] at this
      simpa using this

theorem pick_lanes_no_capsule (cp : Capsule → ℚ → ℚ → Bool) (lanes : List Capsule)
    (indices : List Nat) (x y : ℚ) (hno : ∀ c ∈ lanes, cp c x y = false) :
    pick_lanes cp lanes indices ⟨x, y⟩ (List.range lanes.length) = .ok none := by
  apply pick_lanes_none
  · intro i hi
    rw [List.mem_range] at hi
    exact hi
  · intro i _ c hc
    exact hno c (List.getElem?_mem hc)

/-- C11: in every state reached from the construction, `pick` returns no match, and no
error, when no floor is active, when the point fails one of the four tests against the
padded bounds of the construction enlarged by the waypoint radius 0.30 x lane width, and
when, a floor being active, none of its circles is within the waypoint radius of the
point and none of its capsules, bidirectional or one-way, contains the point. -/
theorem pick_no_match (capsule_pick : Capsule → ℚ → ℚ → Bool) (sqrtf : ℚ → ℚ)
    (g : rmf_traffic.agv.Graph) (w : ℚ) (s : Implementation) (x y : ℚ)
    (h : Reachable sqrtf g w s) :
    (current_map s = none → pick capsule_pick s x y = .ok none) ∧
    (outside_enlarged (bounds (build sqrtf g w)) (0.30 * w) x y = true →
      pick capsule_pick s x y = .ok none) ∧
    (∀ name md, current_map s = some name → UMap.find? name s.data = some md →
      (∀ circ ∈ md.waypoints, ¬ within_radius circ.position x y (0.30 * w)) →
      (∀ c ∈ md.bi_lanes, capsule_pick c x y = false) →
      (∀ c ∈ md.mono_lanes, capsule_pick c x y = false) →
      pick capsule_pick s x y = .ok none) := by
  have hs := reachable_sound sqrtf g w s h
  have hout : outside_enlarged (bounds (build sqrtf g w)) (0.30 * w) x y =
      outside_enlarged s.bounds s.waypoint_radius x y := by
    rw [sound_waypoint_radius hs, hs.bounds]
    rfl
  refine ⟨fun hc => ?_, fun ho => pick_outside capsule_pick s x y (hout ▸ ho), ?_⟩
  · unfold pick
    rw [show s.current_map = none from hc]
  · intro name md hc hf hcirc hbi hmono
    cases ho : outside_enlarged s.bounds s.waypoint_radius x y with
    | true => exact pick_outside capsule_pick s x y ho
    | false =>
      obtain ⟨l1, l2, _, _, hp⟩ := sound_lengths hs name md hf
      rw [pick_inside capsule_pick s x y name md hc ho hf l1 l2, sound_waypoint_radius hs,
        pick_waypoints_no_circle md x y _ l2 hp hcirc]
      simp only
      rw [pick_lanes_no_capsule capsule_pick md.bi_lanes _ x y hbi]
      simp only
      exact pick_lanes_no_capsule capsule_pick md.mono_lanes _ x y hmono

theorem pick_no_match_witness :
    pick Samples.every_capsule
      (select (build Samples.sample_sqrt Samples.two_floor_graph 2) ⟨ElementType.Lane, 0⟩)
      100 0 = .ok none :=
  (pick_no_match Samples.every_capsule Samples.sample_sqrt Samples.two_floor_graph 2
    (select (build Samples.sample_sqrt Samples.two_floor_graph 2) ⟨ElementType.Lane, 0⟩)
    100 0 (Reachable.select _ _ Reachable.construct)).2.1 (by decide!)

end Graph
end draw
end rmf_planner_viz

namespace rmf_planner_viz
namespace draw
namespace Graph

open rmf_traffic.agv (Waypoint Lane)
open Implementation

theorem pick_lanes_first_range (cp : Capsule → ℚ → ℚ → Bool) (lanes : List Capsule)
    (indices : List Nat) (x y : ℚ) (hlen : lanes.length = indices.length)
    (pos : Nat) (c : Capsule) (hc : lanes[pos]? = some c) (hn : cp c x y = true)
    (hfirst : ∀ (i : Nat) (c1 : Capsule), i < pos → lanes[i]? = some c1 → cp c1 x y = false) :
    ∃ j, indices[pos]? = some j ∧
      pick_lanes cp lanes indices ⟨x, y⟩ (List.range lanes.length) =
        .ok (some ⟨ElementType.Lane, j⟩) := by
  have hpos : pos < lanes.length := (List.getElem?_eq_some_iff.1 hc).1
  rw [List.range_eq_range']
  exact pick_lanes_first cp lanes indices ⟨x, y⟩ lanes.length 0 (by omega) (by omega) pos
    (Nat.zero_le _) (by omega) c hc hn (fun i c1 _ h2 h3 => hfirst i c1 h2 h3)

/-- C17: in every state reached from the construction, with an active floor whose bucket
is `md`, for a point that passes the four bounds tests and is within the waypoint radius
of no circle of `md`: when a bidirectional capsule contains the point, `pick` returns a
Lane pick whose index is the entry of `bi_indices` at the position of the first such
capsule in `bi_lanes`; when no bidirectional capsule contains it and a one-way capsule
does, the index is the entry of `mono_indices` at the position of the first such capsule
in `mono_lanes`. -/
theorem lane_pick_is_first_recorded_index (capsule_pick : Capsule → ℚ → ℚ → Bool)
    (sqrtf : ℚ → ℚ) (g : rmf_traffic.agv.Graph) (w : ℚ) (s : Implementation) (x y : ℚ)
    (name : String) (md : MapData) (h : Reachable sqrtf g w s)
    (hc : current_map s = some name) (hf : UMap.find? name s.data = some md)
    (hin : outside_enlarged (bounds (build sqrtf g w)) (0.30 * w) x y = false)
    (hno : ∀ circ ∈ md.waypoints, ¬ within_radius circ.position x y (0.30 * w)) :
    (∀ (pos : Nat) (c : Capsule), md.bi_lanes[pos]? = some c → capsule_pick c x y = true →
      (∀ (i : Nat) (c1 : Capsule), i < pos → md.bi_lanes[i]? = some c1 →
        capsule_pick c1 x y = false) →
      ∃ j, md.bi_indices[pos]? = some j ∧
        pick capsule_pick s x y = .ok (some ⟨ElementType.Lane, j⟩)) ∧
    ((∀ c ∈ md.bi_lanes, capsule_pick c x y = false) →
      ∀ (pos : Nat) (c : Capsule), md.mono_lanes[pos]? = some c → capsule_pick c x y = true →
        (∀ (i : Nat) (c1 : Capsule), i < pos → md.mono_lanes[i]? = some c1 →
          capsule_pick c1 x y = false) →
        ∃ j, md.mono_indices[pos]? = some j ∧
          pick capsule_pick s x y = .ok (some ⟨ElementType.Lane, j⟩)) := by
  have hs := reachable_sound sqrtf g w s h
  have ho : outside_enlarged s.bounds s.waypoint_radius x y = false := by
    rw [sound_waypoint_radius hs, hs.bounds]
    exact hin
  obtain ⟨l1, l2, l3, l4, hp⟩ := sound_lengths hs name md hf
  have hpick := pick_inside capsule_pick s x y name md hc ho hf l1 l2
  rw [sound_waypoint_radius hs, pick_waypoints_no_circle md x y _ l2 hp hno] at hpick
  simp only at hpick
  constructor
  · intro pos c hcap hhit hfirst
    obtain ⟨j, hj, hl⟩ :=
      pick_lanes_first_range capsule_pick md.bi_lanes md.bi_indices x y l3 pos c hcap hhit hfirst
    rw [hl] at hpick
    exact ⟨j, hj, hpick⟩
  · intro hbi pos c hcap hhit hfirst
    obtain ⟨j, hj, hl⟩ :=
      pick_lanes_first_range capsule_pick md.mono_lanes md.mono_indices x y l4 pos c hcap hhit
        hfirst
    rw [pick_lanes_no_capsule capsule_pick md.bi_lanes _ x y hbi] at hpick
    simp only at hpick
    rw [hl] at hpick
    exact ⟨j, hj, hpick⟩

theorem lane_pick_is_first_recorded_index_witness :
    ∃ j, (UMap.get "L2" (build Samples.sample_sqrt Samples.two_floor_graph 2).data).mono_indices[0]? =
        some j ∧
      pick Samples.every_capsule
        (choose_map (build Samples.sample_sqrt Samples.two_floor_graph 2) "L2").1 0 (5 / 2) =
        .ok (some ⟨ElementType.Lane, j⟩) :=
  (lane_pick_is_first_recorded_index Samples.every_capsule Samples.sample_sqrt
    Samples.two_floor_graph 2
    (choose_map (build Samples.sample_sqrt Samples.two_floor_graph 2) "L2").1 0 (5 / 2) "L2"
    (UMap.get "L2" (build Samples.sample_sqrt Samples.two_floor_graph 2).data)
    (Reachable.choose_map _ _ Reachable.construct) (by decide!) (by decide!) (by decide!)
    (by
      intro circ hcirc
      have hw : (UMap.get "L2" (build Samples.sample_sqrt Samples.two_floor_graph 2).data).waypoints =
          [⟨0.30 * 2, ⟨0.30 * 2, 0.30 * 2⟩, ⟨0, 0⟩, WaypointColor⟩,
            ⟨0.30 * 2, ⟨0.30 * 2, 0.30 * 2⟩, ⟨0, 5⟩, WaypointColor⟩] := by decide!
      rw [hw] at hcirc
      simp only [List.mem_cons, List.mem_singleton, List.not_mem_nil, or_false] at hcirc
      rcases hcirc with rfl | rfl <;> (unfold within_radius; norm_num))).2
    (by decide!) 0
    (UMap.get "L2" (build Samples.sample_sqrt Samples.two_floor_graph 2).data).mono_lanes[0]
    (by decide!) (by decide!) (fun i _ hi => absurd hi (Nat.not_lt_zero i))

end Graph
end draw
end rmf_planner_viz

namespace rmf_planner_viz
namespace draw
namespace Graph

open rmf_traffic.agv (Waypoint Lane)
open Implementation

/-! ### The bounds filter of `pick` -/

theorem convex_lower (m a b t : ℚ) (ha : m ≤ a) (hb : m ≤ b) (ht0 : 0 ≤ t) (ht1 : t ≤ 1) :
    m ≤ a + (b - a) * t := by
  have h1 := mul_nonneg (sub_nonneg.2 ht1) (sub_nonneg.2 ha)
  have h2 := mul_nonneg ht0 (sub_nonneg.2 hb)
  have e : a + (b - a) * t - m = (1 - t) * (a - m) + t * (b - m) := by ring
  linarith

theorem convex_upper (m a b t : ℚ) (ha : a ≤ m) (hb : b ≤ m) (ht0 : 0 ≤ t) (ht1 : t ≤ 1) :
    a + (b - a) * t ≤ m := by
  have h1 := mul_nonneg (sub_nonneg.2 ht1) (sub_nonneg.2 ha)
  have h2 := mul_nonneg ht0 (sub_nonneg.2 hb)
  have e : m - (a + (b - a) * t) = (1 - t) * (m - a) + t * (m - b) := by ring
  linarith

/-- A point at distance at most `ρ` from a point of a segment between two end positions
of same-floor lanes passes the four bounds tests, when `ρ` is at most the padding plus
the waypoint radius. -/
theorem Implementation.bounds_cover (sqrtf : ℚ → ℚ) (g : rmf_traffic.agv.Graph) (w : ℚ)
    (p0 p1 : Vec2) (h0 : p0 ∈ endpoint_positions g) (h1 : p1 ∈ endpoint_positions g)
    (t : ℚ) (ht0 : 0 ≤ t) (ht1 : t ≤ 1) (x y ρ : ℚ) (hρ : ρ ≤ w / 2 + 0.30 * w)
    (hn : within_radius (segment_point p0 p1 t) x y ρ) :
    outside_enlarged (build sqrtf g w).bounds (0.30 * w) x y = false := by
  obtain ⟨hr, hsq⟩ := hn
  simp only [segment_point, Vec2.add, Vec2.sub, Vec2.smul] at hsq
  obtain ⟨hx1, hx2⟩ := sq_sum_le_bounds _ _ _ hr hsq
  have hsq2 : (p0.y + (p1.y - p0.y) * t - y) * (p0.y + (p1.y - p0.y) * t - y) +
      (p0.x + (p1.x - p0.x) * t - x) * (p0.x + (p1.x - p0.x) * t - x) ≤ ρ * ρ := by
    linarith
  obtain ⟨hy1, hy2⟩ := sq_sum_le_bounds _ _ _ hr hsq2
  have hne : endpoint_positions g ≠ [] := fun hnil => by rw [hnil] at h0; simp at h0
  have hnx : (endpoint_positions g).map Vec2.x ≠ [] := by simpa using hne
  have hny : (endpoint_positions g).map Vec2.y ≠ [] := by simpa using hne
  obtain ⟨mx, hmx, _, m1⟩ := foldl_extend_min_nonempty _ hnx
  obtain ⟨my, hmy, _, m2⟩ := foldl_extend_min_nonempty _ hny
  obtain ⟨Mx, hMx, _, m3⟩ := foldl_extend_max_nonempty _ hnx
  obtain ⟨My, hMy, _, m4⟩ := foldl_extend_max_nonempty _ hny
  have a1 := m1 _ (List.mem_map_of_mem Vec2.x h0)
  have a2 := m2 _ (List.mem_map_of_mem Vec2.y h0)
  have a3 := m3 _ (List.mem_map_of_mem Vec2.x h0)
  have a4 := m4 _ (List.mem_map_of_mem Vec2.y h0)
  have b1 := m1 _ (List.mem_map_of_mem Vec2.x h1)
  have b2 := m2 _ (List.mem_map_of_mem Vec2.y h1)
  have b3 := m3 _ (List.mem_map_of_mem Vec2.x h1)
  have b4 := m4 _ (List.mem_map_of_mem Vec2.y h1)
  have c1 := convex_lower mx _ _ t a1 b1 ht0 ht1
  have c2 := convex_lower my _ _ t a2 b2 ht0 ht1
  have c3 := convex_upper Mx _ _ t a3 b3 ht0 ht1
  have c4 := convex_upper My _ _ t a4 b4 ht0 ht1
  have hb : (build sqrtf g w).bounds =
      pad_bounds (lane_state sqrtf g w g.num_lanes).impl.bounds (w / 2.0) := rfl
  rw [hb, lane_state_bounds, same_floor_endpoints_all, foldl_extend_bounds]
  simp only [outside_enlarged, pad_bounds, Fit.Bounds.empty, hmx, hmy, hMx, hMy, EFloat.sub,
    EFloat.add, EFloat.lt, Bool.or_eq_false_iff, decide_eq_false_iff_not, not_lt]
  have h20 : (2.0 : ℚ) = 2 := by norm_num
  rw [h20]
  refine ⟨⟨⟨?_, ?_⟩, ?_⟩, ?_⟩ <;> linarith

/-- The end positions of a capsule of a built bucket are end positions of a same-floor
lane of the graph. -/
theorem Implementation.build_capsule_endpoints (sqrtf : ℚ → ℚ) (g : rmf_traffic.agv.Graph)
    (w : ℚ) (name : String) (md : MapData)
    (hf : UMap.find? name (build sqrtf g w).data = some md) (c : Capsule)
    (hc : c ∈ md.bi_lanes ++ md.mono_lanes) :
    c.v0.position ∈ endpoint_positions g ∧ c.v1.position ∈ endpoint_positions g ∧
    c.radius = w / 2 := by
  have hg := geo_lane_state sqrtf g w g.num_lanes name md hf
  have hlens := bucketGeo_lengths hg
  have h20 : (2.0 : ℚ) = 2 := by norm_num
  have key : ∀ (bidir : Bool) (i : Nat) (l : Lane g.waypoints.length), g.lanes[i]? = some l →
      (g.get_waypoint l.entry).map_name = name → (g.get_waypoint l.exit).map_name = name →
      i < g.num_lanes → capsule_at g w bidir i = some c →
      c.v0.position ∈ endpoint_positions g ∧ c.v1.position ∈ endpoint_positions g ∧
      c.radius = w / 2 := by
    intro bidir i l hl ha hb hi hcap
    simp only [capsule_at, hl, Option.map_some', Option.some.injEq] at hcap
    obtain ⟨m1, m2⟩ := mem_same_floor_endpoints g g.num_lanes i l hi hl (ha.trans hb.symm)
    rw [same_floor_endpoints_all] at m1 m2
    subst hcap
    exact ⟨m1, m2, by simp [capsule_of, h20]⟩
  rcases List.mem_append.1 hc with hm | hm
  · obtain ⟨pos, hpos, hget⟩ := List.getElem_of_mem hm
    have hpos2 : pos < md.bi_indices.length := by omega
    obtain ⟨c2, hc2, hcap⟩ := map_some_eq_map_at _ _ _ hg.bi_lanes_eq pos _
      (List.getElem?_eq_getElem hpos2)
    rw [List.getElem?_eq_getElem hpos, hget] at hc2
    cases hc2
    obtain ⟨hi, l, hl, ha, hb, _⟩ := hg.bi_rec _ (List.getElem_mem hpos2)
    exact key true _ l hl ha hb hi hcap
  · obtain ⟨pos, hpos, hget⟩ := List.getElem_of_mem hm
    have hpos2 : pos < md.mono_indices.length := by omega
    obtain ⟨c2, hc2, hcap⟩ := map_some_eq_map_at _ _ _ hg.mono_lanes_eq pos _
      (List.getElem?_eq_getElem hpos2)
    rw [List.getElem?_eq_getElem hpos, hget] at hc2
    cases hc2
    obtain ⟨hi, l, hl, ha, hb, _⟩ := hg.mono_rec _ (List.getElem_mem hpos2)
    exact key false _ l hl ha hb hi hcap

end Graph
end draw
end rmf_planner_viz

namespace rmf_planner_viz
namespace draw
namespace Graph

open rmf_traffic.agv (Waypoint Lane)
open Implementation

theorem sound_circle_endpoint {sqrtf : ℚ → ℚ} {g : rmf_traffic.agv.Graph} {w : ℚ}
    {s : Implementation} (hs : Sound sqrtf g w s) (name : String) (md : MapData)
    (hf : UMap.find? name s.data = some md) (circ : CircleShape) (hc : circ ∈ md.waypoints) :
    circ.position ∈ endpoint_positions g := by
  obtain ⟨md0, hf0, hgeo, _⟩ := sound_bucket hs name md hf
  have hcs : md.waypoints.map (fun c => (c.position, c.radius)) =
      md0.waypoints.map (fun c => (c.position, c.radius)) := congrArg Geometry.circles hgeo
  have hm : (circ.position, circ.radius) ∈ md0.waypoints.map (fun c => (c.position, c.radius)) := by
    rw [← hcs]
    exact List.mem_map.2 ⟨circ, hc, rfl⟩
  obtain ⟨circ0, hc0, heq⟩ := List.mem_map.1 hm
  obtain ⟨pos, hpos, hget⟩ := List.getElem_of_mem hc0
  have hp := build_waypoint_p_of_circle sqrtf g w name md0 hf0 pos circ0
    (by rw [List.getElem?_eq_getElem hpos, hget])
  obtain ⟨_, _, _, _, _, _, _, _, _, _, _, hmem⟩ := build_circle_at sqrtf g w name md0 hf0 pos _ hp
  have : circ0.position = circ.position := congrArg Prod.fst heq
  rw [← this]
  exact hmem

theorem sound_capsule_endpoints {sqrtf : ℚ → ℚ} {g : rmf_traffic.agv.Graph} {w : ℚ}
    {s : Implementation} (hs : Sound sqrtf g w s) (name : String) (md : MapData)
    (hf : UMap.find? name s.data = some md) (c : Capsule)
    (hc : c ∈ md.bi_lanes ++ md.mono_lanes) :
    c.v0.position ∈ endpoint_positions g ∧ c.v1.position ∈ endpoint_positions g ∧
    c.radius = w / 2 := by
  obtain ⟨md0, hf0, hgeo, _⟩ := sound_bucket hs name md hf
  have hb : md.bi_lanes.map (fun c => (c.v0.position, c.v1.position, c.radius)) =
      md0.bi_lanes.map (fun c => (c.v0.position, c.v1.position, c.radius)) :=
    congrArg Geometry.bi_segments hgeo
  have hm : md.mono_lanes.map (fun c => (c.v0.position, c.v1.position, c.radius)) =
      md0.mono_lanes.map (fun c => (c.v0.position, c.v1.position, c.radius)) :=
    congrArg Geometry.mono_segments hgeo
  have hmem : (c.v0.position, c.v1.position, c.radius) ∈
      (md0.bi_lanes ++ md0.mono_lanes).map
        (fun c => (c.v0.position, c.v1.position, c.radius)) := by
    rw [List.map_append, ← hb, ← hm, ← List.map_append]
    exact List.mem_map.2 ⟨c, hc, rfl⟩
  obtain ⟨c0, hc0, heq⟩ := List.mem_map.1 hmem
  obtain ⟨e1, e2, e3⟩ := build_capsule_endpoints sqrtf g w name md0 hf0 c0 hc0
  simp only [Prod.mk.injEq] at heq
  rw [← heq.1, ← heq.2.1, ← heq.2.2]
  exact ⟨e1, e2, e3⟩

end Graph
end draw
end rmf_planner_viz

namespace rmf_planner_viz
namespace draw
namespace Graph

open rmf_traffic.agv (Waypoint Lane)
open Implementation

theorem segment_point_zero (p : Vec2) : segment_point p p 0 = p := by
  simp [segment_point, Vec2.add, Vec2.sub, Vec2.smul]

/-- C20: in every state reached from the construction with a lane width that is not
negative and an active floor whose bucket is `md`: a point within the waypoint radius of
a circle of `md`, and a point within half the lane width of a point of the segment of a
capsule of `md`, passes the four bounds tests of `pick`; and `pick` returns a Waypoint
pick exactly when some circle of `md` is within the waypoint radius of the point. -/
theorem bounds_filter_hides_no_hit (capsule_pick : Capsule → ℚ → ℚ → Bool) (sqrtf : ℚ → ℚ)
    (g : rmf_traffic.agv.Graph) (w : ℚ) (s : Implementation) (x y : ℚ) (name : String)
    (md : MapData) (h : Reachable sqrtf g w s) (hw : 0 ≤ w)
    (hc : current_map s = some name) (hf : UMap.find? name s.data = some md) :
    (∀ circ ∈ md.waypoints, within_radius circ.position x y (0.30 * w) →
      outside_enlarged (bounds s) (0.30 * w) x y = false) ∧
    (∀ c ∈ md.bi_lanes ++ md.mono_lanes, ∀ t : ℚ, 0 ≤ t → t ≤ 1 →
      within_radius (segment_point c.v0.position c.v1.position t) x y (w / 2) →
      outside_enlarged (bounds s) (0.30 * w) x y = false) ∧
    ((∃ j, pick capsule_pick s x y = .ok (some ⟨ElementType.Waypoint, j⟩)) ↔
      ∃ circ ∈ md.waypoints, within_radius circ.position x y (0.30 * w)) := by
  have hs := reachable_sound sqrtf g w s h
  have hb : bounds s = (build sqrtf g w).bounds := hs.bounds
  have hr := sound_waypoint_radius hs
  obtain ⟨l1, l2, l3, l4, hp⟩ := sound_lengths hs name md hf
  have part1 : ∀ circ ∈ md.waypoints, within_radius circ.position x y (0.30 * w) →
      outside_enlarged (bounds s) (0.30 * w) x y = false := by
    intro circ hcirc hin
    have hmem := sound_circle_endpoint hs name md hf circ hcirc
    rw [hb]
    refine bounds_cover sqrtf g w _ _ hmem hmem 0 (le_refl _) (by norm_num) x y (0.30 * w)
      (by linarith) ?_
    rw [segment_point_zero]
    exact hin
  refine ⟨part1, ?_, ?_, ?_⟩
  · intro c hcap t ht0 ht1 hin
    obtain ⟨e0, e1, _⟩ := sound_capsule_endpoints hs name md hf c hcap
    rw [hb]
    exact bounds_cover sqrtf g w _ _ e0 e1 t ht0 ht1 x y (w / 2) (by linarith) hin
  · rintro ⟨j, hj⟩
    cases ho : outside_enlarged s.bounds s.waypoint_radius x y with
    | true =>
      rw [pick_outside capsule_pick s x y ho] at hj
      cases hj
    | false =>
      rw [pick_inside capsule_pick s x y name md hc ho hf l1 l2, hr] at hj
      cases hwp : pick_waypoints md ⟨x, y⟩ (0.30 * w) (List.range md.waypoints.length) with
      | error e =>
        rw [hwp] at hj
        cases hj
      | ok r =>
        cases r with
        | some q =>
          obtain ⟨i, _, c, hci, hn, _, _⟩ := pick_waypoints_sound _ _ _ _ _ hwp
          rw [hp, List.getElem?_map] at hci
          cases hcirc : md.waypoints[i]? with
          | none => simp [hcirc] at hci
          | some circ =>
            simp only [hcirc, Option.map_some', Option.some.injEq] at hci
            refine ⟨circ, List.getElem?_mem hcirc, ?_⟩
            rw [hci]
            exact (norm_le_iff_within _ _ _ _).1 hn
        | none =>
          rw [hwp] at hj
          simp only at hj
          cases hbi : pick_lanes capsule_pick md.bi_lanes md.bi_indices ⟨x, y⟩
              (List.range md.bi_lanes.length) with
          | error e =>
            rw [hbi] at hj
            cases hj
          | ok r =>
            cases r with
            | some q =>
              obtain ⟨_, _, _, _, _, _, hty⟩ := pick_lanes_sound _ _ _ _ _ _ hbi
              rw [hbi] at hj
              simp only [Except.ok.injEq, Option.some.injEq] at hj
              rw [hj] at hty
              cases hty
            | none =>
              rw [hbi] at hj
              simp only at hj
              obtain ⟨_, _, _, _, _, _, hty⟩ := pick_lanes_sound _ _ _ _ _ _ hj
              cases hty
  · rintro ⟨circ, hcirc, hin⟩
    have ho : outside_enlarged s.bounds s.waypoint_radius x y = false := by
      rw [hr]
      exact part1 circ hcirc hin
    obtain ⟨pos, hpos, hget⟩ := List.getElem_of_mem hcirc
    have hpp : md.waypoint_p[pos]? = some circ.position := by
      rw [hp, List.getElem?_map, List.getElem?_eq_getElem hpos, hget]
      rfl
    obtain ⟨_, _, j0, _, _, _, _, _, _, hpick⟩ :=
      pick_waypoints_range' md ⟨x, y⟩ (0.30 * w) md.waypoints.length 0
        (by omega) (by omega) pos (Nat.zero_le _) (by omega) _ hpp
        ((norm_le_iff_within _ _ _ _).2 hin)
    rw [← List.range_eq_range'] at hpick
    refine ⟨j0, ?_⟩
    rw [pick_inside capsule_pick s x y name md hc ho hf l1 l2, hr, hpick]

theorem bounds_filter_hides_no_hit_witness :
    (∃ j, pick Samples.every_capsule
        (choose_map (build Samples.sample_sqrt Samples.two_floor_graph 2) "L2").1 0 (9 / 2) =
        .ok (some ⟨ElementType.Waypoint, j⟩)) ↔
      ∃ circ ∈ (UMap.get "L2" (build Samples.sample_sqrt Samples.two_floor_graph 2).data).waypoints,
        within_radius circ.position 0 (9 / 2) (0.30 * 2) :=
  (bounds_filter_hides_no_hit Samples.every_capsule Samples.sample_sqrt Samples.two_floor_graph
    2 (choose_map (build Samples.sample_sqrt Samples.two_floor_graph 2) "L2").1 0 (9 / 2) "L2"
    (UMap.get "L2" (build Samples.sample_sqrt Samples.two_floor_graph 2).data)
    (Reachable.choose_map _ _ Reachable.construct) (by norm_num) (by decide!) (by decide!)).2.2

end Graph
end draw
end rmf_planner_viz

namespace rmf_planner_viz
namespace draw
namespace Graph
namespace Implementation

open rmf_traffic.agv (Waypoint Lane)

/-! ### The circles of the waypoints -/

theorem modify_keeps_waypoint_indices (F : MapData → MapData) (n0 : String)
    (data : List (String × MapData))
    (hF : ∀ md j, j ∈ md.waypoint_indices → j ∈ (F md).waypoint_indices) :
    ∀ n md, UMap.find? n data = some md →
      ∃ md1, UMap.find? n (UMap.modify F n0 data) = some md1 ∧
        ∀ j ∈ md.waypoint_indices, j ∈ md1.waypoint_indices := by
  intro n md hf
  rw [UMap.find?_modify]
  by_cases hn : n = n0
  · subst hn
    rw [if_pos rfl, UMap.get_of_find? hf]
    exact ⟨F md, rfl, fun j hj => hF md j hj⟩
  · rw [if_neg hn]
    exact ⟨md, hf, fun j hj => hj⟩

/-- Every waypoint that the lane loop has marked as used has its index in the
waypoint-index sequence of the bucket of its floor. -/
theorem used_vertices_filed (sqrtf : ℚ → ℚ) (g : rmf_traffic.agv.Graph) (w : ℚ) (k : Nat) :
    ∀ j ∈ (lane_state sqrtf g w k).used_vertices, ∃ wp md, g.waypoints[j]? = some wp ∧
      UMap.find? wp.map_name (lane_state sqrtf g w k).impl.data = some md ∧
      j ∈ md.waypoint_indices := by
  induction k with
  | zero =>
    intro j hj
    simp [lane_state_zero, lane_loop_init] at hj
  | succ k ih =>
    cases hl : g.lanes[k]? with
    | none => rw [lane_state_past _ _ _ _ hl]; exact ih
    | some lane =>
      have ht := textInv_lane_state sqrtf g w k
      obtain ⟨md0, h0, _⟩ := ht.text _ _ (get_waypoint_eq g lane.entry)
      rcases lane_state_cases sqrtf g w k lane hl with ⟨_, h⟩ | ⟨_, _, h⟩ | ⟨hx, _, h⟩
      · rw [h]
        intro j hj
        obtain ⟨wp, md, hwp, hf, hmem⟩ := ih j hj
        obtain ⟨md1, hf1, hsub⟩ := modify_keeps_waypoint_indices
          (fun md => { md with
            connector_waypoints_text :=
              UMap.emplace lane.entry.val
                (connector_text (g.get_waypoint lane.exit).map_name
                  (waypoint_text lane.entry.val (g.get_waypoint lane.entry))
                  (waypoint_text lane.exit.val (g.get_waypoint lane.exit)))
                md.connector_waypoints_text })
          (g.get_waypoint lane.entry).map_name _ (fun md j hj => hj) _ md hf
        exact ⟨wp, md1, hwp, hf1, hsub j hmem⟩
      · rw [h]; exact ih
      · rw [h]
        obtain ⟨F, hFd⟩ : ∃ F : MapData → MapData, F =
            file_lane sqrtf (lane_state sqrtf g w k).impl.lane_width
              (g.lane_from lane.exit.val lane.entry.val).isSome k
              lane.entry.val lane.exit.val (g.get_waypoint lane.entry).location
              (g.get_waypoint lane.exit).location
              (decide (lane.entry.val ∉ (lane_state sqrtf g w k).used_vertices))
              (decide (lane.exit.val ∉ (lane_state sqrtf g w k).used_vertices ∧
                lane.exit.val ≠ lane.entry.val)) := ⟨_, rfl⟩
        have hidx : ∀ md, (F md).waypoint_indices = md.waypoint_indices ++
            ((if decide (lane.entry.val ∉ (lane_state sqrtf g w k).used_vertices) then
                [lane.entry.val] else []) ++
              (if decide (lane.exit.val ∉ (lane_state sqrtf g w k).used_vertices ∧
                lane.exit.val ≠ lane.entry.val) then [lane.exit.val] else [])) := by
          intro md
          rw [hFd]
          exact file_lane_waypoint_indices _ _ _ _ _ _ _ _ _ _ _
        simp only [← hFd]
        have hF : ∀ (md : MapData) (j : Nat), j ∈ md.waypoint_indices →
            j ∈ (F md).waypoint_indices := by
          intro md j hj
          rw [hidx]
          exact List.mem_append_left _ hj
        have hold : ∀ j ∈ (lane_state sqrtf g w k).used_vertices, ∃ wp md,
            g.waypoints[j]? = some wp ∧
            UMap.find? wp.map_name (UMap.modify F (g.get_waypoint lane.entry).map_name
              (lane_state sqrtf g w k).impl.data) = some md ∧ j ∈ md.waypoint_indices := by
          intro j hj
          obtain ⟨wp, md, hwp, hf, hmem⟩ := ih j hj
          obtain ⟨md1, hf1, hsub⟩ := modify_keeps_waypoint_indices F
            (g.get_waypoint lane.entry).map_name _ hF _ md hf
          exact ⟨wp, md1, hwp, hf1, hsub j hmem⟩
        have hself : UMap.find? (g.get_waypoint lane.entry).map_name
            (UMap.modify F (g.get_waypoint lane.entry).map_name
              (lane_state sqrtf g w k).impl.data) =
            some (F (UMap.get (g.get_waypoint lane.entry).map_name
              (lane_state sqrtf g w k).impl.data)) := UMap.find?_modify_self _ _ _
        have hentry : ∃ wp md, g.waypoints[lane.entry.val]? = some wp ∧
            UMap.find? wp.map_name (UMap.modify F (g.get_waypoint lane.entry).map_name
              (lane_state sqrtf g w k).impl.data) = some md ∧
            lane.entry.val ∈ md.waypoint_indices := by
          by_cases hin : lane.entry.val ∈ (lane_state sqrtf g w k).used_vertices
          · exact hold _ hin
          · refine ⟨g.get_waypoint lane.entry, _, get_waypoint_eq g lane.entry, hself, ?_⟩
            rw [hidx]
            simp [hin]
        intro j hj
        simp only [USet.mem_insert] at hj
        rcases hj with hj | hj | hj
        · subst hj
          by_cases hin : lane.exit.val ∈ (lane_state sqrtf g w k).used_vertices
          · exact hold _ hin
          · by_cases hsame : lane.exit.val = lane.entry.val
            · obtain ⟨wp, md, hwp, hf, hmem⟩ := hentry
              exact ⟨wp, md, by rw [hsame]; exact hwp, hf, by rw [hsame]; exact hmem⟩
            · refine ⟨g.get_waypoint lane.exit, _, get_waypoint_eq g lane.exit,
                by rw [← hx]; exact hself, ?_⟩
              rw [hidx]
              simp [hin, hsame]
        · subst hj
          exact hentry
        · exact hold j hj

end Implementation
end Graph
end draw
end rmf_planner_viz

namespace rmf_planner_viz
namespace draw
namespace Graph
namespace Implementation

open rmf_traffic.agv (Waypoint Lane)

/-- Both end points of every same-floor lane already visited are marked as used. -/
theorem endpoints_used (sqrtf : ℚ → ℚ) (g : rmf_traffic.agv.Graph) (w : ℚ) (k : Nat) :
    ∀ i l, i < k → g.lanes[i]? = some l →
      (g.get_waypoint l.entry).map_name = (g.get_waypoint l.exit).map_name →
      l.entry.val ∈ (lane_state sqrtf g w k).used_vertices ∧
      l.exit.val ∈ (lane_state sqrtf g w k).used_vertices := by
  induction k with
  | zero =>
    intro i l hi
    omega
  | succ k ih =>
    intro i l hi hil hxl
    cases hl : g.lanes[k]? with
    | none =>
      rw [lane_state_past _ _ _ _ hl]
      have hne : i ≠ k := by
        rintro rfl
        rw [hl] at hil
        cases hil
      exact ih i l (by omega) hil hxl
    | some lane =>
      rcases lane_state_cases sqrtf g w k lane hl with ⟨hx, h⟩ | ⟨_, hu, h⟩ | ⟨_, _, h⟩
      · rw [h]
        have hne : i ≠ k := by
          rintro rfl
          rw [hl] at hil
          cases hil
          exact hx hxl
        exact ih i l (by omega) hil hxl
      · rw [h]
        by_cases hik : i = k
        · subst hik
          rw [hl] at hil
          cases hil
          obtain ⟨i2, l2, hi2, hil2, hx2, hpair, _⟩ := used_lane_origin sqrtf g w i _ _ hu
          obtain ⟨m1, m2⟩ := ih i2 l2 hi2 hil2 hx2
          rcases hpair with ⟨e1, e2⟩ | ⟨e1, e2⟩
          · rw [← e1, ← e2]
            exact ⟨m1, m2⟩
          · rw [← e1, ← e2]
            exact ⟨m2, m1⟩
        · exact ih i l (by omega) hil hxl
      · rw [h]
        simp only [USet.mem_insert]
        by_cases hik : i = k
        · subst hik
          rw [hl] at hil
          cases hil
          exact ⟨Or.inr (Or.inl rfl), Or.inl rfl⟩
        · obtain ⟨m1, m2⟩ := ih i l (by omega) hil hxl
          exact ⟨Or.inr (Or.inr m1), Or.inr (Or.inr m2)⟩

/-- After construction the waypoints with a circle are the end points of the same-floor
lanes: such a waypoint has its index in the waypoint-index sequence of the bucket of its
floor. -/
theorem build_endpoint_filed (sqrtf : ℚ → ℚ) (g : rmf_traffic.agv.Graph) (w : ℚ)
    (j : Fin g.waypoints.length) (h : is_endpoint g j.val) :
    ∃ md, UMap.find? (g.get_waypoint j).map_name (build sqrtf g w).data = some md ∧
      j.val ∈ md.waypoint_indices := by
  obtain ⟨l, hl, hx, hend⟩ := h
  obtain ⟨i, hi, hget⟩ := List.getElem_of_mem hl
  have hil : g.lanes[i]? = some l := by rw [List.getElem?_eq_getElem hi, hget]
  obtain ⟨m1, m2⟩ := endpoints_used sqrtf g w g.num_lanes i l hi hil hx
  have hj : j.val ∈ (lane_state sqrtf g w g.num_lanes).used_vertices := by
    rcases hend with e | e
    · rw [← e]; exact m1
    · rw [← e]; exact m2
  obtain ⟨wp, md, hwp, hf, hmem⟩ := used_vertices_filed sqrtf g w g.num_lanes j.val hj
  rw [get_waypoint_eq g j] at hwp
  cases hwp
  exact ⟨md, hf, hmem⟩

end Implementation
end Graph
end draw
end rmf_planner_viz

namespace rmf_planner_viz
namespace draw
namespace Graph
namespace Implementation

open rmf_traffic.agv (Waypoint Lane)

/-- C12: after construction, in every bucket the circles, the hit-test positions and the
waypoint indices have one length, and a position of the three sequences holds the index
of a waypoint of the floor of the bucket, the circle centred at the position of that
waypoint, and that position. The index of a waypoint that is an end point of a
same-floor lane occurs exactly once in the index sequence of the bucket of its floor and
in no other bucket; the index of any other waypoint occurs in no bucket; and every
waypoint, with or without such a lane, has its label in the label map of the bucket of
its floor. -/
theorem waypoint_sequences_are_aligned (sqrtf : ℚ → ℚ) (g : rmf_traffic.agv.Graph) (w : ℚ) :
    (∀ e ∈ (build sqrtf g w).data,
      e.2.waypoints.length = e.2.waypoint_indices.length ∧
      e.2.waypoint_p.length = e.2.waypoint_indices.length ∧
      ∀ pos j : Nat, e.2.waypoint_indices[pos]? = some j →
        ∃ (wp : Waypoint) (circ : CircleShape), g.waypoints[j]? = some wp ∧
          wp.map_name = e.1 ∧ e.2.waypoints[pos]? = some circ ∧
          circ.position = wp.location ∧ e.2.waypoint_p[pos]? = some wp.location) ∧
    (∀ j : Fin g.waypoints.length,
      (is_endpoint g j.val →
        (∃ md, UMap.find? (g.get_waypoint j).map_name (build sqrtf g w).data = some md ∧
          md.waypoint_indices.count j.val = 1) ∧
        ∀ e ∈ (build sqrtf g w).data, e.1 ≠ (g.get_waypoint j).map_name →
          j.val ∉ e.2.waypoint_indices) ∧
      (¬ is_endpoint g j.val → ∀ e ∈ (build sqrtf g w).data, j.val ∉ e.2.waypoint_indices) ∧
      ∃ md, UMap.find? (g.get_waypoint j).map_name (build sqrtf g w).data = some md ∧
        UMap.find? j.val md.waypoints_text = some (waypoint_text j.val (g.get_waypoint j))) := by
  constructor
  · intro e he
    have hg := build_geo sqrtf g w e he
    have hlens := bucketGeo_lengths hg
    refine ⟨hlens.2.2.2.1, hlens.2.2.2.2, ?_⟩
    intro pos j hj
    have hpos : pos < e.2.waypoint_p.length := by
      rw [hlens.2.2.2.2]
      exact (List.getElem?_eq_some_iff.1 hj).1
    obtain ⟨j2, wp, circ, hj2, hwp, hloc, hname, hcirc, hcp, _⟩ :=
      build_circle_at sqrtf g w e.1 e.2 (build_find?_of_mem sqrtf g w e he) pos _
        (List.getElem?_eq_getElem hpos)
    rw [hj] at hj2
    cases hj2
    refine ⟨wp, circ, hwp, hname, hcirc, by rw [hcp, hloc], ?_⟩
    rw [List.getElem?_eq_getElem hpos, hloc]
  · intro j
    have hother : ∀ e ∈ (build sqrtf g w).data, j.val ∈ e.2.waypoint_indices →
        e.1 = (g.get_waypoint j).map_name ∧
        j.val ∈ (lane_state sqrtf g w g.num_lanes).used_vertices := by
      intro e he hmem
      obtain ⟨huv, wp, hwp, hname⟩ := (build_geo sqrtf g w e he).wp_rec j.val hmem
      rw [get_waypoint_eq g j] at hwp
      cases hwp
      exact ⟨hname.symm, huv⟩
    refine ⟨fun hend => ⟨?_, fun e he hne hmem => hne (hother e he hmem).1⟩,
      fun hnot e he hmem => ?_, ?_⟩
    · obtain ⟨md, hf, hmem⟩ := build_endpoint_filed sqrtf g w j hend
      have hg := geo_lane_state sqrtf g w g.num_lanes _ md hf
      exact ⟨md, hf, List.count_eq_one_of_mem hg.wp_nodup hmem⟩
    · obtain ⟨i, l, _, hil, hx, hends⟩ :=
        used_vertices_endpoint sqrtf g w g.num_lanes j.val (hother e he hmem).2
      exact hnot ⟨l, List.getElem?_mem hil, hx, hends⟩
    · have ht := textInv_lane_state sqrtf g w g.num_lanes
      exact ht.text j.val _ (get_waypoint_eq g j)

end Implementation
end Graph
end draw
end rmf_planner_viz

namespace rmf_planner_viz
namespace draw
namespace Graph
namespace Implementation

open rmf_traffic.agv (Waypoint Lane)

/-! ### The first lane of a pair -/

theorem recorded_persists (sqrtf : ℚ → ℚ) (g : rmf_traffic.agv.Graph) (w : ℚ) (k i : Nat)
    (d : Nat) :
    (Recorded MapData.bi_indices (lane_state sqrtf g w k).impl.data i →
      Recorded MapData.bi_indices (lane_state sqrtf g w (k + d)).impl.data i) ∧
    (Recorded MapData.mono_indices (lane_state sqrtf g w k).impl.data i →
      Recorded MapData.mono_indices (lane_state sqrtf g w (k + d)).impl.data i) := by
  induction d with
  | zero => exact ⟨fun h => h, fun h => h⟩
  | succ d ih =>
    rw [← Nat.add_assoc]
    cases hl : g.lanes[k + d]? with
    | none =>
      rw [lane_state_past _ _ _ _ hl]
      exact ih
    | some lane =>
      obtain ⟨_, _, hbi, hmono, _⟩ := lane_state_recorded sqrtf g w (k + d) lane hl
      exact ⟨fun h => (hbi i).2 (Or.inl (ih.1 h)), fun h => (hmono i).2 (Or.inl (ih.2 h))⟩

/-- The first lane, in source order, that joins a pair of waypoints of one floor is
filed: its index is recorded after the construction, as bidirectional when the graph has
a lane back, as one-way when it has none. -/
theorem first_lane_recorded (sqrtf : ℚ → ℚ) (g : rmf_traffic.agv.Graph) (w : ℚ) (k : Nat)
    (lane : Lane g.waypoints.length) (hl : g.lanes[k]? = some lane)
    (hx : (g.get_waypoint lane.entry).map_name = (g.get_waypoint lane.exit).map_name)
    (hfirst : ∀ i, i < k → joins g lane.entry.val lane.exit.val i = false) :
    (has_reverse g lane → Recorded MapData.bi_indices (build sqrtf g w).data k) ∧
    (¬ has_reverse g lane → Recorded MapData.mono_indices (build sqrtf g w).data k) := by
  have hnot : (lane.entry.val, lane.exit.val) ∉ (lane_state sqrtf g w k).used_lanes := by
    intro hu
    obtain ⟨i, l, hi, hil, _, hpair, _⟩ := used_lane_origin sqrtf g w k _ _ hu
    have := hfirst i hi
    simp only [joins, hil] at this
    rcases hpair with ⟨e1, e2⟩ | ⟨e1, e2⟩
    · simp [e1, e2] at this
    · simp [e1, e2] at this
  obtain ⟨filed, hfiled, hbi, hmono, _⟩ := lane_state_recorded sqrtf g w k lane hl
  have hf : filed = true := hfiled.2 ⟨hx, hnot⟩
  have hk : k < g.lanes.length := (List.getElem?_eq_some_iff.1 hl).1
  have hsum : k + 1 + (g.num_lanes - (k + 1)) = g.num_lanes := by
    simp only [rmf_traffic.agv.Graph.num_lanes]
    omega
  have hp := recorded_persists sqrtf g w (k + 1) k (g.num_lanes - (k + 1))
  rw [hsum] at hp
  constructor
  · intro hr
    rw [build_data]
    exact hp.1 ((hbi k).2 (Or.inr ⟨hf, (has_reverse_iff g lane).1 hr, rfl⟩))
  · intro hr
    rw [build_data]
    refine hp.2 ((hmono k).2 (Or.inr ⟨hf, ?_, rfl⟩))
    cases hc : (g.lane_from lane.exit.val lane.entry.val).isSome with
    | false => rfl
    | true => exact absurd ((has_reverse_iff g lane).2 hc) hr

end Implementation
end Graph
end draw
end rmf_planner_viz

namespace rmf_planner_viz
namespace draw
namespace Graph
namespace Implementation

open rmf_traffic.agv (Waypoint Lane)

theorem joins_iff (g : rmf_traffic.agv.Graph) (a b i : Nat) :
    joins g a b i = true ↔ ∃ l, g.lanes[i]? = some l ∧
      ((l.entry.val = a ∧ l.exit.val = b) ∨ (l.entry.val = b ∧ l.exit.val = a)) := by
  unfold joins
  cases g.lanes[i]? with
  | none => simp
  | some l => simp

theorem recorded_bi_reverse (sqrtf : ℚ → ℚ) (g : rmf_traffic.agv.Graph) (w : ℚ) (i : Nat)
    (l : Lane g.waypoints.length) (hl : g.lanes[i]? = some l)
    (h : Recorded MapData.bi_indices (build sqrtf g w).data i) : has_reverse g l := by
  obtain ⟨n, md, hf, hi⟩ := h
  obtain ⟨_, l2, hl2, _, _, hrev⟩ := (geo_lane_state sqrtf g w g.num_lanes n md hf).bi_rec i hi
  rw [hl] at hl2
  cases hl2
  exact (has_reverse_iff g l).2 hrev

theorem recorded_mono_no_reverse (sqrtf : ℚ → ℚ) (g : rmf_traffic.agv.Graph) (w : ℚ) (i : Nat)
    (l : Lane g.waypoints.length) (hl : g.lanes[i]? = some l)
    (h : Recorded MapData.mono_indices (build sqrtf g w).data i) : ¬ has_reverse g l := by
  obtain ⟨n, md, hf, hi⟩ := h
  obtain ⟨_, l2, hl2, _, _, hrev⟩ := (geo_lane_state sqrtf g w g.num_lanes n md hf).mono_rec i hi
  rw [hl] at hl2
  cases hl2
  intro hr
  rw [has_reverse_iff, hrev] at hr
  exact Bool.noConfusion hr

/-- Two lanes that join the same pair: one has a reverse lane exactly when the other
has. -/
theorem has_reverse_of_pair (g : rmf_traffic.agv.Graph) (l l0 : Lane g.waypoints.length)
    (hl : l ∈ g.lanes) (hl0 : l0 ∈ g.lanes)
    (hpair : (l.entry.val = l0.entry.val ∧ l.exit.val = l0.exit.val) ∨
      (l.entry.val = l0.exit.val ∧ l.exit.val = l0.entry.val)) :
    has_reverse g l ↔ has_reverse g l0 := by
  rcases hpair with ⟨e1, e2⟩ | ⟨e1, e2⟩
  · have h1 : l.entry = l0.entry := Fin.ext e1
    have h2 : l.exit = l0.exit := Fin.ext e2
    simp only [has_reverse, h1, h2]
  · have h1 : l.entry = l0.exit := Fin.ext e1
    have h2 : l.exit = l0.entry := Fin.ext e2
    exact ⟨fun _ => ⟨l, hl, h1, h2⟩, fun _ => ⟨l0, hl0, h2.symm, h1.symm⟩⟩

/-- How the pair of a same-floor lane is filed depends only on whether the graph has a
lane back: a recorded bidirectional capsule joins the pair exactly when it has, a
recorded one-way capsule exactly when it has not. -/
theorem pair_filed_iff (sqrtf : ℚ → ℚ) (g : rmf_traffic.agv.Graph) (w : ℚ)
    (l0 : Lane g.waypoints.length) (hl0 : l0 ∈ g.lanes)
    (hx : (g.get_waypoint l0.entry).map_name = (g.get_waypoint l0.exit).map_name) :
    ((∃ i, Recorded MapData.bi_indices (build sqrtf g w).data i ∧
        joins g l0.entry.val l0.exit.val i = true) ↔ has_reverse g l0) ∧
    ((∃ i, Recorded MapData.mono_indices (build sqrtf g w).data i ∧
        joins g l0.entry.val l0.exit.val i = true) ↔ ¬ has_reverse g l0) := by
  obtain ⟨k1, hk1, hget⟩ := List.getElem_of_mem hl0
  have hil0 : g.lanes[k1]? = some l0 := by rw [List.getElem?_eq_getElem hk1, hget]
  have hu := used_covers sqrtf g w g.num_lanes k1 l0 hk1 hil0 hx
  obtain ⟨i, l, _, hil, _, hpair, hrec⟩ := used_lane_origin sqrtf g w g.num_lanes _ _ hu
  have hj : joins g l0.entry.val l0.exit.val i = true := (joins_iff g _ _ i).2 ⟨l, hil, hpair⟩
  have hrl := has_reverse_of_pair g l l0 (List.getElem?_mem hil) hl0 hpair
  constructor
  · constructor
    · rintro ⟨i2, hrec2, hj2⟩
      obtain ⟨l2, hil2, hpair2⟩ := (joins_iff g _ _ i2).1 hj2
      exact (has_reverse_of_pair g l2 l0 (List.getElem?_mem hil2) hl0 hpair2).1
        (recorded_bi_reverse sqrtf g w i2 l2 hil2 hrec2)
    · intro hr
      rcases hrec with hb | hm
      · exact ⟨i, hb, hj⟩
      · exact absurd (hrl.2 hr) (recorded_mono_no_reverse sqrtf g w i l hil hm)
  · constructor
    · rintro ⟨i2, hrec2, hj2⟩ hr
      obtain ⟨l2, hil2, hpair2⟩ := (joins_iff g _ _ i2).1 hj2
      exact recorded_mono_no_reverse sqrtf g w i2 l2 hil2 hrec2
        ((has_reverse_of_pair g l2 l0 (List.getElem?_mem hil2) hl0 hpair2).2 hr)
    · intro hr
      rcases hrec with hb | hm
      · exact absurd (hrl.1 (recorded_bi_reverse sqrtf g w i l hil hb)) hr
      · exact ⟨i, hm, hj⟩

end Implementation
end Graph
end draw
end rmf_planner_viz

namespace rmf_planner_viz
namespace draw
namespace Graph
namespace Implementation

open rmf_traffic.agv (Waypoint Lane)

theorem joins_eq_runs (g : rmf_traffic.agv.Graph) (a b i : Nat) :
    joins g a b i = (runs g a b i || runs g b a i) := by
  unfold joins runs
  cases g.lanes[i]? <;> rfl

theorem runs_has_reverse (g : rmf_traffic.agv.Graph) (lane : Lane g.waypoints.length) (i : Nat)
    (h : runs g lane.exit.val lane.entry.val i = true) : has_reverse g lane := by
  unfold runs at h
  cases hi : g.lanes[i]? with
  | none => simp [hi] at h
  | some l =>
    simp only [hi, Bool.and_eq_true, decide_eq_true_eq] at h
    exact ⟨l, List.getElem?_mem hi, Fin.ext h.1, Fin.ext h.2⟩

/-- C19: let the lane of index `k` stay on one floor, let no lane before it run between
the same waypoints in the same direction and, when the graph has a lane back (the pair
is bidirectional), let no lane before it run in the other direction either. Then exactly
one filed capsule joins the pair; it sits in the bucket of the floor, it records the
index `k` and runs from the entry position to the exit position of that lane; it is
filed in the bidirectional sequences when the graph has a lane back and in the one-way
sequences when it has none; and in every graph with the same waypoints and a permutation
of the lanes the pair is filed as bidirectional exactly when the graph has a lane back,
and as one-way exactly when it has none. -/
theorem first_lane_wins (sqrtf : ℚ → ℚ) (g : rmf_traffic.agv.Graph) (w : ℚ) (k : Nat)
    (lane : Lane g.waypoints.length) (hl : g.lanes[k]? = some lane)
    (hx : (g.get_waypoint lane.entry).map_name = (g.get_waypoint lane.exit).map_name)
    (hfirst : ∀ i, i < k → runs g lane.entry.val lane.exit.val i = false)
    (hback : has_reverse g lane → ∀ i, i < k → runs g lane.exit.val lane.entry.val i = false) :
    (lane_entries (build sqrtf g w).data).countP
        (fun e => joins g lane.entry.val lane.exit.val e.1) = 1 ∧
    (∃ (md : MapData) (pos : Nat) (c : Capsule),
      UMap.find? (g.get_waypoint lane.entry).map_name (build sqrtf g w).data = some md ∧
      ((has_reverse g lane ∧ md.bi_indices[pos]? = some k ∧ md.bi_lanes[pos]? = some c) ∨
        (¬ has_reverse g lane ∧ md.mono_indices[pos]? = some k ∧
          md.mono_lanes[pos]? = some c)) ∧
      c.v0.position = (g.get_waypoint lane.entry).location ∧
      c.v1.position = (g.get_waypoint lane.exit).location) ∧
    (∀ lanes2 : List (Lane g.waypoints.length), lanes2.Perm g.lanes →
      ((∃ i, Recorded MapData.bi_indices
            (build sqrtf (⟨g.waypoints, lanes2⟩ : rmf_traffic.agv.Graph) w).data i ∧
          joins (⟨g.waypoints, lanes2⟩ : rmf_traffic.agv.Graph)
            lane.entry.val lane.exit.val i = true) ↔ has_reverse g lane) ∧
      ((∃ i, Recorded MapData.mono_indices
            (build sqrtf (⟨g.waypoints, lanes2⟩ : rmf_traffic.agv.Graph) w).data i ∧
          joins (⟨g.waypoints, lanes2⟩ : rmf_traffic.agv.Graph)
            lane.entry.val lane.exit.val i = true) ↔ ¬ has_reverse g lane)) := by
  have hjoin : ∀ i, i < k → joins g lane.entry.val lane.exit.val i = false := by
    intro i hi
    rw [joins_eq_runs, hfirst i hi, Bool.false_or]
    cases hr : runs g lane.exit.val lane.entry.val i with
    | false => rfl
    | true =>
      have hb := hback (runs_has_reverse g lane i hr) i hi
      rw [hr] at hb
      exact hb
  obtain ⟨hbi, hmono⟩ := first_lane_recorded sqrtf g w k lane hl hx hjoin
  have hrec : Recorded MapData.bi_indices (build sqrtf g w).data k ∨
      Recorded MapData.mono_indices (build sqrtf g w).data k := by
    by_cases hr : has_reverse g lane
    · exact Or.inl (hbi hr)
    · exact Or.inr (hmono hr)
  refine ⟨count_joins_of_recorded sqrtf g w _ _ k lane hl hrec (Or.inl ⟨rfl, rfl⟩), ?_, ?_⟩
  · by_cases hr : has_reverse g lane
    · obtain ⟨n, md, hf, hmem⟩ := hbi hr
      have hg := geo_lane_state sqrtf g w g.num_lanes n md hf
      obtain ⟨_, l2, hl2, hn, _, _⟩ := hg.bi_rec k hmem
      rw [hl] at hl2
      cases hl2
      obtain ⟨pos, hpos, hget⟩ := List.getElem_of_mem hmem
      have hidx : md.bi_indices[pos]? = some k := by rw [List.getElem?_eq_getElem hpos, hget]
      obtain ⟨c, hc, hcap⟩ := map_some_eq_map_at _ _ _ hg.bi_lanes_eq pos k hidx
      simp only [capsule_at, hl, Option.map_some', Option.some.injEq] at hcap
      refine ⟨md, pos, c, by rw [hn]; exact hf, Or.inl ⟨hr, hidx, hc⟩, ?_, ?_⟩
      · rw [← hcap]; rfl
      · rw [← hcap]; rfl
    · obtain ⟨n, md, hf, hmem⟩ := hmono hr
      have hg := geo_lane_state sqrtf g w g.num_lanes n md hf
      obtain ⟨_, l2, hl2, hn, _, _⟩ := hg.mono_rec k hmem
      rw [hl] at hl2
      cases hl2
      obtain ⟨pos, hpos, hget⟩ := List.getElem_of_mem hmem
      have hidx : md.mono_indices[pos]? = some k := by
        rw [List.getElem?_eq_getElem hpos, hget]
      obtain ⟨c, hc, hcap⟩ := map_some_eq_map_at _ _ _ hg.mono_lanes_eq pos k hidx
      simp only [capsule_at, hl, Option.map_some', Option.some.injEq] at hcap
      refine ⟨md, pos, c, by rw [hn]; exact hf, Or.inr ⟨hr, hidx, hc⟩, ?_, ?_⟩
      · rw [← hcap]; rfl
      · rw [← hcap]; rfl
  · intro lanes2 hperm
    have hmem2 : lane ∈ lanes2 := hperm.mem_iff.2 (List.getElem?_mem hl)
    have hrev : has_reverse (⟨g.waypoints, lanes2⟩ : rmf_traffic.agv.Graph) lane ↔
        has_reverse g lane := by
      constructor
      · rintro ⟨r, hr, h1, h2⟩
        exact ⟨r, hperm.mem_iff.1 hr, h1, h2⟩
      · rintro ⟨r, hr, h1, h2⟩
        exact ⟨r, hperm.mem_iff.2 hr, h1, h2⟩
    have h := pair_filed_iff sqrtf (⟨g.waypoints, lanes2⟩ : rmf_traffic.agv.Graph) w lane
      hmem2 hx
    rw [hrev] at h
    exact h

end Implementation
end Graph
end draw
end rmf_planner_viz

namespace rmf_planner_viz
namespace draw
namespace Graph
namespace Implementation

open rmf_traffic.agv (Waypoint Lane)

theorem first_lane_wins_witness :
    (lane_entries (build Samples.sample_sqrt Samples.two_floor_graph 2).data).countP
        (fun e => joins Samples.two_floor_graph 2 3 e.1) = 1 :=
  (first_lane_wins Samples.sample_sqrt Samples.two_floor_graph 2 1 (⟨2, 3⟩ : Lane 5)
    (by decide!) (by decide!)
    (fun i hi => by
      have h0 : i = 0 := by omega
      subst h0
      decide!)
    (fun _ i hi => by
      have h0 : i = 0 := by omega
      subst h0
      decide!)).1

end Implementation
end Graph
end draw
end rmf_planner_viz

namespace rmf_planner_viz
namespace draw
namespace Graph

open rmf_traffic.agv (Waypoint Lane)
open Implementation

/-! ### Picks that name no primitive -/

theorem names_lane_iff (sqrtf : ℚ → ℚ) (g : rmf_traffic.agv.Graph) (w : ℚ) (k : Nat) :
    names_primitive (build sqrtf g w).data ⟨ElementType.Lane, k⟩ ↔
      (Recorded MapData.bi_indices (build sqrtf g w).data k ∨
        Recorded MapData.mono_indices (build sqrtf g w).data k) := by
  constructor
  · rintro ⟨e, he, hn⟩
    have hf := build_find?_of_mem sqrtf g w e he
    simp [names_in] at hn
    rcases hn with hn | hn
    · exact Or.inl ⟨e.1, e.2, hf, hn⟩
    · exact Or.inr ⟨e.1, e.2, hf, hn⟩
  · rintro (⟨n, md, hf, hi⟩ | ⟨n, md, hf, hi⟩)
    · exact ⟨(n, md), UMap.mem_of_find? hf, by simp [names_in, hi]⟩
    · exact ⟨(n, md), UMap.mem_of_find? hf, by simp [names_in, hi]⟩

/-- A cross-floor lane is never recorded. -/
theorem Implementation.cross_floor_not_named (sqrtf : ℚ → ℚ) (g : rmf_traffic.agv.Graph)
    (w : ℚ) (k : Nat) (lane : Lane g.waypoints.length) (hl : g.lanes[k]? = some lane)
    (hx : (g.get_waypoint lane.entry).map_name ≠ (g.get_waypoint lane.exit).map_name) :
    ¬ names_primitive (build sqrtf g w).data ⟨ElementType.Lane, k⟩ := by
  rw [names_lane_iff]
  rintro (⟨n, md, hf, hi⟩ | ⟨n, md, hf, hi⟩)
  · obtain ⟨_, l2, hl2, a, b, _⟩ := (geo_lane_state sqrtf g w g.num_lanes n md hf).bi_rec k hi
    rw [hl] at hl2
    cases hl2
    exact hx (a.trans b.symm)
  · obtain ⟨_, l2, hl2, a, b, _⟩ := (geo_lane_state sqrtf g w g.num_lanes n md hf).mono_rec k hi
    rw [hl] at hl2
    cases hl2
    exact hx (a.trans b.symm)

/-- A lane whose pair is joined by an earlier lane, in either direction, is skipped. -/
theorem Implementation.later_lane_not_named (sqrtf : ℚ → ℚ) (g : rmf_traffic.agv.Graph)
    (w : ℚ) (k : Nat) (lane : Lane g.waypoints.length) (hl : g.lanes[k]? = some lane)
    (i : Nat) (hi : i < k) (hj : joins g lane.entry.val lane.exit.val i = true) :
    ¬ names_primitive (build sqrtf g w).data ⟨ElementType.Lane, k⟩ := by
  rw [names_lane_iff]
  intro hrec
  obtain ⟨l, hil, hpair⟩ := (joins_iff g _ _ i).1 hj
  have hx : (g.get_waypoint lane.entry).map_name = (g.get_waypoint lane.exit).map_name := by
    rcases hrec with ⟨n, md, hf, hm⟩ | ⟨n, md, hf, hm⟩
    · obtain ⟨_, l2, hl2, a, b, _⟩ := (geo_lane_state sqrtf g w g.num_lanes n md hf).bi_rec k hm
      rw [hl] at hl2
      cases hl2
      exact a.trans b.symm
    · obtain ⟨_, l2, hl2, a, b, _⟩ :=
        (geo_lane_state sqrtf g w g.num_lanes n md hf).mono_rec k hm
      rw [hl] at hl2
      cases hl2
      exact a.trans b.symm
  have hxl : (g.get_waypoint l.entry).map_name = (g.get_waypoint l.exit).map_name := by
    rcases hpair with ⟨e1, e2⟩ | ⟨e1, e2⟩
    · rw [Fin.ext e1, Fin.ext e2]
      exact hx
    · rw [Fin.ext e1, Fin.ext e2]
      exact hx.symm
  have hu := used_covers sqrtf g w k i l hi hil hxl
  obtain ⟨i2, l2, hi2, hil2, _, hpair2, hrec2⟩ := used_lane_origin sqrtf g w k _ _ hu
  have hk : k < g.lanes.length := (List.getElem?_eq_some_iff.1 hl).1
  have hsum : k + (g.num_lanes - k) = g.num_lanes := by
    simp only [rmf_traffic.agv.Graph.num_lanes]
    omega
  have hp := recorded_persists sqrtf g w k i2 (g.num_lanes - k)
  rw [hsum] at hp
  have hrec3 : Recorded MapData.bi_indices (lane_state sqrtf g w g.num_lanes).impl.data i2 ∨
      Recorded MapData.mono_indices (lane_state sqrtf g w g.num_lanes).impl.data i2 := by
    rcases hrec2 with h1 | h1
    · exact Or.inl (hp.1 h1)
    · exact Or.inr (hp.2 h1)
  have heq := recorded_pair_unique sqrtf g w g.num_lanes i2 k l2 lane hil2 hl hrec3 hrec ?_
  · omega
  · rcases hpair2 with ⟨a1, a2⟩ | ⟨a1, a2⟩ <;> rcases hpair with ⟨b1, b2⟩ | ⟨b1, b2⟩
    · exact Or.inl ⟨a1.trans b1, a2.trans b2⟩
    · exact Or.inr ⟨a1.trans b1, a2.trans b2⟩
    · exact Or.inr ⟨a1.trans b2, a2.trans b1⟩
    · exact Or.inl ⟨a1.trans b2, a2.trans b1⟩

/-- A waypoint that is no end point of a same-floor lane has no circle. -/
theorem Implementation.lone_waypoint_not_named (sqrtf : ℚ → ℚ) (g : rmf_traffic.agv.Graph)
    (w : ℚ) (j : Nat) (hj : ¬ is_endpoint g j) :
    ¬ names_primitive (build sqrtf g w).data ⟨ElementType.Waypoint, j⟩ := by
  rintro ⟨e, he, hn⟩
  simp [names_in] at hn
  obtain ⟨huv, _⟩ := (build_geo sqrtf g w e he).wp_rec j hn
  obtain ⟨i, l, _, hil, hx, hends⟩ := used_vertices_endpoint sqrtf g w g.num_lanes j huv
  exact hj ⟨l, List.getElem?_mem hil, hx, hends⟩

end Graph
end draw
end rmf_planner_viz

namespace rmf_planner_viz
namespace draw
namespace Graph

open rmf_traffic.agv (Waypoint Lane)
open Implementation

/-- In a sound state a pick names a primitive exactly when it names one of the
construction. -/
theorem sound_names_false {sqrtf : ℚ → ℚ} {g : rmf_traffic.agv.Graph} {w : ℚ}
    {s : Implementation} (hs : Sound sqrtf g w s) (p : Pick)
    (hp : ¬ names_primitive (build sqrtf g w).data p) :
    ∀ e ∈ s.data, names_in e.2 p = false := by
  intro e he
  have hmem : (e.1, geometry e.2) ∈ (build sqrtf g w).data.map (fun e => (e.1, geometry e.2)) := by
    rw [← hs.geometry]
    exact List.mem_map.2 ⟨e, he, rfl⟩
  obtain ⟨e0, he0, heq⟩ := List.mem_map.1 hmem
  have hgeo : geometry e0.2 = geometry e.2 := congrArg Prod.snd heq
  cases hn : names_in e.2 p with
  | false => rfl
  | true =>
    exact absurd ⟨e0, he0, by rw [names_in_of_geometry _ _ hgeo, hn]⟩ hp

theorem paint_of_not_named (p : Pick) (ce cx cw : Color) (md : MapData)
    (h : names_in md p = false) : paint p ce cx cw md = md := by
  rw [paint, hit_of_none p ce cx cw md h]
  rfl

theorem select_selected (s : Implementation) (p : Pick) : (select s p).selected = some p := by
  cases hsel : s.selected with
  | none =>
    simp only [select, hsel, highlight]
    exact (change_color_fields ({ s with selected := some p } : Implementation) p _ _ _).1
  | some q =>
    simp only [select, hsel, highlight, unhighlight]
    exact (change_color_fields
      ({ change_color s q LaneEntryColor LaneExitColor WaypointColor with
        selected := some p } : Implementation) p _ _ _).1

/-- C22: in every state reached from the construction, `select(p)` makes `selected()`
return `p`, whatever the pick, and a `deselect()` after it makes `selected()` return
nothing. When `p` names no built primitive, `select(p)` leaves the buckets as the revert
of the previously selected element leaves them (unchanged when nothing was selected).
Picks that name no built primitive are: the index of a cross-floor lane, the index of a
lane whose pair is joined by an earlier lane in either direction, and the index of a
waypoint that is no end point of a same-floor lane. -/
theorem select_records_any_pick (sqrtf : ℚ → ℚ) (g : rmf_traffic.agv.Graph) (w : ℚ)
    (s : Implementation) (p : Pick) (h : Reachable sqrtf g w s) :
    selected (select s p) = some p ∧
    selected (deselect (select s p)) = none ∧
    (¬ names_primitive (build sqrtf g w).data p →
      (select s p).data =
        (match s.selected with
          | some previous => unhighlight s previous
          | none => s).data) ∧
    (∀ (k : Nat) (lane : Lane g.waypoints.length), g.lanes[k]? = some lane →
      (g.get_waypoint lane.entry).map_name ≠ (g.get_waypoint lane.exit).map_name →
      ¬ names_primitive (build sqrtf g w).data ⟨ElementType.Lane, k⟩) ∧
    (∀ (k : Nat) (lane : Lane g.waypoints.length), g.lanes[k]? = some lane →
      (∃ i, i < k ∧ joins g lane.entry.val lane.exit.val i = true) →
      ¬ names_primitive (build sqrtf g w).data ⟨ElementType.Lane, k⟩) ∧
    (∀ j : Nat, ¬ is_endpoint g j →
      ¬ names_primitive (build sqrtf g w).data ⟨ElementType.Waypoint, j⟩) := by
  have hs := reachable_sound sqrtf g w s h
  refine ⟨select_selected s p, rfl, fun hp => ?_,
    fun k lane hl hx => cross_floor_not_named sqrtf g w k lane hl hx,
    fun k lane hl ⟨i, hi, hj⟩ => later_lane_not_named sqrtf g w k lane hl i hi hj,
    fun j hj => lone_waypoint_not_named sqrtf g w j hj⟩
  have hno := sound_names_false hs p hp
  obtain ⟨_, hd⟩ := select_data s p hs.shape
  rw [hd]
  cases hsel : s.selected with
  | none =>
    simp only
    have : s.data.map (fun (e : String × MapData) =>
        (e.1, paint p Color.Cyan Color.Yellow Color.Magenta e.2)) = s.data.map id := by
      apply List.map_congr_left
      intro e he
      rw [paint_of_not_named p _ _ _ e.2 (hno e he)]
      rfl
    rw [this, List.map_id]
  | some prev =>
    simp only
    rw [unhighlight, change_color_map s prev _ _ _ hs.shape, List.map_map]
    apply List.map_congr_left
    intro e he
    simp only [Function.comp_apply]
    rw [paint_of_not_named p _ _ _ _
      (by rw [paint_names_in _ p _ _ _ _ (hs.shape.shape e he)]; exact hno e he)]

theorem select_records_any_pick_witness :
    selected (select (select (build Samples.sample_sqrt Samples.two_way_graph 2)
      ⟨ElementType.Waypoint, 0⟩) ⟨ElementType.Lane, 1⟩) = some ⟨ElementType.Lane, 1⟩ :=
  (select_records_any_pick Samples.sample_sqrt Samples.two_way_graph 2
    (select (build Samples.sample_sqrt Samples.two_way_graph 2) ⟨ElementType.Waypoint, 0⟩)
    ⟨ElementType.Lane, 1⟩ (Reachable.select _ _ Reachable.construct)).1

end Graph
end draw
end rmf_planner_viz
